import Mathlib

/-!
# Receipt processor: points computation

A shallow embedding of `cmd/receipt-processor/main.go` and a verification of
its specification.

Modelling conventions.

* Go strings are modelled by Lean strings (sequences of Unicode scalar values,
  i.e. valid UTF-8, which is what JSON decoding produces).  `len` is the number
  of bytes of the UTF-8 encoding.  The library scanners used by the program
  (`strconv.ParseFloat`, `time.Parse`) only test for ASCII bytes, and in UTF-8
  an ASCII byte occurs only as the encoding of that ASCII character, so they
  are modelled character by character.
* Go's `int` is the 64-bit two's-complement integer of the amd64 and arm64
  targets: values are `Int`s in `[-2^63, 2^63)` and every addition is followed
  by `wrapInt`.
* A `float64` is modelled by `F64`: NaN, the two infinities, or a finite value
  carried as the exact rational it denotes.  Every rounding operation goes
  through `roundToF64` (IEEE 754 binary64, round to nearest, ties to even).
  Negative zero is identified with zero: the program never divides by a float,
  prints one or inspects its sign bit, and every comparison it makes treats the
  two zeros alike.
* The conversion `int(x)` of a float that does not fit an `int` (or is NaN) is
  implementation-dependent in Go; it is the parameter `ovf` of the model.
  `amd64` and `arm64` are the two usual instances.
* The functions of the standard library that the program calls
  (`strconv.ParseFloat`, `time.Parse`, `regexp.FindAllString`,
  `strings.TrimSpace`, `math.Mod`, `math.Ceil`, `math.Abs`) are not part of the
  repository; each is modelled after its documented behaviour, under its own
  name.
* The map `receiptPoints` and the identifier generator are explicit state
  (`Server`); decoding of the request body is an input of the handler.
-/

namespace ReceiptProcessor

/-! ## Machine integers -/

/-- Reduction of an integer to the 64-bit two's-complement range of Go's `int`. -/
def wrapInt (x : Int) : Int := (x + 2 ^ 63) % 2 ^ 64 - 2 ^ 63

/-- Addition of Go `int`s. -/
def addInt (a b : Int) : Int := wrapInt (a + b)

/-- Multiplication of Go `int`s. -/
def mulInt (a b : Int) : Int := wrapInt (a * b)

/-! ## The `float64` model -/

/-- A `float64` value. -/
inductive F64 where
  | nan : F64
  | inf (neg : Bool) : F64
  | fin (q : ℚ) : F64
deriving DecidableEq

/-- Rounding of a rational to the nearest integer, ties to the even one. -/
def rne (x : ℚ) : Int :=
  if x - ⌊x⌋ < 1 / 2 then ⌊x⌋
  else if 1 / 2 < x - ⌊x⌋ then ⌊x⌋ + 1
  else if ⌊x⌋ % 2 = 0 then ⌊x⌋ else ⌊x⌋ + 1

/-- Number of halvings that bring `n` below 2, at most `fuel` of them. -/
def natLog2Aux : Nat → Nat → Nat
  | 0, _ => 0
  | fuel + 1, n => if 2 ≤ n then natLog2Aux fuel (n / 2) + 1 else 0

/-- Binary logarithm of a natural number, rounded down (`0` at `0`). -/
def natLog2 (n : Nat) : Nat := natLog2Aux n n

/-- Binary exponent of a positive rational: the `e` with `2^e ≤ a < 2^(e+1)`. -/
def floorLog2 (a : ℚ) : Int :=
  if a < 2 ^ ((natLog2 a.num.natAbs : Int) - (natLog2 a.den : Int))
  then (natLog2 a.num.natAbs : Int) - (natLog2 a.den : Int) - 1
  else (natLog2 a.num.natAbs : Int) - (natLog2 a.den : Int)

/-- Binary exponent used to round `q`: that of `|q|`, but not below the one of
the subnormal numbers. -/
def roundExp (q : ℚ) : Int := max (floorLog2 |q|) (-1022)

/-- Magnitude of the binary64 number nearest to `q` (53-bit significand, ties
to even), before the overflow test. -/
def roundMag (q : ℚ) : ℚ :=
  (rne (|q| / 2 ^ (roundExp q - 52)) : ℚ) * 2 ^ (roundExp q - 52)

/-- IEEE 754 binary64 rounding of an exact value: the nearest representable
number, ties to even; a result of magnitude `2^1024` or more is an infinity. -/
def roundToF64 (q : ℚ) : F64 :=
  if q = 0 then .fin 0
  else if (2 : ℚ) ^ (1024 : Int) ≤ roundMag q then .inf (decide (q < 0))
  else .fin (if q < 0 then -roundMag q else roundMag q)

namespace F64

/-- Go's `<` on `float64`. -/
def lt : F64 → F64 → Bool
  | fin a, fin b => decide (a < b)
  | fin _, inf neg => !neg
  | inf neg, fin _ => neg
  | inf a, inf b => a && !b
  | _, _ => false

/-- Go's `==` on `float64` (NaN differs from everything, itself included). -/
def eq : F64 → F64 → Bool
  | fin a, fin b => decide (a = b)
  | inf a, inf b => a == b
  | _, _ => false

/-- Go's `*` on `float64`. -/
def mul : F64 → F64 → F64
  | fin a, fin b => roundToF64 (a * b)
  | fin a, inf neg => if a = 0 then nan else inf (neg != decide (a < 0))
  | inf neg, fin b => if b = 0 then nan else inf (neg != decide (b < 0))
  | inf a, inf b => inf (a != b)
  | _, _ => nan

/-- Go's binary `-` on `float64`. -/
def sub : F64 → F64 → F64
  | fin a, fin b => roundToF64 (a - b)
  | fin _, inf neg => inf (!neg)
  | inf neg, fin _ => inf neg
  | inf a, inf b => if a = b then nan else inf a
  | _, _ => nan

end F64

/-- Go's `math.Abs`. -/
def Abs : F64 → F64
  | .fin q => .fin |q|
  | .inf _ => .inf false
  | .nan => .nan

/-- Go's `math.Ceil`: the least integer value not below `x`; infinities and
NaN are returned unchanged. -/
def Ceil : F64 → F64
  | .fin q => .fin (⌈q⌉ : Int)
  | x => x

/-- Go's `math.Mod`: the remainder of `x / y` with the sign of `x`, computed
exactly (`x - y * trunc(x / y)`); NaN when `x` is infinite or NaN, or `y` is
zero or NaN; `x` itself when `y` is infinite. -/
def Mod : F64 → F64 → F64
  | .fin x, .fin y => if y = 0 then .nan else .fin (x - y * ((x / y).num.tdiv (x / y).den : Int))
  | .fin x, .inf _ => .fin x
  | _, _ => .nan

/-- The conversion `int(x)`: truncation toward zero when the result fits a
64-bit `int`; otherwise the implementation-dependent value `ovf x`. -/
def floatToInt (ovf : F64 → Int) : F64 → Int
  | .fin q =>
    if -2 ^ 63 ≤ q.num.tdiv q.den ∧ q.num.tdiv q.den < 2 ^ 63 then q.num.tdiv q.den
    else wrapInt (ovf (.fin q))
  | x => wrapInt (ovf x)

/-- The conversion `float64(i)` of an `int`. -/
def intToFloat (i : Int) : F64 := roundToF64 i

/-- Out-of-range `int(x)` on amd64: the "integer indefinite" value `-2^63`. -/
def amd64 : F64 → Int := fun _ => -2 ^ 63

/-- Number of bytes of the UTF-8 encoding of a character. -/
def utf8Len (c : Char) : Nat :=
  if c.toNat < 0x80 then 1 else if c.toNat < 0x800 then 2 else if c.toNat < 0x10000 then 3 else 4

/-- Go's `len` of a string: its length in bytes. -/
def len (s : List Char) : Nat := (s.map utf8Len).sum

/-- An ASCII decimal digit, `'0' <= c && c <= '9'`. -/
def isDigit (c : Char) : Bool := decide (48 ≤ c.toNat ∧ c.toNat ≤ 57)

/-- Value of a decimal digit, `c - '0'`. -/
def digitVal (c : Char) : Nat := c.toNat - 48

/-- The `lower` of package `strconv`, `c | ('x' - 'X')`, as a character code. -/
def lower (c : Char) : Nat := c.toNat ||| 0x20

/-- A hexadecimal letter, `'a' <= lower(c) && lower(c) <= 'f'`. -/
def isHexLetter (c : Char) : Bool := decide (97 ≤ lower c ∧ lower c ≤ 102)

/-- Go's `unicode.IsSpace`: the characters with the Unicode property White_Space. -/
def isSpace (c : Char) : Bool :=
  decide ((9 ≤ c.toNat ∧ c.toNat ≤ 13) ∨ c.toNat = 0x20 ∨ c.toNat = 0x85 ∨ c.toNat = 0xA0
    ∨ c.toNat = 0x1680 ∨ (0x2000 ≤ c.toNat ∧ c.toNat ≤ 0x200A) ∨ c.toNat = 0x2028
    ∨ c.toNat = 0x2029 ∨ c.toNat = 0x202F ∨ c.toNat = 0x205F ∨ c.toNat = 0x3000)

/-- Go's `strings.TrimSpace`: the string without its leading and trailing white space. -/
def TrimSpace (s : List Char) : List Char :=
  ((s.dropWhile isSpace).reverse.dropWhile isSpace).reverse

/-- A character of the class `[A-Za-z0-9]`. -/
def isAlnum (c : Char) : Bool :=
  decide ((65 ≤ c.toNat ∧ c.toNat ≤ 90) ∨ (97 ≤ c.toNat ∧ c.toNat ≤ 122)
    ∨ (48 ≤ c.toNat ∧ c.toNat ≤ 57))

/-- The matches `regexp.MustCompile("[A-Za-z0-9]").FindAllString(s, -1)`: every
character of the class is one match, in order. -/
def FindAllString (s : List Char) : List (List Char) :=
  (s.filter isAlnum).map fun c => [c]

/-! ## `strconv.ParseFloat(s, 64)` -/

/-- ASCII lower-casing of the letters `A`..`Z`, as `commonPrefixLenIgnoreCase` does. -/
def foldCase (c : Char) : Nat := if 65 ≤ c.toNat ∧ c.toNat ≤ 90 then c.toNat + 32 else c.toNat

/-- The `commonPrefixLenIgnoreCase` of `strconv`: length of the longest common
prefix of a string and a lower-case word, ignoring the case of the string. -/
def commonPrefixLenIgnoreCase : List Char → List Char → Nat
  | c :: cs, p :: ps => if foldCase c = p.toNat then commonPrefixLenIgnoreCase cs ps + 1 else 0
  | _, _ => 0

/-- Length of the prefix of `s` that `special` reads as an infinity (`inf` or
`infinity`, any case), or `0`. -/
def infPrefix (s : List Char) : Nat :=
  if commonPrefixLenIgnoreCase s "infinity".data = 8 then 8
  else if 3 ≤ commonPrefixLenIgnoreCase s "infinity".data then 3 else 0

/-- The `special` of `strconv`: the value and the number of characters read
when `s` starts with a possibly signed infinity or with an unsigned NaN. -/
def special : List Char → Option (F64 × Nat)
  | [] => none
  | c :: cs =>
    if c = '+' ∨ c = '-' then
      if infPrefix cs = 0 then none else some (.inf (decide (c = '-')), 1 + infPrefix cs)
    else if c = 'i' ∨ c = 'I' then
      if infPrefix (c :: cs) = 0 then none else some (.inf false, infPrefix (c :: cs))
    else if c = 'n' ∨ c = 'N' then
      if commonPrefixLenIgnoreCase (c :: cs) "nan".data = 3 then some (.nan, 3) else none
    else none

/-- State of the digit loop of `readFloat`. -/
structure Digits where
  /-- value of the digits read so far, in the base of the number -/
  mantissa : Nat
  /-- number of digits read after the point -/
  frac : Nat
  sawdot : Bool
  sawdigits : Bool
  underscores : Bool

/-- The digit loop of `readFloat`: reads digits, underscores and at most one
point; returns the final state and the unread rest of the string. -/
def readDigits (hex : Bool) : List Char → Digits → Digits × List Char
  | [], st => (st, [])
  | c :: cs, st =>
    if c = '_' then readDigits hex cs { st with underscores := true }
    else if c = '.' then
      if st.sawdot then (st, c :: cs) else readDigits hex cs { st with sawdot := true }
    else if isDigit c then
      readDigits hex cs { st with
        sawdigits := true
        mantissa := st.mantissa * (if hex then 16 else 10) + digitVal c
        frac := if st.sawdot then st.frac + 1 else st.frac }
    else if hex && isHexLetter c then
      readDigits hex cs { st with
        sawdigits := true
        mantissa := st.mantissa * 16 + (lower c - 97 + 10)
        frac := if st.sawdot then st.frac + 1 else st.frac }
    else (st, c :: cs)

/-- The exponent loop of `readFloat`: reads digits and underscores, the value
of the digits being accumulated while it is below 10000. -/
def readExpDigits : List Char → Nat → Bool → Nat × Bool × List Char
  | [], e, us => (e, us, [])
  | c :: cs, e, us =>
    if c = '_' then readExpDigits cs e true
    else if isDigit c then readExpDigits cs (if e < 10000 then e * 10 + digitVal c else e) us
    else (e, us, c :: cs)

/-- The exponent part of `readFloat`, after the exponent character: an
optional sign and a digit, then digits and underscores.  Returns the signed
exponent, whether an underscore was read, and the unread rest. -/
def readExp : List Char → Option (Int × Bool × List Char)
  | [] => none
  | c :: cs =>
    match (if c = '+' ∨ c = '-' then cs else c :: cs) with
    | [] => none
    | d :: ds =>
      if isDigit d then
        match readExpDigits (d :: ds) 0 false with
        | (e, us, rest) => some (if c = '-' then -(e : Int) else (e : Int), us, rest)
      else none

/-- The `underscoreOK` scan of `strconv` after the sign and base prefix: `saw`
is the class of the last character (`'0'` digit, `'_'` underscore, `'!'`
other, `'^'` start). -/
def underscoreScan (hex : Bool) : List Char → Char → Bool
  | [], saw => saw != '_'
  | c :: cs, saw =>
    if isDigit c || (hex && isHexLetter c) then underscoreScan hex cs '0'
    else if c = '_' then (if saw != '0' then false else underscoreScan hex cs '_')
    else if saw = '_' then false
    else underscoreScan hex cs '!'

/-- Whether `s` starts with a base prefix `0b`, `0o` or `0x` (any case). -/
def hasBasePrefix : List Char → Bool
  | c :: d :: _ => c = '0' && (lower d = 98 || lower d = 111 || lower d = 120)
  | _ => false

/-- The `underscoreOK` of `strconv`: underscores may only separate digits, or
a base prefix from a digit. -/
def underscoreOK (s : List Char) : Bool :=
  match (match s with
    | c :: cs => if c = '-' ∨ c = '+' then cs else c :: cs
    | [] => []) with
  | t =>
    if hasBasePrefix t then
      underscoreScan (decide (lower (t.getD 1 'x') = 120)) (t.drop 2) '0'
    else underscoreScan false t '^'

/-- Whether the unsigned number `s` is read as hexadecimal by `readFloat`: it
starts with `0x` or `0X` and has at least one more character. -/
def isHexStart : List Char → Bool
  | c :: d :: _ :: _ => c = '0' && lower d = 120
  | _ => false

/-- The `readFloat` of `strconv` on a number without its sign, required to
read the whole string: the exact value denoted, `mantissa * 10^exp` for a
decimal number and `mantissa * 2^exp` for a hexadecimal one (which must have
a `p` exponent), and whether an underscore was read; `none` when the string is
not well formed or is not read to its end. -/
def readUnsigned (s : List Char) : Option (ℚ × Bool) :=
  match readDigits (isHexStart s) (if isHexStart s then s.drop 2 else s) ⟨0, 0, false, false, false⟩ with
  | (st, rest) =>
    if st.sawdigits then
      match rest with
      | [] =>
        if isHexStart s then none
        else some ((st.mantissa : ℚ) * 10 ^ (-(st.frac : Int)), st.underscores)
      | c :: cs =>
        if lower c = (if isHexStart s then 112 else 101) then
          match readExp cs with
          | some (e, us, []) =>
            if isHexStart s then
              some ((st.mantissa : ℚ) * 2 ^ (e - 4 * (st.frac : Int)), st.underscores || us)
            else some ((st.mantissa : ℚ) * 10 ^ (e - (st.frac : Int)), st.underscores || us)
          | _ => none
        else none
    else none

/-- The `readFloat` of `strconv` required to read the whole string: sign and
exact value of the number written in `s`, when `s` is well formed (this
includes the test of its underscores). -/
def readFloat (s : List Char) : Option (Bool × ℚ) :=
  match s with
  | [] => none
  | c :: cs =>
    match readUnsigned (if c = '+' ∨ c = '-' then cs else c :: cs) with
    | some (q, us) => if us && !underscoreOK s then none else some (decide (c = '-'), q)
    | none => none

/-- Go's `strconv.ParseFloat(s, 64)`: the float nearest to the number written
in `s` (a decimal or hexadecimal floating-point literal, an infinity or NaN).
The error is a syntax error when `s` is not such a literal in full, and a
range error when the number rounds to an infinity. -/
def ParseFloat (s : String) : Except String F64 :=
  match special s.data with
  | some (f, n) => if n = s.data.length then .ok f else .error "invalid syntax"
  | none =>
    match readFloat s.data with
    | none => .error "invalid syntax"
    | some (neg, q) =>
      match roundToF64 (if neg then -q else q) with
      | .fin r => .ok (.fin r)
      | _ => .error "value out of range"

/-! ## `time.Parse` for the two layouts of the program -/

/-- The `getnum` of package `time`: a two-digit number, or a one-digit number
when `fixed` is false and the second character is not a digit. -/
def getnum (s : List Char) (fixed : Bool) : Option (Nat × List Char) :=
  match s with
  | [] => none
  | c :: rest =>
    if isDigit c then
      match rest with
      | d :: rest2 =>
        if isDigit d then some (digitVal c * 10 + digitVal d, rest2)
        else if fixed then none else some (digitVal c, rest)
      | [] => if fixed then none else some (digitVal c, rest)
    else none

/-- The `isLeap` of package `time`. -/
def isLeap (year : Nat) : Bool := year % 4 = 0 && (year % 100 != 0 || year % 400 = 0)

/-- The `daysIn` of package `time`: number of days of a month (1 to 12). -/
def daysIn (month year : Nat) : Nat :=
  if month = 2 then (if isLeap year then 29 else 28)
  else if month = 4 ∨ month = 6 ∨ month = 9 ∨ month = 11 then 30 else 31

/-- Go's `time.Parse("2006-01-02", s)`: a four-digit year, a two-digit month
and a two-digit day separated by `-`, with nothing before or after; the month
is 1 to 12 and the day exists in that month.  Returns year, month and day. -/
def parseDate (s : List Char) : Option (Nat × Nat × Nat) :=
  match s with
  | y1 :: y2 :: y3 :: y4 :: rest =>
    if isDigit y1 && isDigit y2 && isDigit y3 && isDigit y4 then
      match rest with
      | sep1 :: rest1 =>
        if sep1 = '-' then
          match getnum rest1 true with
          | some (month, sep2 :: rest2) =>
            if month = 0 ∨ 12 < month then none
            else if sep2 = '-' then
              match getnum rest2 true with
              | some (day, []) =>
                if day < 1 ∨ daysIn month (((digitVal y1 * 10 + digitVal y2) * 10
                    + digitVal y3) * 10 + digitVal y4) < day
                then none
                else some (((digitVal y1 * 10 + digitVal y2) * 10 + digitVal y3) * 10
                  + digitVal y4, month, day)
              | _ => none
            else none
          | _ => none
        else none
      | [] => none
    else none
  | _ => none

/-- Go's `time.Parse("15:04", s)`: an hour of one or two digits below 24, a
`:` and a two-digit minute below 60, with nothing before or after.  The
result is an instant of 1 January of year 0, UTC; it is returned as the
number of minutes since the start of that day. -/
def parseClock (s : List Char) : Option Nat :=
  match getnum s false with
  | some (hour, sep :: rest) =>
    if 24 ≤ hour then none
    else if sep = ':' then
      match getnum rest true with
      | some (min, []) => if 60 ≤ min then none else some (hour * 60 + min)
      | _ => none
    else none
  | _ => none

/-- The zero `time.Time` (1 January of year 1), which `time.Parse` returns with
an error, in minutes since the start of year 0 (a leap year). -/
def zeroTime : Nat := 366 * 24 * 60

/-! ## The program -/

deriving instance DecidableEq for Except

/-- The struct `ReceiptItem`. -/
structure ReceiptItem where
  ShortDescription : String
  Price : String
deriving DecidableEq

/-- The struct `Receipt`. -/
structure Receipt where
  Retailer : String
  PurchaseDate : String
  PurchaseTime : String
  Items : List ReceiptItem
  Total : String
deriving DecidableEq

/-- The function `isRoundDollar`: `value == float64(int(value))`. -/
def isRoundDollar (ovf : F64 → Int) (value : F64) : Bool :=
  F64.eq value (intToFloat (floatToInt ovf value))

/-- The function `isMultipleOfQuarter`. -/
def isMultipleOfQuarter (value : F64) : Bool :=
  F64.lt (Mod value (roundToF64 (25 / 100))) (roundToF64 (1 / 1000000))
    || F64.lt (Abs (F64.sub (Mod value (roundToF64 (25 / 100))) (roundToF64 (25 / 100))))
        (roundToF64 (1 / 1000000))

/-- The function `parseDay`: the day of the month of a date `YYYY-MM-DD`. -/
def parseDay (dateStr : String) : Except String Int :=
  match parseDate dateStr.data with
  | none => .error "parsing time"
  | some (_, _, day) => .ok (day : Int)

/-- The function `isTimeBetween`: `t.After(start) && t.Before(end)`, false when
`timeStr` does not parse; the errors of the two bounds are ignored. -/
def isTimeBetween (timeStr startStr endStr : String) : Bool :=
  match parseClock timeStr.data with
  | none => false
  | some t =>
    decide ((parseClock startStr.data).getD zeroTime < t)
      && decide (t < (parseClock endStr.data).getD zeroTime)

/-- One iteration of the loop over the items in `computePoints` (rule 5): an
item whose price does not parse is skipped. -/
def itemStep (ovf : F64 → Int) (totalPoints : Int) (item : ReceiptItem) : Int :=
  let desc := TrimSpace item.ShortDescription.data
  match ParseFloat item.Price with
  | .error _ => totalPoints
  | .ok itemPrice =>
    if len desc % 3 = 0 ∧ len desc ≠ 0 then
      let bonus := Ceil (F64.mul itemPrice (roundToF64 (2 / 10)))
      addInt totalPoints (floatToInt ovf bonus)
    else totalPoints

/-- The function `computePoints`.  The variable `totalPoints` goes through the
eight rules in the order of the source; the error of `ParseFloat` on the total
is the only one returned. -/
def computePoints (ovf : F64 → Int) (r : Receipt) : Except String Int :=
  let totalPoints : Int := 0
  -- 1) one point for every alphanumeric character in the retailer name
  let totalPoints := addInt totalPoints (FindAllString r.Retailer.data).length
  match ParseFloat r.Total with
  | .error _ => .error "invalid total value"
  | .ok totalFloat =>
    -- 2) 50 points if the total is a round dollar amount
    let totalPoints := if isRoundDollar ovf totalFloat then addInt totalPoints 50 else totalPoints
    -- 3) 25 points if the total is a multiple of 0.25
    let totalPoints :=
      if isMultipleOfQuarter totalFloat then addInt totalPoints 25 else totalPoints
    -- 4) 5 points for every two items
    let totalPoints := addInt totalPoints (mulInt ((r.Items.length : Int) / 2) 5)
    -- 5) the bonus of the items whose trimmed description has a length multiple of 3
    let totalPoints := r.Items.foldl (itemStep ovf) totalPoints
    -- 6) 5 points if the total is greater than 10.00
    let totalPoints :=
      if F64.lt (roundToF64 10) totalFloat then addInt totalPoints 5 else totalPoints
    -- 7) 6 points if the purchase day is odd
    let totalPoints :=
      match parseDay r.PurchaseDate with
      | .ok purchaseDay => if purchaseDay % 2 = 1 then addInt totalPoints 6 else totalPoints
      | .error _ => totalPoints
    -- 8) 10 points if the purchase time is after 14:00 and before 16:00
    let totalPoints :=
      if isTimeBetween r.PurchaseTime "14:00" "16:00" then addInt totalPoints 10 else totalPoints
    .ok totalPoints

/-- State of the server: the map `receiptPoints` and the number of identifiers
generated so far. -/
structure Server where
  receiptPoints : String → Option Int
  minted : Nat

/-- An HTTP response: status code, and either the text of an error, the
identifier of a stored receipt or a number of points. -/
inductive Response where
  | error (status : Nat) (message : String)
  | id (status : Nat) (id : String)
  | points (status : Nat) (points : Int)
deriving DecidableEq

/-- The handler `processReceiptHandler`.  `body` is the result of decoding the
request (`none` when decoding fails) and `uuid k` the `k`-th identifier that
`uuid.New().String()` yields. -/
def processReceiptHandler (ovf : F64 → Int) (uuid : Nat → String) (srv : Server)
    (body : Option Receipt) : Server × Response :=
  match body with
  | none => (srv, .error 400 "Invalid receipt payload")
  | some receipt =>
    match computePoints ovf receipt with
    | .error err => (srv, .error 400 ("Cannot compute points: " ++ err))
    | .ok points =>
      ({ receiptPoints := fun k => if k = uuid srv.minted then some points else srv.receiptPoints k
         minted := srv.minted + 1 },
       .id 200 (uuid srv.minted))

/-- The handler `getPointsHandler`. -/
def getPointsHandler (srv : Server) (id : String) : Server × Response :=
  match srv.receiptPoints id with
  | none => (srv, .error 404 "Receipt not found")
  | some points => (srv, .points 200 points)

/-! ## The eight rules, as the specification lists them -/

/-- Rule 1: one point per ASCII letter or digit of the retailer name. -/
def retailerPoints (r : Receipt) : Int := ((r.Retailer.data.filter isAlnum).length : Int)

/-- Rule 2: 50 points when `isRoundDollar` holds of the total. -/
def roundDollarPoints (ovf : F64 → Int) (v : F64) : Int := if isRoundDollar ovf v then 50 else 0

/-- Rule 3: 25 points when `isMultipleOfQuarter` holds of the total. -/
def quarterPoints (v : F64) : Int := if isMultipleOfQuarter v then 25 else 0

/-- Rule 4: 5 points for every complete pair of items. -/
def pairPoints (r : Receipt) : Int := 5 * ((r.Items.length : Int) / 2)

/-- Rule 5 for one item: `ceil(price * 0.2)`, as an `int`, when the price
parses and the trimmed description has a length that is not zero and is a
multiple of 3; `0` otherwise. -/
def itemBonus (ovf : F64 → Int) (item : ReceiptItem) : Int :=
  match ParseFloat item.Price with
  | .ok price =>
    if len (TrimSpace item.ShortDescription.data) ≠ 0
        ∧ len (TrimSpace item.ShortDescription.data) % 3 = 0 then
      floatToInt ovf (Ceil (F64.mul price (roundToF64 (2 / 10))))
    else 0
  | .error _ => 0

/-- Rule 5: the sum of the bonuses of the items. -/
def itemsPoints (ovf : F64 → Int) (r : Receipt) : Int := (r.Items.map (itemBonus ovf)).sum

/-- Rule 6: 5 points when the total is greater than 10. -/
def highTotalPoints (v : F64) : Int := if F64.lt (.fin 10) v then 5 else 0

/-- Rule 7: 6 points when the purchase date parses and its day is odd. -/
def oddDayPoints (r : Receipt) : Int :=
  match parseDate r.PurchaseDate.data with
  | some (_, _, day) => if day % 2 = 1 then 6 else 0
  | none => 0

/-- Rule 8: 10 points when the purchase time is strictly between 14:00 and 16:00. -/
def afternoonPoints (r : Receipt) : Int :=
  if isTimeBetween r.PurchaseTime "14:00" "16:00" then 10 else 0

/-- The sum of the eight contributions, as an unbounded integer. -/
def exactPoints (ovf : F64 → Int) (r : Receipt) (v : F64) : Int :=
  retailerPoints r + roundDollarPoints ovf v + quarterPoints v + pairPoints r
    + itemsPoints ovf r + highTotalPoints v + oddDayPoints r + afternoonPoints r

/-! ## Notions of the specification -/

/-- Number of characters of `s` that are ASCII letters or ASCII digits. -/
def alnumCount (s : String) : Int := ((s.data.countP fun c => c.isAlpha || c.isDigit : Nat) : Int)

/-- A time written `HH:MM` on the 24-hour clock, strictly after 14:00 and
strictly before 16:00. -/
def AfternoonTime (t : String) : Prop :=
  ∃ h1 h2 m1 m2 : Char, t.data = [h1, h2, ':', m1, m2]
    ∧ isDigit h1 = true ∧ isDigit h2 = true ∧ isDigit m1 = true ∧ isDigit m2 = true
    ∧ digitVal h1 * 10 + digitVal h2 < 24 ∧ digitVal m1 * 10 + digitVal m2 < 60
    ∧ 14 * 60 < (digitVal h1 * 10 + digitVal h2) * 60 + (digitVal m1 * 10 + digitVal m2)
    ∧ (digitVal h1 * 10 + digitVal h2) * 60 + (digitVal m1 * 10 + digitVal m2) < 16 * 60

/-- Number of days of month `m` (1 to 12) of year `y` in the Gregorian calendar. -/
def monthLength (y m : Nat) : Nat :=
  match m with
  | 1 => 31
  | 2 => if y % 400 = 0 ∨ (y % 4 = 0 ∧ y % 100 ≠ 0) then 29 else 28
  | 3 => 31
  | 4 => 30
  | 5 => 31
  | 6 => 30
  | 7 => 31
  | 8 => 31
  | 9 => 30
  | 10 => 31
  | 11 => 30
  | 12 => 31
  | _ => 0

/-- The string `s` is the date `day` of month `month` of year `year` written
`YYYY-MM-DD`, and that date exists in the calendar. -/
def IsDate (s : String) (year month day : Nat) : Prop :=
  ∃ y1 y2 y3 y4 m1 m2 d1 d2 : Char, s.data = [y1, y2, y3, y4, '-', m1, m2, '-', d1, d2]
    ∧ isDigit y1 = true ∧ isDigit y2 = true ∧ isDigit y3 = true ∧ isDigit y4 = true
    ∧ isDigit m1 = true ∧ isDigit m2 = true ∧ isDigit d1 = true ∧ isDigit d2 = true
    ∧ year = ((digitVal y1 * 10 + digitVal y2) * 10 + digitVal y3) * 10 + digitVal y4
    ∧ month = digitVal m1 * 10 + digitVal m2
    ∧ day = digitVal d1 * 10 + digitVal d2
    ∧ 1 ≤ month ∧ month ≤ 12 ∧ 1 ≤ day ∧ day ≤ monthLength year month

/-- A valid calendar date written `YYYY-MM-DD` whose day of the month is odd. -/
def OddDayDate (s : String) : Prop :=
  ∃ year month day, IsDate s year month day ∧ day % 2 = 1

/-- The float `v` is strictly greater than 10. -/
def ExceedsTen : F64 → Prop
  | .fin q => 10 < q
  | .inf neg => neg = false
  | .nan => False

/-- The bonus of an item in the words of the specification: `ceil(price * 0.2)`,
the product being the `float64` one, when the price parses and the trimmed
description has a length that is not zero and is a multiple of 3; `0`
otherwise.  A product that is not a finite number has no ceiling: the value is
`0` there. -/
def bonus (item : ReceiptItem) : Int :=
  match ParseFloat item.Price with
  | .ok price =>
    if len (TrimSpace item.ShortDescription.data) ≠ 0
        ∧ len (TrimSpace item.ShortDescription.data) % 3 = 0 then
      match F64.mul price (roundToF64 (2 / 10)) with
      | .fin x => ⌈x⌉
      | _ => 0
    else 0
  | .error _ => 0

/-! ## Conversions that do not depend on the implementation -/

/-- The float is finite and its truncation fits a 64-bit `int`. -/
def F64.fitsInt : F64 → Bool
  | .fin q => decide (-2 ^ 63 ≤ q.num.tdiv q.den ∧ q.num.tdiv q.den < 2 ^ 63)
  | _ => false

/-- The bonus of the item does not go through an out-of-range conversion. -/
def itemFits (item : ReceiptItem) : Bool :=
  match ParseFloat item.Price with
  | .ok p => (Ceil (F64.mul p (roundToF64 (2 / 10)))).fitsInt
  | .error _ => true

/-- No conversion `int(x)` made while scoring the receipt is out of range. -/
def receiptFits (r : Receipt) : Bool :=
  (match ParseFloat r.Total with
    | .ok v => v.fitsInt
    | .error _ => true) && r.Items.all itemFits

/-! ## Example receipts -/

/-- A receipt of the retailer "Target" with five items. -/
def targetReceipt : Receipt :=
  { Retailer := "Target"
    PurchaseDate := "2022-01-01"
    PurchaseTime := "13:01"
    Items := [⟨"Mountain Dew 12PK", "6.49"⟩, ⟨"Emils Cheese Pizza", "12.25"⟩,
      ⟨"Knorr Creamy Chicken", "1.26"⟩, ⟨"Doritos Nacho Cheese", "3.35"⟩,
      ⟨"   Klarbrunn 12-PK 12 FL OZ  ", "12.00"⟩]
    Total := "35.35" }

/-- A receipt of the retailer "M&M Corner Market" with four items. -/
def cornerMarketReceipt : Receipt :=
  { Retailer := "M&M Corner Market"
    PurchaseDate := "2022-03-20"
    PurchaseTime := "14:33"
    Items := [⟨"Gatorade", "2.25"⟩, ⟨"Gatorade", "2.25"⟩, ⟨"Gatorade", "2.25"⟩,
      ⟨"Gatorade", "2.25"⟩]
    Total := "9.00" }

/-- A receipt with one refunded item, of negative price. -/
def refundReceipt : Receipt :=
  { Retailer := "Target"
    PurchaseDate := "2022-01-02"
    PurchaseTime := "13:13"
    Items := [⟨"Refund", "-1000.00"⟩]
    Total := "35.35" }

/-! ## Example servers -/

/-- An identifier generator: the `k`-th identifier is `receipt-k`. -/
def sampleUuid (k : Nat) : String := "receipt-" ++ toString k

/-- A server that has stored nothing. -/
def emptyServer : Server := { receiptPoints := fun _ => none, minted := 0 }

/-- A server that has stored the score 109 under the identifier `receipt-0`. -/
def oneEntryServer : Server :=
  { receiptPoints := fun k => if k = "receipt-0" then some 109 else none, minted := 1 }

/-! ## Notions of the specification: the syntax of a total -/

/-- The string without its sign, when it starts with `+` or `-`. -/
def stripSign : List Char → List Char
  | c :: cs => if c = '+' ∨ c = '-' then cs else c :: cs
  | [] => []

/-- A plain decimal number: an optional sign, digits, and optionally a decimal
point followed by digits. -/
def isPlainDecimal (s : String) : Bool :=
  !((stripSign s.data).takeWhile isDigit).isEmpty
    && (((stripSign s.data).dropWhile isDigit).isEmpty
      || (((stripSign s.data).dropWhile isDigit).head? = some '.'
        && ((stripSign s.data).dropWhile isDigit).tail.all isDigit))

/-- A digit of the mantissa of a number: a decimal digit or, in a hexadecimal
number, a letter `a` to `f` in either case. -/
def isMantissaDigit (hex : Bool) (c : Char) : Bool := isDigit c || (hex && isHexLetter c)

/-- A character of the mantissa of a number: a digit, an underscore or the point. -/
def isMantissaChar (hex : Bool) (c : Char) : Bool :=
  isMantissaDigit hex c || c = '_' || c = '.'

/-- The exponent of a number, after its letter: an optional sign and a
decimal digit, followed by decimal digits and underscores. -/
def isExponentPart (x : List Char) : Bool :=
  match stripSign x with
  | d :: ds => isDigit d && ds.all fun c => isDigit c || c = '_'
  | [] => false

/-- Underscores only separate digits: every underscore of the number stands
between two digits, or between the prefix `0x` and a digit. -/
def digitsSeparated (hex : Bool) (body : List Char) : Bool :=
  ((body.zip body.tail).all fun p =>
      (p.1 != '_' || isMantissaDigit hex p.2) && (p.2 != '_' || isMantissaDigit hex p.1))
    && (hex || body.head? != some '_') && body.getLast? != some '_'

/-- What follows the mantissa of a number: the letter `e` and an exponent for
a decimal number, which may also end there; the letter `p` and an exponent for
a hexadecimal number. -/
def isExponentTail (hex : Bool) : List Char → Bool
  | [] => !hex
  | e :: x => decide (lower e = if hex then 112 else 101) && isExponentPart x

/-- A number without its sign and its prefix `0x`: a mantissa of digits with
at most one point and at least one digit, followed by its exponent, which a
decimal number may lack, with underscores between digits only. -/
def isNumberBody (hex : Bool) (body : List Char) : Bool :=
  (body.takeWhile (isMantissaChar hex)).any (isMantissaDigit hex)
    && decide ((body.takeWhile (isMantissaChar hex)).count '.' ≤ 1)
    && isExponentTail hex (body.dropWhile (isMantissaChar hex))
    && digitsSeparated hex body

/-- A number in the syntax of the floating-point literals of Go: an optional
sign followed by a decimal number, or by `0x` or `0X` and a hexadecimal number. -/
def isFloatLiteral (s : String) : Bool :=
  match stripSign s.data with
  | c :: x :: body =>
    if c = '0' ∧ lower x = 120 then isNumberBody true body
    else isNumberBody false (c :: x :: body)
  | t => isNumberBody false t

/-- One of the words `inf` and `infinity`, with an optional sign, or the word
`nan` without a sign, in upper or lower case. -/
def isSpecialWord (s : String) : Bool :=
  (stripSign s.data).map Char.toLower = "inf".data
    || (stripSign s.data).map Char.toLower = "infinity".data
    || s.data.map Char.toLower = "nan".data

/-! ## Machine arithmetic -/

theorem wrapInt_add_left (a b : Int) : wrapInt (wrapInt a + b) = wrapInt (a + b) := by
  unfold wrapInt; omega

theorem wrapInt_add_right (a b : Int) : wrapInt (a + wrapInt b) = wrapInt (a + b) := by
  unfold wrapInt; omega

theorem wrapInt_wrapInt (a : Int) : wrapInt (wrapInt a) = wrapInt a := by
  unfold wrapInt; omega

theorem wrapInt_of_inRange {a : Int} (h1 : -2 ^ 63 ≤ a) (h2 : a < 2 ^ 63) : wrapInt a = a := by
  unfold wrapInt; omega

theorem wrapInt_inRange (a : Int) : -2 ^ 63 ≤ wrapInt a ∧ wrapInt a < 2 ^ 63 := by
  unfold wrapInt; omega

theorem addInt_wrapInt (a b : Int) : addInt (wrapInt a) b = wrapInt (a + b) := by
  unfold addInt; exact wrapInt_add_left a b

theorem ite_addInt (c : Prop) [Decidable c] (a k : Int) :
    (if c then addInt (wrapInt a) k else wrapInt a) = wrapInt (a + if c then k else 0) := by
  split
  · exact addInt_wrapInt a k
  · simp

/-! ## The loop over the items -/

theorem itemStep_eq (ovf : F64 → Int) (a : Int) (item : ReceiptItem) :
    itemStep ovf (wrapInt a) item = wrapInt (a + itemBonus ovf item) := by
  unfold itemStep itemBonus
  cases ParseFloat item.Price with
  | error e => simp
  | ok price =>
    by_cases h : len (TrimSpace item.ShortDescription.data) % 3 = 0
        ∧ len (TrimSpace item.ShortDescription.data) ≠ 0
    · have h2 : len (TrimSpace item.ShortDescription.data) ≠ 0
          ∧ len (TrimSpace item.ShortDescription.data) % 3 = 0 := ⟨h.2, h.1⟩
      dsimp only
      rw [if_pos h, if_pos h2]
      exact addInt_wrapInt _ _
    · have h2 : ¬ (len (TrimSpace item.ShortDescription.data) ≠ 0
          ∧ len (TrimSpace item.ShortDescription.data) % 3 = 0) := fun h3 => h ⟨h3.2, h3.1⟩
      dsimp only
      rw [if_neg h, if_neg h2, add_zero]

theorem foldl_itemStep (ovf : F64 → Int) (items : List ReceiptItem) (a : Int) :
    items.foldl (itemStep ovf) (wrapInt a) = wrapInt (a + (items.map (itemBonus ovf)).sum) := by
  induction items generalizing a with
  | nil => simp
  | cons item rest ih =>
    simp only [List.foldl_cons, List.map_cons, List.sum_cons]
    rw [itemStep_eq, ih, add_assoc]

/-! ## Rounding to `float64` -/

theorem natLog2Aux_spec (fuel n : Nat) (h1 : 1 ≤ n) (h2 : n ≤ fuel) :
    2 ^ natLog2Aux fuel n ≤ n ∧ n < 2 ^ (natLog2Aux fuel n + 1) := by
  induction fuel generalizing n with
  | zero => omega
  | succ fuel ih =>
    unfold natLog2Aux
    by_cases h : 2 ≤ n
    · rw [if_pos h]
      have := ih (n / 2) (by omega) (by omega)
      rw [pow_succ, pow_succ (n := natLog2Aux fuel (n / 2) + 1)]
      omega
    · rw [if_neg h]
      have : n = 1 := by omega
      subst this
      norm_num

theorem natLog2_spec (n : Nat) (h1 : 1 ≤ n) :
    2 ^ natLog2 n ≤ n ∧ n < 2 ^ (natLog2 n + 1) :=
  natLog2Aux_spec n n h1 (le_refl n)

theorem floorLog2_le (a : ℚ) (ha : 0 < a) : (2 : ℚ) ^ floorLog2 a ≤ a := by
  have hnum : 0 < a.num := Rat.num_pos.2 ha
  have hN := natLog2_spec a.num.natAbs (by omega)
  have hD := natLog2_spec a.den a.den_pos
  have hNq : ((2 : ℚ) ^ natLog2 a.num.natAbs) ≤ (a.num : ℚ) := by
    have : ((2 ^ natLog2 a.num.natAbs : Nat) : ℚ) ≤ ((a.num.natAbs : Nat) : ℚ) := by
      exact_mod_cast hN.1
    have e : ((a.num.natAbs : Nat) : ℚ) = (a.num : ℚ) := by
      rw [← Int.cast_natCast, Int.natAbs_of_nonneg hnum.le]
    rw [e] at this
    exact_mod_cast this
  have hDq : (a.den : ℚ) < (2 : ℚ) ^ (natLog2 a.den + 1) := by
    exact_mod_cast hD.2
  have hden : (0 : ℚ) < a.den := by exact_mod_cast a.den_pos
  have haeq : a * (a.den : ℚ) = (a.num : ℚ) := Rat.mul_den_eq_num a
  unfold floorLog2
  split
  · -- a < 2^e0 ; show 2^(e0-1) ≤ a
    rw [zpow_sub₀ (by norm_num), zpow_sub₀ (by norm_num), zpow_natCast, zpow_natCast, zpow_one]
    rw [div_div, div_le_iff₀ (by positivity)]
    calc (2 : ℚ) ^ natLog2 a.num.natAbs ≤ a.num := hNq
      _ = a * a.den := haeq.symm
      _ ≤ a * (2 ^ natLog2 a.den * 2) := by
          apply mul_le_mul_of_nonneg_left _ ha.le
          rw [← pow_succ]
          exact hDq.le
  · rename_i h
    exact not_lt.1 h

theorem floorLog2_lt (a : ℚ) (ha : 0 < a) : a < (2 : ℚ) ^ (floorLog2 a + 1) := by
  have hnum : 0 < a.num := Rat.num_pos.2 ha
  have hN := natLog2_spec a.num.natAbs (by omega)
  have hD := natLog2_spec a.den a.den_pos
  have hNq : (a.num : ℚ) < (2 : ℚ) ^ (natLog2 a.num.natAbs + 1) := by
    have : ((a.num.natAbs : Nat) : ℚ) < ((2 ^ (natLog2 a.num.natAbs + 1) : Nat) : ℚ) := by
      exact_mod_cast hN.2
    have e : ((a.num.natAbs : Nat) : ℚ) = (a.num : ℚ) := by
      rw [← Int.cast_natCast, Int.natAbs_of_nonneg hnum.le]
    rw [e] at this
    exact_mod_cast this
  have hDq : (2 : ℚ) ^ natLog2 a.den ≤ (a.den : ℚ) := by
    exact_mod_cast hD.1
  have haeq : a * (a.den : ℚ) = (a.num : ℚ) := Rat.mul_den_eq_num a
  unfold floorLog2
  split
  · rename_i h
    rw [sub_add_cancel]
    exact h
  · rw [add_comm, ← add_sub_assoc, zpow_sub₀ (by norm_num), zpow_natCast, add_comm,
      ← Nat.cast_one (R := ℤ), ← Nat.cast_add, zpow_natCast, lt_div_iff₀ (by positivity)]
    calc a * 2 ^ natLog2 a.den ≤ a * a.den := mul_le_mul_of_nonneg_left hDq ha.le
      _ = a.num := haeq
      _ < _ := hNq

theorem rne_ge_floor (x : ℚ) : ⌊x⌋ ≤ rne x := by
  unfold rne; split_ifs <;> omega

theorem rne_le_floor_add_one (x : ℚ) : rne x ≤ ⌊x⌋ + 1 := by
  unfold rne; split_ifs <;> omega

theorem rne_le_of_le (x : ℚ) (n : Int) (h : x ≤ n) : rne x ≤ n := by
  have hf : ⌊x⌋ ≤ n := by
    have : ((⌊x⌋ : Int) : ℚ) ≤ (n : ℚ) := le_trans (Int.floor_le x) h
    exact_mod_cast this
  rcases lt_or_eq_of_le hf with hlt | heq
  · have := rne_le_floor_add_one x
    omega
  · have hx : x - ⌊x⌋ < 1 / 2 := by
      have : x ≤ (⌊x⌋ : ℚ) := by rw [heq]; exact h
      have := Int.floor_le x
      linarith
    unfold rne
    rw [if_pos hx]
    exact hf

theorem rne_intCast (n : Int) : rne (n : ℚ) = n := by
  unfold rne
  rw [Int.floor_intCast, sub_self, if_pos (by norm_num)]

theorem rne_nonneg (x : ℚ) (h : 0 ≤ x) : 0 ≤ rne x :=
  le_trans (Int.floor_nonneg.2 h) (rne_ge_floor x)

theorem roundExp_le (q : ℚ) (k : Int) (hq : q ≠ 0) (hk : -1022 ≤ k) (h : |q| ≤ 2 ^ k) :
    roundExp q ≤ k := by
  unfold roundExp
  apply max_le _ hk
  have ha : 0 < |q| := abs_pos.2 hq
  have h1 := floorLog2_le |q| ha
  have h2 : (2 : ℚ) ^ floorLog2 |q| ≤ 2 ^ k := le_trans h1 h
  exact (zpow_le_zpow_iff_right₀ (by norm_num : (1 : ℚ) < 2)).1 h2

theorem roundMag_le (q : ℚ) (k : Int) (hq : q ≠ 0) (hk : -1022 ≤ k) (h : |q| ≤ 2 ^ k) :
    roundMag q ≤ 2 ^ k := by
  have he := roundExp_le q k hq hk h
  have hpos : (0 : ℚ) < 2 ^ (roundExp q - 52) := by positivity
  have hn : (0 : Int) ≤ k - (roundExp q - 52) := by omega
  have e2 : ((2 : ℚ) ^ k) = ((2 ^ (k - (roundExp q - 52)).toNat : Int) : ℚ) * 2 ^ (roundExp q - 52) := by
    rw [Int.cast_pow, Int.cast_ofNat, ← zpow_natCast, Int.toNat_of_nonneg hn, ← zpow_add₀ (by norm_num)]
    congr 1
    ring
  unfold roundMag
  rw [e2]
  apply mul_le_mul_of_nonneg_right _ hpos.le
  have : rne (|q| / 2 ^ (roundExp q - 52)) ≤ (2 ^ (k - (roundExp q - 52)).toNat : Int) := by
    apply rne_le_of_le
    rw [div_le_iff₀ hpos, ← e2]
    exact h
  exact_mod_cast this

theorem roundMag_nonneg (q : ℚ) : 0 ≤ roundMag q := by
  unfold roundMag
  apply mul_nonneg _ (by positivity)
  have : 0 ≤ rne (|q| / 2 ^ (roundExp q - 52)) := rne_nonneg _ (by positivity)
  exact_mod_cast this

theorem roundExp_ge (q : ℚ) : -1022 ≤ roundExp q := le_max_right _ _

theorem roundExp_lt (q : ℚ) (k : Int) (hq : q ≠ 0) (hk : -1022 ≤ k) (h : |q| < 2 ^ (k + 1)) :
    roundExp q ≤ k := by
  unfold roundExp
  apply max_le _ hk
  have ha : 0 < |q| := abs_pos.2 hq
  have h1 := floorLog2_le |q| ha
  have h2 : (2 : ℚ) ^ floorLog2 |q| < 2 ^ (k + 1) := lt_of_le_of_lt h1 h
  have := (zpow_lt_zpow_iff_right₀ (by norm_num : (1 : ℚ) < 2)).1 h2
  omega

theorem roundExp_ge_of_le (q : ℚ) (k : Int) (hq : q ≠ 0) (h : 2 ^ k ≤ |q|) : k ≤ roundExp q := by
  unfold roundExp
  apply le_max_of_le_left
  have ha : 0 < |q| := abs_pos.2 hq
  have h1 := floorLog2_lt |q| ha
  have h2 : (2 : ℚ) ^ k < 2 ^ (floorLog2 |q| + 1) := lt_of_le_of_lt h h1
  have := (zpow_lt_zpow_iff_right₀ (by norm_num : (1 : ℚ) < 2)).1 h2
  omega

/-- The rounding of `q` is `q` itself when `q` is a multiple of the unit in the last place. -/
theorem roundMag_of_multiple (q : ℚ) (m : Int) (h : |q| = (m : ℚ) * 2 ^ (roundExp q - 52)) :
    roundMag q = |q| := by
  have hpos : (0 : ℚ) < 2 ^ (roundExp q - 52) := by positivity
  unfold roundMag
  have : |q| / 2 ^ (roundExp q - 52) = (m : ℚ) := by
    rw [div_eq_iff hpos.ne']
    exact h
  rw [this, rne_intCast]
  exact h.symm

theorem roundToF64_of_roundMag (q : ℚ) (h : roundMag q = |q|) (hlt : |q| < 2 ^ (1024 : Int)) :
    roundToF64 q = .fin q := by
  unfold roundToF64
  by_cases hq : q = 0
  · rw [if_pos hq, hq]
  · rw [if_neg hq, h, if_neg (not_le.2 hlt)]
    by_cases hneg : q < 0
    · rw [if_pos hneg, abs_of_neg hneg, neg_neg]
    · rw [if_neg hneg, abs_of_nonneg (not_lt.1 hneg)]

theorem roundMag_intCast_small (i : Int) (h : |i| < 2 ^ 53) : roundMag (i : ℚ) = |(i : ℚ)| := by
  by_cases hi : i = 0
  · subst hi
    simp [roundMag, rne]
  have hq : (i : ℚ) ≠ 0 := by exact_mod_cast hi
  have habs : |(i : ℚ)| = ((|i| : Int) : ℚ) := by rw [Int.cast_abs]
  have hlt : |(i : ℚ)| < 2 ^ ((52 : Int) + 1) := by
    rw [habs]
    have : ((|i| : Int) : ℚ) < ((2 ^ 53 : Int) : ℚ) := by exact_mod_cast h
    calc ((|i| : Int) : ℚ) < ((2 ^ 53 : Int) : ℚ) := this
      _ = 2 ^ ((52 : Int) + 1) := by norm_num
  have he := roundExp_lt (i : ℚ) 52 hq (by norm_num) hlt
  have hn : (0 : Int) ≤ 52 - roundExp (i : ℚ) := by omega
  apply roundMag_of_multiple (i : ℚ) (|i| * 2 ^ (52 - roundExp (i : ℚ)).toNat)
  rw [habs, Int.cast_mul, Int.cast_pow, Int.cast_ofNat, mul_assoc, ← zpow_natCast,
    Int.toNat_of_nonneg hn, ← zpow_add₀ (by norm_num)]
  have : (52 - roundExp (i : ℚ) + (roundExp (i : ℚ) - 52)) = 0 := by ring
  rw [this, zpow_zero, mul_one]

theorem roundToF64_intCast_small (i : Int) (h : |i| < 2 ^ 53) : roundToF64 (i : ℚ) = .fin (i : ℚ) := by
  apply roundToF64_of_roundMag _ (roundMag_intCast_small i h)
  have : ((|i| : Int) : ℚ) < ((2 ^ 53 : Int) : ℚ) := by exact_mod_cast h
  rw [Int.cast_abs] at this
  calc |(i : ℚ)| < ((2 ^ 53 : Int) : ℚ) := this
    _ < 2 ^ (1024 : Int) := by norm_num

theorem roundMag_intCast_isInt (i : Int) : ∃ j : Int, roundMag (i : ℚ) = (j : ℚ) := by
  by_cases h : |i| < 2 ^ 53
  · exact ⟨|i|, by rw [roundMag_intCast_small i h, Int.cast_abs]⟩
  · have h2 : (2 : ℚ) ^ (53 : Int) ≤ |(i : ℚ)| := by
      have : ((2 ^ 53 : Int) : ℚ) ≤ ((|i| : Int) : ℚ) := by exact_mod_cast not_lt.1 h
      rw [Int.cast_abs] at this
      calc (2 : ℚ) ^ (53 : Int) = ((2 ^ 53 : Int) : ℚ) := by norm_num
        _ ≤ _ := this
    have hq : (i : ℚ) ≠ 0 := by
      intro h0
      rw [h0, abs_zero] at h2
      exact absurd h2 (by norm_num)
    have he := roundExp_ge_of_le (i : ℚ) 53 hq h2
    have hn : (0 : Int) ≤ roundExp (i : ℚ) - 52 := by omega
    refine ⟨rne (|(i : ℚ)| / 2 ^ (roundExp (i : ℚ) - 52)) * 2 ^ (roundExp (i : ℚ) - 52).toNat, ?_⟩
    unfold roundMag
    rw [Int.cast_mul, Int.cast_pow, Int.cast_ofNat, ← zpow_natCast (2 : ℚ), Int.toNat_of_nonneg hn]

theorem roundToF64_intCast_isInt (i : Int) (r : ℚ) (h : roundToF64 (i : ℚ) = .fin r) :
    ∃ j : Int, r = (j : ℚ) := by
  obtain ⟨j, hj⟩ := roundMag_intCast_isInt i
  unfold roundToF64 at h
  split_ifs at h with h0 h1 h2
  · exact ⟨0, by injection h with h; rw [← h]; simp⟩
  · exact ⟨-j, by injection h with h; rw [← h, hj]; simp⟩
  · exact ⟨j, by injection h with h; rw [← h, hj]⟩

/-! ## The score as a sum of independent contributions -/

theorem roundToF64_ten : roundToF64 10 = .fin 10 := by decide!

theorem parseDay_eq (s : String) :
    parseDay s = match parseDate s.data with
      | some (_, _, day) => .ok (day : Int)
      | none => .error "parsing time" := by
  unfold parseDay
  cases parseDate s.data <;> rfl

/-- The value `computePoints` returns is the sum of the contributions of the
eight rules, reduced to the range of `int`. -/
theorem computePoints_eq (ovf : F64 → Int) (r : Receipt) (v : F64)
    (h : ParseFloat r.Total = .ok v) :
    computePoints ovf r = .ok (wrapInt (exactPoints ovf r v)) := by
  unfold computePoints
  rw [h]
  dsimp only
  have e1 : addInt 0 ((FindAllString r.Retailer.data).length : Int) = wrapInt (retailerPoints r) := by
    unfold addInt FindAllString retailerPoints
    simp
  have e7 : (match parseDay r.PurchaseDate with
      | .ok purchaseDay =>
        if purchaseDay % 2 = 1 then
          addInt (wrapInt (retailerPoints r + roundDollarPoints ovf v + quarterPoints v
            + pairPoints r + itemsPoints ovf r + highTotalPoints v)) 6
        else wrapInt (retailerPoints r + roundDollarPoints ovf v + quarterPoints v
            + pairPoints r + itemsPoints ovf r + highTotalPoints v)
      | .error _ => wrapInt (retailerPoints r + roundDollarPoints ovf v + quarterPoints v
            + pairPoints r + itemsPoints ovf r + highTotalPoints v))
      = wrapInt (retailerPoints r + roundDollarPoints ovf v + quarterPoints v
            + pairPoints r + itemsPoints ovf r + highTotalPoints v + oddDayPoints r) := by
    rw [parseDay_eq]
    unfold oddDayPoints
    cases parseDate r.PurchaseDate.data with
    | none => simp
    | some t =>
      obtain ⟨y, m, d⟩ := t
      dsimp only
      by_cases hd : d % 2 = 1
      · have hd2 : (d : Int) % 2 = 1 := by omega
        rw [if_pos hd, if_pos hd2]
        exact addInt_wrapInt _ _
      · have hd2 : ¬ (d : Int) % 2 = 1 := by omega
        rw [if_neg hd, if_neg hd2, add_zero]
  rw [e1, ite_addInt, ite_addInt]
  have e4 : mulInt ((r.Items.length : Int) / 2) 5 = wrapInt (pairPoints r) := by
    unfold mulInt pairPoints
    rw [mul_comm]
  rw [e4, addInt_wrapInt, wrapInt_add_right, foldl_itemStep, roundToF64_ten, ite_addInt]
  have e6 : wrapInt (retailerPoints r + (if isRoundDollar ovf v = true then 50 else 0)
        + (if isMultipleOfQuarter v = true then 25 else 0) + pairPoints r
        + (List.map (itemBonus ovf) r.Items).sum + if F64.lt (F64.fin 10) v = true then 5 else 0)
      = wrapInt (retailerPoints r + roundDollarPoints ovf v + quarterPoints v
            + pairPoints r + itemsPoints ovf r + highTotalPoints v) := rfl
  rw [e6, e7, ite_addInt]
  rfl

/-- The score is determined by the total alone as far as failure goes:
`computePoints` fails exactly when the total does not parse. -/
theorem computePoints_error_iff (ovf : F64 → Int) (r : Receipt) :
    (∃ e, computePoints ovf r = .error e) ↔ ∃ e, ParseFloat r.Total = .error e := by
  cases h : ParseFloat r.Total with
  | error e =>
    have : computePoints ovf r = .error "invalid total value" := by
      unfold computePoints
      rw [h]
    simp [this]
  | ok v =>
    rw [computePoints_eq ovf r v h]
    simp

theorem floatToInt_fin (ovf : F64 → Int) (q : ℚ)
    (h : -2 ^ 63 ≤ q.num.tdiv q.den ∧ q.num.tdiv q.den < 2 ^ 63) :
    floatToInt ovf (.fin q) = q.num.tdiv q.den := by
  unfold floatToInt
  dsimp only
  rw [if_pos h]

/-! ## The conversions between `float64` and `int` -/

theorem floatToInt_range (ovf : F64 → Int) (x : F64) :
    -2 ^ 63 ≤ floatToInt ovf x ∧ floatToInt ovf x < 2 ^ 63 := by
  unfold floatToInt
  split
  · split
    · assumption
    · exact wrapInt_inRange _
  · exact wrapInt_inRange _

theorem intToFloat_of_range (i : Int) (h1 : -2 ^ 63 ≤ i) (h2 : i < 2 ^ 63) :
    ∃ r : ℚ, intToFloat i = .fin r ∧ |r| ≤ 2 ^ 63 ∧ ∃ j : Int, r = (j : ℚ) := by
  have habs : |(i : ℚ)| ≤ 2 ^ (63 : Int) := by
    have : |i| ≤ 2 ^ 63 := abs_le.2 ⟨by omega, by omega⟩
    have : ((|i| : Int) : ℚ) ≤ ((2 ^ 63 : Int) : ℚ) := by exact_mod_cast this
    rw [Int.cast_abs] at this
    calc |(i : ℚ)| ≤ ((2 ^ 63 : Int) : ℚ) := this
      _ = 2 ^ (63 : Int) := by norm_num
  unfold intToFloat
  by_cases hi : (i : ℚ) = 0
  · refine ⟨0, ?_, by norm_num, 0, by norm_num⟩
    rw [hi]
    simp [roundToF64]
  · have hm := roundMag_le (i : ℚ) 63 hi (by norm_num) habs
    have hm0 := roundMag_nonneg (i : ℚ)
    have hlt : ¬ (2 : ℚ) ^ (1024 : Int) ≤ roundMag (i : ℚ) := by
      rw [not_le]
      calc roundMag (i : ℚ) ≤ 2 ^ (63 : Int) := hm
        _ < 2 ^ (1024 : Int) := by norm_num
    have hm' : roundMag (i : ℚ) ≤ 2 ^ 63 := by
      calc roundMag (i : ℚ) ≤ 2 ^ (63 : Int) := hm
        _ = 2 ^ 63 := by norm_num
    have e : roundToF64 (i : ℚ)
        = .fin (if (i : ℚ) < 0 then -roundMag (i : ℚ) else roundMag (i : ℚ)) := by
      unfold roundToF64
      rw [if_neg hi, if_neg hlt]
    refine ⟨_, e, ?_, roundToF64_intCast_isInt i _ e⟩
    split
    · rw [abs_neg, abs_of_nonneg hm0]
      exact hm'
    · rw [abs_of_nonneg hm0]
      exact hm'

/-- `isRoundDollar` is false of every value of magnitude above `2^63`,
whatever the implementation gives for the out-of-range conversion. -/
theorem isRoundDollar_of_large (ovf : F64 → Int) (q : ℚ) (h : 2 ^ 63 < |q|) :
    isRoundDollar ovf (.fin q) = false := by
  obtain ⟨h1, h2⟩ := floatToInt_range ovf (.fin q)
  obtain ⟨r, hr, hb, _⟩ := intToFloat_of_range _ h1 h2
  unfold isRoundDollar
  rw [hr]
  unfold F64.eq
  rw [decide_eq_false_iff_not]
  intro e
  rw [e] at h
  exact absurd hb (not_le.2 h)

/-- `isRoundDollar` is false of every finite value that is not a whole number. -/
theorem isRoundDollar_of_frac (ovf : F64 → Int) (q : ℚ) (h : ∀ j : Int, q ≠ (j : ℚ)) :
    isRoundDollar ovf (.fin q) = false := by
  obtain ⟨h1, h2⟩ := floatToInt_range ovf (.fin q)
  obtain ⟨r, hr, _, j, hj⟩ := intToFloat_of_range _ h1 h2
  unfold isRoundDollar
  rw [hr]
  unfold F64.eq
  rw [decide_eq_false_iff_not]
  intro e
  exact h j (e.trans hj)

theorem tdiv_intCast (i : Int) : (i : ℚ).num.tdiv ((i : ℚ).den : Int) = i := by
  rw [Rat.num_intCast, Rat.den_intCast]
  simp

/-- `isRoundDollar` is true of every whole number of magnitude below `2^53`. -/
theorem isRoundDollar_of_small_int (ovf : F64 → Int) (i : Int) (h : |i| < 2 ^ 53) :
    isRoundDollar ovf (.fin (i : ℚ)) = true := by
  have hb := abs_lt.1 h
  have e1 : floatToInt ovf (.fin (i : ℚ)) = i := by
    rw [floatToInt_fin ovf (i : ℚ) (by rw [tdiv_intCast]; omega), tdiv_intCast]
  unfold isRoundDollar
  rw [e1]
  unfold intToFloat
  rw [roundToF64_intCast_small i h]
  simp [F64.eq]

/-! ## The remainder modulo 0.25 -/

theorem tdiv_eq_floor (w : ℚ) (h : 0 ≤ w) : w.num.tdiv (w.den : Int) = ⌊w⌋ := by
  have hnum : 0 ≤ w.num := Rat.num_nonneg.2 h
  have hden : (0 : Int) ≤ w.den := by exact_mod_cast w.den_pos.le
  rw [Int.tdiv_eq_ediv hnum hden, Rat.floor_def]

theorem tdiv_eq_ceil (w : ℚ) (h : w ≤ 0) : w.num.tdiv (w.den : Int) = ⌈w⌉ := by
  have hnum : w.num ≤ 0 := Rat.num_nonpos.2 h
  have hden : (0 : Int) ≤ w.den := by exact_mod_cast w.den_pos.le
  have e1 : w.num.tdiv (w.den : Int) = -((-w.num) / (w.den : Int)) := by
    have : w.num = -(-w.num) := by ring
    conv_lhs => rw [this]
    rw [Int.neg_tdiv, Int.tdiv_eq_ediv (by omega) hden]
  have e2 : ⌊-w⌋ = (-w.num) / (w.den : Int) := by
    rw [Rat.floor_def, Rat.num_neg_eq_neg_num, Rat.den_neg_eq_den]
  rw [e1, ← e2, Int.floor_neg, neg_neg]

theorem roundToF64_quarter : roundToF64 (25 / 100) = .fin (1 / 4) := by decide!

theorem roundToF64_epsilon :
    roundToF64 (1 / 1000000) = .fin (4722366482869645 / 4722366482869645213696) := by decide!

/-- The remainder of a negative value modulo 0.25 is not positive. -/
theorem Mod_quarter_of_neg (q : ℚ) (h : q < 0) :
    ∃ r : ℚ, Mod (.fin q) (.fin (1 / 4)) = .fin r ∧ r ≤ 0 := by
  refine ⟨q - 1 / 4 * ((q / (1 / 4)).num.tdiv (q / (1 / 4)).den : Int), ?_, ?_⟩
  · unfold Mod
    dsimp only
    rw [if_neg (by norm_num)]
  · have hw : q / (1 / 4) ≤ 0 := by
      rw [div_le_iff₀ (by norm_num)]
      linarith
    rw [tdiv_eq_ceil _ hw]
    have := Int.le_ceil (q / (1 / 4))
    rw [div_le_iff₀ (by norm_num)] at this
    linarith

/-- `isMultipleOfQuarter` is true of every negative finite value. -/
theorem isMultipleOfQuarter_of_neg (q : ℚ) (h : q < 0) : isMultipleOfQuarter (.fin q) = true := by
  obtain ⟨r, hr, hr0⟩ := Mod_quarter_of_neg q h
  unfold isMultipleOfQuarter
  rw [roundToF64_quarter, roundToF64_epsilon, hr, Bool.or_eq_true]
  left
  unfold F64.lt
  rw [decide_eq_true_eq]
  calc r ≤ 0 := hr0
    _ < 4722366482869645 / 4722366482869645213696 := by norm_num

/-! ## Independence of the implementation -/

theorem floatToInt_congr (ovf ovf' : F64 → Int) (x : F64) (h : x.fitsInt = true) :
    floatToInt ovf x = floatToInt ovf' x := by
  cases x with
  | nan => simp [F64.fitsInt] at h
  | inf neg => simp [F64.fitsInt] at h
  | fin q =>
    have h' : -2 ^ 63 ≤ q.num.tdiv q.den ∧ q.num.tdiv q.den < 2 ^ 63 := by
      simpa [F64.fitsInt] using h
    rw [floatToInt_fin ovf q h', floatToInt_fin ovf' q h']

theorem itemBonus_congr (ovf ovf' : F64 → Int) (item : ReceiptItem) (h : itemFits item = true) :
    itemBonus ovf item = itemBonus ovf' item := by
  unfold itemFits at h
  unfold itemBonus
  cases hp : ParseFloat item.Price with
  | error e => rfl
  | ok p =>
    rw [hp] at h
    dsimp only at h ⊢
    rw [floatToInt_congr ovf ovf' _ h]

theorem computePoints_congr (ovf ovf' : F64 → Int) (r : Receipt)
    (h1 : ∀ v, ParseFloat r.Total = .ok v → isRoundDollar ovf v = isRoundDollar ovf' v)
    (h2 : ∀ item ∈ r.Items, itemBonus ovf item = itemBonus ovf' item) :
    computePoints ovf r = computePoints ovf' r := by
  cases hp : ParseFloat r.Total with
  | error e =>
    unfold computePoints
    rw [hp]
  | ok v =>
    rw [computePoints_eq ovf r v hp, computePoints_eq ovf' r v hp]
    unfold exactPoints roundDollarPoints itemsPoints
    rw [h1 v hp, List.map_congr_left h2]

/-- When no conversion `int(x)` is out of range, the score is the same on
every implementation. -/
theorem computePoints_of_fits (ovf ovf' : F64 → Int) (r : Receipt) (h : receiptFits r = true) :
    computePoints ovf r = computePoints ovf' r := by
  unfold receiptFits at h
  rw [Bool.and_eq_true, List.all_eq_true] at h
  apply computePoints_congr
  · intro v hv
    rw [hv] at h
    unfold isRoundDollar
    rw [floatToInt_congr ovf ovf' v h.1]
  · intro item hi
    exact itemBonus_congr ovf ovf' item (h.2 item hi)

theorem itemBonus_of_parse (ovf : F64 → Int) (item : ReceiptItem) (p : F64)
    (h : ParseFloat item.Price = .ok p) :
    itemBonus ovf item =
      if len (TrimSpace item.ShortDescription.data) ≠ 0
          ∧ len (TrimSpace item.ShortDescription.data) % 3 = 0 then
        floatToInt ovf (Ceil (F64.mul p (roundToF64 (2 / 10))))
      else 0 := by
  unfold itemBonus
  rw [h]

/-- C1: `computePoints` returns an error exactly when the total does not parse
as a number (the error is then "invalid total value"); when the total parses
it succeeds whatever the retailer, the purchase date, the purchase time and
the items (their descriptions and prices) are. -/
theorem C1_error_iff_total_unparsable (ovf : F64 → Int) (retailer date time total : String)
    (items : List ReceiptItem) :
    ((∃ e, computePoints ovf ⟨retailer, date, time, items, total⟩ = .error e)
        ↔ ∃ e, ParseFloat total = .error e)
      ∧ ((∃ e, ParseFloat total = .error e)
        → computePoints ovf ⟨retailer, date, time, items, total⟩ = .error "invalid total value")
      ∧ ((∃ v, ParseFloat total = .ok v)
        → ∃ s, computePoints ovf ⟨retailer, date, time, items, total⟩ = .ok s) := by
  refine ⟨computePoints_error_iff ovf ⟨retailer, date, time, items, total⟩, ?_, ?_⟩
  · rintro ⟨e, he⟩
    unfold computePoints
    dsimp only
    rw [he]
  · rintro ⟨v, hv⟩
    exact ⟨_, computePoints_eq ovf ⟨retailer, date, time, items, total⟩ v hv⟩

/-! ## C2 -/

/-- C3: evaluation of the code at the total "-0.10".  The total parses to the
float nearest to -0.1; its remainder modulo 0.25 is the value itself, which is
neither within 1e-6 of 0 nor within 1e-6 of 0.25, yet `isMultipleOfQuarter`
holds and `computePoints` awards the 25 points (on an otherwise empty receipt
the score is 25, on every implementation).  The same happens at every negative
finite value: `isMultipleOfQuarter` is true of all of them. -/
theorem C3_quarter_bonus_at_negative_total :
    ParseFloat "-0.10" = .ok (.fin (-3602879701896397 / 36028797018963968))
      ∧ Mod (.fin (-3602879701896397 / 36028797018963968)) (roundToF64 (25 / 100))
          = .fin (-3602879701896397 / 36028797018963968)
      ∧ ¬ (|(-3602879701896397 / 36028797018963968 : ℚ)| < 1 / 1000000
          ∨ |(-3602879701896397 / 36028797018963968 : ℚ) - 25 / 100| < 1 / 1000000)
      ∧ isMultipleOfQuarter (.fin (-3602879701896397 / 36028797018963968)) = true
      ∧ (∀ ovf, computePoints ovf ⟨"", "", "", [], "-0.10"⟩ = .ok 25)
      ∧ ∀ q : ℚ, q < 0 → isMultipleOfQuarter (.fin q) = true :=
  ⟨by decide!, by decide!, by decide!, by decide!,
    fun ovf => (computePoints_of_fits ovf amd64 _ (by decide!)).trans (by decide!),
    isMultipleOfQuarter_of_neg⟩

/-! ## C4 -/

/-- C4: evaluation of the code at the total "1e19".  The total parses to the
whole number 10^19, which does not fit an `int`; `isRoundDollar` is false of
it whatever the implementation gives for the out-of-range conversion, and
`computePoints` does not award the 50 points (on an otherwise empty receipt
the score is 25 + 5).  In general `isRoundDollar` is false of every finite
value of magnitude above `2^63`, whole or not; it is false of every finite
value that is not a whole number and true of every whole number of magnitude
below `2^53`. -/
theorem C4_round_dollar_at_large_total :
    ParseFloat "1e19" = .ok (.fin 10000000000000000000)
      ∧ ParseFloat "10000000000000000000" = .ok (.fin 10000000000000000000)
      ∧ ((⌊(10000000000000000000 : ℚ)⌋ : Int) : ℚ) = 10000000000000000000
      ∧ (∀ ovf, isRoundDollar ovf (.fin 10000000000000000000) = false)
      ∧ (∀ ovf, computePoints ovf ⟨"", "", "", [], "1e19"⟩ = .ok 30)
      ∧ (∀ ovf (q : ℚ), 2 ^ 63 < |q| → isRoundDollar ovf (.fin q) = false)
      ∧ (∀ ovf (q : ℚ), (∀ j : Int, q ≠ (j : ℚ)) → isRoundDollar ovf (.fin q) = false)
      ∧ ∀ ovf (i : Int), |i| < 2 ^ 53 → isRoundDollar ovf (.fin (i : ℚ)) = true := by
  have hp : ParseFloat "1e19" = .ok (.fin 10000000000000000000) := by decide!
  have hr : ∀ ovf, isRoundDollar ovf (.fin 10000000000000000000) = false :=
    fun ovf => isRoundDollar_of_large ovf _ (by norm_num [abs_of_pos])
  refine ⟨hp, by decide!, by decide!, hr, fun ovf => ?_, isRoundDollar_of_large,
    isRoundDollar_of_frac, isRoundDollar_of_small_int⟩
  have e : computePoints ovf ⟨"", "", "", [], "1e19"⟩
      = computePoints amd64 ⟨"", "", "", [], "1e19"⟩ := by
    apply computePoints_congr
    · intro v hv
      have hv' : ParseFloat "1e19" = .ok v := hv
      rw [hp] at hv'
      injection hv' with hv'
      rw [← hv', hr ovf, hr amd64]
    · intro item hi
      exact absurd hi (List.not_mem_nil item)
  rw [e]
  decide!

/-! ## The two layouts of `time.Parse` -/

theorem digitVal_le (c : Char) (h : isDigit c = true) : digitVal c ≤ 9 := by
  unfold isDigit at h
  unfold digitVal
  simp at h
  omega

theorem getnum_fixed (s rest : List Char) (n : Nat) :
    getnum s true = some (n, rest)
      ↔ ∃ a b, s = a :: b :: rest ∧ isDigit a = true ∧ isDigit b = true
          ∧ n = digitVal a * 10 + digitVal b := by
  constructor
  · intro h
    unfold getnum at h
    match s, h with
    | [c], h => by_cases hc : isDigit c = true <;> simp [hc] at h
    | c :: d :: t, h =>
      by_cases hc : isDigit c = true <;> by_cases hd : isDigit d = true <;> simp [hc, hd] at h
      exact ⟨c, d, by rw [h.2], hc, hd, h.1.symm⟩
  · rintro ⟨a, b, rfl, ha, hb, rfl⟩
    simp [getnum, ha, hb]

theorem getnum_free (s rest : List Char) (n : Nat) (h : getnum s false = some (n, rest)) :
    (∃ a b, s = a :: b :: rest ∧ isDigit a = true ∧ isDigit b = true
          ∧ n = digitVal a * 10 + digitVal b)
      ∨ n ≤ 9 := by
  unfold getnum at h
  match s, h with
  | [c], h =>
    by_cases hc : isDigit c = true <;> simp [hc] at h
    exact Or.inr (h.1 ▸ digitVal_le c hc)
  | c :: d :: t, h =>
    by_cases hc : isDigit c = true <;> by_cases hd : isDigit d = true <;> simp [hc, hd] at h
    · exact Or.inl ⟨c, d, by rw [h.2], hc, hd, h.1.symm⟩
    · exact Or.inr (h.1 ▸ digitVal_le c hc)

theorem parseClock_some (s : List Char) (n : Nat) (h : parseClock s = some n) :
    (∃ h1 h2 m1 m2 : Char, s = [h1, h2, ':', m1, m2]
      ∧ isDigit h1 = true ∧ isDigit h2 = true ∧ isDigit m1 = true ∧ isDigit m2 = true
      ∧ digitVal h1 * 10 + digitVal h2 < 24 ∧ digitVal m1 * 10 + digitVal m2 < 60
      ∧ n = (digitVal h1 * 10 + digitVal h2) * 60 + (digitVal m1 * 10 + digitVal m2))
    ∨ n < 10 * 60 := by
  unfold parseClock at h
  cases hg : getnum s false with
  | none => simp [hg] at h
  | some p =>
    obtain ⟨hour, rest⟩ := p
    rw [hg] at h
    match rest, hg, h with
    | [], _, h => simp at h
    | sep :: rest1, hg, h =>
      dsimp only at h
      by_cases h24 : 24 ≤ hour
      · simp [h24] at h
      · rw [if_neg h24] at h
        by_cases hsep : sep = ':'
        · rw [if_pos hsep] at h
          cases hm : getnum rest1 true with
          | none => simp [hm] at h
          | some p2 =>
            obtain ⟨min, rest2⟩ := p2
            rw [hm] at h
            match rest2, hm, h with
            | _ :: _, _, h => simp at h
            | [], hm, h =>
              dsimp only at h
              by_cases h60 : 60 ≤ min
              · simp [h60] at h
              · rw [if_neg h60] at h
                have hn : hour * 60 + min = n := by simpa using h
                obtain ⟨m1, m2, rfl, hm1, hm2, rfl⟩ := (getnum_fixed rest1 [] min).1 hm
                rcases getnum_free s _ hour hg with ⟨a, b, rfl, ha, hb, rfl⟩ | h9
                · left
                  exact ⟨a, b, m1, m2, by rw [hsep], ha, hb, hm1, hm2, by omega, by omega, hn.symm⟩
                · right
                  omega
        · simp [hsep] at h

theorem parseClock_hhmm (h1 h2 m1 m2 : Char)
    (d1 : isDigit h1 = true) (d2 : isDigit h2 = true) (d3 : isDigit m1 = true)
    (d4 : isDigit m2 = true) (hh : digitVal h1 * 10 + digitVal h2 < 24)
    (hm : digitVal m1 * 10 + digitVal m2 < 60) :
    parseClock [h1, h2, ':', m1, m2]
      = some ((digitVal h1 * 10 + digitVal h2) * 60 + (digitVal m1 * 10 + digitVal m2)) := by
  have e1 : getnum [h1, h2, ':', m1, m2] false
      = some (digitVal h1 * 10 + digitVal h2, [':', m1, m2]) := by
    simp [getnum, d1, d2]
  have e2 : getnum [m1, m2] true = some (digitVal m1 * 10 + digitVal m2, []) := by
    simp [getnum, d3, d4]
  unfold parseClock
  rw [e1]
  dsimp only
  rw [if_neg (by omega), if_pos rfl, e2]
  dsimp only
  rw [if_neg (by omega)]

theorem isTimeBetween_iff (t : String) :
    isTimeBetween t "14:00" "16:00" = true ↔ AfternoonTime t := by
  have e14 : parseClock "14:00".data = some (14 * 60) := by decide
  have e16 : parseClock "16:00".data = some (16 * 60) := by decide
  unfold isTimeBetween AfternoonTime
  rw [e14, e16]
  constructor
  · intro h
    cases hp : parseClock t.data with
    | none => simp [hp] at h
    | some n =>
      rw [hp] at h
      simp only [Option.getD_some, Bool.and_eq_true, decide_eq_true_eq] at h
      rcases parseClock_some t.data n hp with ⟨h1, h2, m1, m2, e, d1, d2, d3, d4, hh, hm, rfl⟩ | hlt
      · exact ⟨h1, h2, m1, m2, e, d1, d2, d3, d4, hh, hm, h.1, h.2⟩
      · omega
  · rintro ⟨h1, h2, m1, m2, e, d1, d2, d3, d4, hh, hm, lo, hi⟩
    rw [e, parseClock_hhmm h1 h2 m1 m2 d1 d2 d3 d4 hh hm]
    simp only [Option.getD_some, Bool.and_eq_true, decide_eq_true_eq]
    exact ⟨lo, hi⟩

theorem daysIn_eq (month year : Nat) (h1 : 1 ≤ month) (h2 : month ≤ 12) :
    daysIn month year = monthLength year month := by
  have hl : (isLeap year = true) ↔ (year % 400 = 0 ∨ (year % 4 = 0 ∧ year % 100 ≠ 0)) := by
    unfold isLeap
    simp only [Bool.and_eq_true, Bool.or_eq_true, decide_eq_true_eq, bne_iff_ne, ne_eq]
    omega
  unfold daysIn monthLength
  interval_cases month <;> simp [hl]

theorem parseDate_some (l : List Char) (year month day : Nat)
    (h : parseDate l = some (year, month, day)) :
    ∃ y1 y2 y3 y4 m1 m2 d1 d2 : Char, l = [y1, y2, y3, y4, '-', m1, m2, '-', d1, d2]
      ∧ isDigit y1 = true ∧ isDigit y2 = true ∧ isDigit y3 = true ∧ isDigit y4 = true
      ∧ isDigit m1 = true ∧ isDigit m2 = true ∧ isDigit d1 = true ∧ isDigit d2 = true
      ∧ year = ((digitVal y1 * 10 + digitVal y2) * 10 + digitVal y3) * 10 + digitVal y4
      ∧ month = digitVal m1 * 10 + digitVal m2
      ∧ day = digitVal d1 * 10 + digitVal d2
      ∧ 1 ≤ month ∧ month ≤ 12 ∧ 1 ≤ day ∧ day ≤ monthLength year month := by
  unfold parseDate at h
  match l, h with
  | [], h => simp at h
  | [_], h => simp at h
  | [_, _], h => simp at h
  | [_, _, _], h => simp at h
  | [y1, y2, y3, y4], h => simp at h
  | y1 :: y2 :: y3 :: y4 :: sep1 :: rest1, h =>
    dsimp only at h
    by_cases hy : (isDigit y1 && isDigit y2 && isDigit y3 && isDigit y4) = true
    · rw [if_pos hy] at h
      simp only [Bool.and_eq_true] at hy
      by_cases hsep1 : sep1 = '-'
      · rw [if_pos hsep1] at h
        cases hg : getnum rest1 true with
        | none => simp [hg] at h
        | some p =>
          obtain ⟨mo, r2⟩ := p
          rw [hg] at h
          match r2, hg, h with
          | [], _, h => simp at h
          | sep2 :: rest2, hg, h =>
            dsimp only at h
            by_cases hmo : mo = 0 ∨ 12 < mo
            · simp [hmo] at h
            · rw [if_neg hmo] at h
              by_cases hsep2 : sep2 = '-'
              · rw [if_pos hsep2] at h
                cases hg2 : getnum rest2 true with
                | none => simp [hg2] at h
                | some p2 =>
                  obtain ⟨dd, r3⟩ := p2
                  rw [hg2] at h
                  match r3, hg2, h with
                  | _ :: _, _, h => simp at h
                  | [], hg2, h =>
                    dsimp only at h
                    by_cases hdd : dd < 1 ∨ daysIn mo (((digitVal y1 * 10 + digitVal y2) * 10
                        + digitVal y3) * 10 + digitVal y4) < dd
                    · rw [if_pos hdd] at h
                      exact absurd h (by simp)
                    · rw [if_neg hdd] at h
                      simp only [Option.some.injEq, Prod.mk.injEq] at h
                      obtain ⟨hyear, hmonth, hday⟩ := h
                      obtain ⟨m1, m2, rfl, hm1, hm2, hmv⟩ := (getnum_fixed rest1 _ mo).1 hg
                      obtain ⟨d1, d2, rfl, hd1, hd2, hdv⟩ := (getnum_fixed rest2 _ dd).1 hg2
                      have hmr : 1 ≤ mo ∧ mo ≤ 12 := by omega
                      rw [daysIn_eq mo _ hmr.1 hmr.2] at hdd
                      subst hyear hmonth hday
                      exact ⟨y1, y2, y3, y4, m1, m2, d1, d2, by rw [hsep1, hsep2],
                        hy.1.1.1, hy.1.1.2, hy.1.2, hy.2, hm1, hm2, hd1, hd2, rfl, hmv, hdv,
                        hmr.1, hmr.2, by omega, by omega⟩
              · simp [hsep2] at h
      · simp [hsep1] at h
    · simp [hy] at h

theorem parseDate_iff (s : String) (year month day : Nat) :
    parseDate s.data = some (year, month, day) ↔ IsDate s year month day := by
  constructor
  · exact parseDate_some s.data year month day
  · rintro ⟨y1, y2, y3, y4, m1, m2, d1, d2, e, hy1, hy2, hy3, hy4, hm1, hm2, hd1, hd2,
      rfl, rfl, rfl, hlo, hhi, dlo, dhi⟩
    have g1 : getnum [m1, m2, '-', d1, d2] true = some (digitVal m1 * 10 + digitVal m2, ['-', d1, d2]) := by
      simp [getnum, hm1, hm2]
    have g2 : getnum [d1, d2] true = some (digitVal d1 * 10 + digitVal d2, []) := by
      simp [getnum, hd1, hd2]
    rw [e]
    unfold parseDate
    dsimp only
    rw [if_pos (by simp [hy1, hy2, hy3, hy4]), if_pos rfl, g1]
    dsimp only
    rw [if_neg (by omega), if_pos rfl, g2]
    dsimp only
    rw [daysIn_eq _ _ hlo hhi, if_neg (by omega)]

theorem wrapInt_add_ne (e k : Int) (h1 : 0 < k) (h2 : k < 2 ^ 64) :
    wrapInt (wrapInt e + k) ≠ wrapInt e := by
  unfold wrapInt; omega

/-! ## C5 -/

theorem afternoonPoints_of_window (r : Receipt) (h : AfternoonTime r.PurchaseTime) :
    afternoonPoints r = 10 := by
  unfold afternoonPoints
  rw [if_pos ((isTimeBetween_iff r.PurchaseTime).2 h)]

theorem afternoonPoints_of_not_window (r : Receipt) (h : ¬ AfternoonTime r.PurchaseTime) :
    afternoonPoints r = 0 := by
  unfold afternoonPoints
  rw [if_neg (fun h2 => h ((isTimeBetween_iff r.PurchaseTime).1 h2))]

theorem not_afternoonTime_of_parseClock_none (t : String) (h : parseClock t.data = none) :
    ¬ AfternoonTime t := by
  intro ha
  have h2 := (isTimeBetween_iff t).2 ha
  unfold isTimeBetween at h2
  rw [h] at h2
  exact absurd h2 (by simp)

theorem exactPoints_time (ovf : F64 → Int) (r : Receipt) (v : F64) :
    exactPoints ovf r v = exactPoints ovf { r with PurchaseTime := "" } v + afternoonPoints r := by
  have e : isTimeBetween "" "14:00" "16:00" = false := by decide
  simp only [exactPoints, retailerPoints, pairPoints, itemsPoints, oddDayPoints, afternoonPoints, e]
  norm_num

/-- C5: when the total parses, the score is the score of the same receipt with
an unparseable (empty) purchase time, plus 10 when the purchase time is an
`HH:MM` 24-hour time strictly between 14:00 and 16:00, and plus nothing
otherwise, in particular when the purchase time does not parse; the
computation succeeds in each case.  "14:01" is in the window; "13:01",
"14:00" and "16:00" are not. -/
theorem C5_afternoon_rule (ovf : F64 → Int) (r : Receipt) (v : F64)
    (h : ParseFloat r.Total = .ok v) :
    (∃ s0, computePoints ovf { r with PurchaseTime := "" } = .ok s0
      ∧ (AfternoonTime r.PurchaseTime
          → computePoints ovf r = .ok (wrapInt (s0 + 10)) ∧ wrapInt (s0 + 10) ≠ s0)
      ∧ (¬ AfternoonTime r.PurchaseTime → computePoints ovf r = .ok s0)
      ∧ (parseClock r.PurchaseTime.data = none → computePoints ovf r = .ok s0))
      ∧ AfternoonTime "14:01" ∧ ¬ AfternoonTime "13:01" ∧ ¬ AfternoonTime "14:00"
      ∧ ¬ AfternoonTime "16:00" := by
  have h0 : ParseFloat ({ r with PurchaseTime := "" } : Receipt).Total = .ok v := h
  have hneg : ¬ AfternoonTime r.PurchaseTime → computePoints ovf r
      = .ok (wrapInt (exactPoints ovf { r with PurchaseTime := "" } v)) := by
    intro hw
    rw [computePoints_eq ovf r v h, exactPoints_time, afternoonPoints_of_not_window r hw, add_zero]
  refine ⟨⟨wrapInt (exactPoints ovf { r with PurchaseTime := "" } v),
    computePoints_eq ovf _ v h0, ?_, hneg, ?_⟩, ?_, ?_, ?_, ?_⟩
  · intro hw
    refine ⟨?_, wrapInt_add_ne _ 10 (by norm_num) (by norm_num)⟩
    rw [computePoints_eq ovf r v h, exactPoints_time, afternoonPoints_of_window r hw,
      wrapInt_add_left]
  · intro hp
    exact hneg (not_afternoonTime_of_parseClock_none _ hp)
  · exact (isTimeBetween_iff "14:01").1 (by decide)
  · exact fun hw => absurd ((isTimeBetween_iff "13:01").2 hw) (by decide)
  · exact fun hw => absurd ((isTimeBetween_iff "14:00").2 hw) (by decide)
  · exact fun hw => absurd ((isTimeBetween_iff "16:00").2 hw) (by decide)

/-- Witness of C5: the theorem at the receipt of the retailer
"M&M Corner Market", bought at 14:33. -/
theorem C5_afternoon_rule_witness :
    AfternoonTime cornerMarketReceipt.PurchaseTime
      ∧ ∃ s0, computePoints amd64 { cornerMarketReceipt with PurchaseTime := "" } = .ok s0
        ∧ computePoints amd64 cornerMarketReceipt = .ok (wrapInt (s0 + 10)) :=
  have hw : AfternoonTime cornerMarketReceipt.PurchaseTime :=
    (isTimeBetween_iff cornerMarketReceipt.PurchaseTime).1 (by decide)
  match (C5_afternoon_rule amd64 cornerMarketReceipt (.fin 9) (by decide!)).1 with
  | ⟨s0, h1, h2, _⟩ => ⟨hw, s0, h1, (h2 hw).1⟩

/-! ## C6 -/

theorem oddDayPoints_of_odd (r : Receipt) (h : OddDayDate r.PurchaseDate) :
    oddDayPoints r = 6 := by
  obtain ⟨y, m, d, hd, hodd⟩ := h
  unfold oddDayPoints
  rw [(parseDate_iff r.PurchaseDate y m d).2 hd]
  dsimp only
  rw [if_pos hodd]

theorem oddDayPoints_of_not_odd (r : Receipt) (h : ¬ OddDayDate r.PurchaseDate) :
    oddDayPoints r = 0 := by
  unfold oddDayPoints
  cases hp : parseDate r.PurchaseDate.data with
  | none => rfl
  | some t =>
    obtain ⟨y, m, d⟩ := t
    dsimp only
    rw [if_neg]
    intro hodd
    exact h ⟨y, m, d, (parseDate_iff r.PurchaseDate y m d).1 hp, hodd⟩

theorem not_oddDayDate_of_parseDate (s : String)
    (h : ∀ y m d, parseDate s.data = some (y, m, d) → d % 2 ≠ 1) :
    ¬ OddDayDate s := by
  rintro ⟨y, m, d, hd, hodd⟩
  exact h y m d ((parseDate_iff s y m d).2 hd) hodd

theorem exactPoints_date (ovf : F64 → Int) (r : Receipt) (v : F64) :
    exactPoints ovf r v = exactPoints ovf { r with PurchaseDate := "" } v + oddDayPoints r := by
  have e : parseDate "".data = none := by decide
  simp only [exactPoints, retailerPoints, pairPoints, itemsPoints, oddDayPoints, afternoonPoints, e]
  ring

/-- C6: when the total parses, the score is the score of the same receipt with
an unparseable (empty) purchase date, plus 6 when the purchase date is a valid
calendar date written `YYYY-MM-DD` whose day is odd, and plus nothing
otherwise, in particular when the string is not a date of the calendar; the
computation succeeds in each case.  "2022-01-01" earns the 6 points,
"2022-01-02" does not, and "2022-02-31" is not a date. -/
theorem C6_odd_day_rule (ovf : F64 → Int) (r : Receipt) (v : F64)
    (h : ParseFloat r.Total = .ok v) :
    (∃ s0, computePoints ovf { r with PurchaseDate := "" } = .ok s0
      ∧ (OddDayDate r.PurchaseDate
          → computePoints ovf r = .ok (wrapInt (s0 + 6)) ∧ wrapInt (s0 + 6) ≠ s0)
      ∧ (¬ OddDayDate r.PurchaseDate → computePoints ovf r = .ok s0)
      ∧ ((∀ y m d, ¬ IsDate r.PurchaseDate y m d) → computePoints ovf r = .ok s0))
      ∧ OddDayDate "2022-01-01" ∧ ¬ OddDayDate "2022-01-02"
      ∧ (∀ y m d, ¬ IsDate "2022-02-31" y m d) := by
  have h0 : ParseFloat ({ r with PurchaseDate := "" } : Receipt).Total = .ok v := h
  have hneg : ¬ OddDayDate r.PurchaseDate → computePoints ovf r
      = .ok (wrapInt (exactPoints ovf { r with PurchaseDate := "" } v)) := by
    intro hw
    rw [computePoints_eq ovf r v h, exactPoints_date, oddDayPoints_of_not_odd r hw, add_zero]
  refine ⟨⟨wrapInt (exactPoints ovf { r with PurchaseDate := "" } v),
    computePoints_eq ovf _ v h0, ?_, hneg, ?_⟩, ?_, ?_, ?_⟩
  · intro hw
    refine ⟨?_, wrapInt_add_ne _ 6 (by norm_num) (by norm_num)⟩
    rw [computePoints_eq ovf r v h, exactPoints_date, oddDayPoints_of_odd r hw, wrapInt_add_left]
  · intro hp
    exact hneg (fun ⟨y, m, d, hd, _⟩ => hp y m d hd)
  · exact ⟨2022, 1, 1, (parseDate_iff "2022-01-01" 2022 1 1).1 (by decide), by decide⟩
  · apply not_oddDayDate_of_parseDate
    intro y m d hp
    have e : parseDate "2022-01-02".data = some (2022, 1, 2) := by decide
    rw [e] at hp
    simp only [Option.some.injEq, Prod.mk.injEq] at hp
    omega
  · intro y m d hd
    have hp := (parseDate_iff "2022-02-31" y m d).2 hd
    have e : parseDate "2022-02-31".data = none := by decide
    rw [e] at hp
    exact absurd hp (by simp)

/-- Witness of C6: the theorem at the receipt of the retailer "Target", bought
on 2022-01-01. -/
theorem C6_odd_day_rule_witness :
    OddDayDate targetReceipt.PurchaseDate
      ∧ ∃ s0, computePoints amd64 { targetReceipt with PurchaseDate := "" } = .ok s0
        ∧ computePoints amd64 targetReceipt = .ok (wrapInt (s0 + 6)) :=
  have hw : OddDayDate targetReceipt.PurchaseDate :=
    ⟨2022, 1, 1, (parseDate_iff targetReceipt.PurchaseDate 2022 1 1).1 (by decide), by decide⟩
  match (C6_odd_day_rule amd64 targetReceipt (.fin (4975070213360845 / 140737488355328))
      (by decide!)).1 with
  | ⟨s0, h1, h2, _⟩ => ⟨hw, s0, h1, (h2 hw).1⟩

/-! ## Bounds on the contributions -/

theorem retailerPoints_nonneg (r : Receipt) : 0 ≤ retailerPoints r := by
  unfold retailerPoints; exact Int.ofNat_nonneg _

theorem retailerPoints_le (r : Receipt) : retailerPoints r ≤ (r.Retailer.data.length : Int) := by
  unfold retailerPoints
  exact Int.ofNat_le.2 (List.length_filter_le _ _)

theorem roundDollarPoints_bounds (ovf : F64 → Int) (v : F64) :
    0 ≤ roundDollarPoints ovf v ∧ roundDollarPoints ovf v ≤ 50 := by
  unfold roundDollarPoints; split <;> norm_num

theorem quarterPoints_bounds (v : F64) : 0 ≤ quarterPoints v ∧ quarterPoints v ≤ 25 := by
  unfold quarterPoints; split <;> norm_num

theorem pairPoints_nonneg (r : Receipt) : 0 ≤ pairPoints r := by
  unfold pairPoints; omega

theorem highTotalPoints_bounds (v : F64) : 0 ≤ highTotalPoints v ∧ highTotalPoints v ≤ 5 := by
  unfold highTotalPoints; split <;> norm_num

theorem oddDayPoints_bounds (r : Receipt) : 0 ≤ oddDayPoints r ∧ oddDayPoints r ≤ 6 := by
  unfold oddDayPoints
  split
  · split <;> norm_num
  · norm_num

theorem afternoonPoints_bounds (r : Receipt) : 0 ≤ afternoonPoints r ∧ afternoonPoints r ≤ 10 := by
  unfold afternoonPoints; split <;> norm_num

theorem sum_itemBonus_nonneg (ovf : F64 → Int) (items : List ReceiptItem)
    (h : ∀ item ∈ items, 0 ≤ itemBonus ovf item) : 0 ≤ (items.map (itemBonus ovf)).sum := by
  induction items with
  | nil => simp
  | cons item rest ih =>
    simp only [List.map_cons, List.sum_cons]
    have h1 := h item (List.mem_cons_self _ _)
    have h2 := ih (fun i hi => h i (List.mem_cons_of_mem _ hi))
    omega

theorem sum_itemBonus_zero (ovf : F64 → Int) (items : List ReceiptItem)
    (h : ∀ item ∈ items, itemBonus ovf item = 0) : (items.map (itemBonus ovf)).sum = 0 := by
  induction items with
  | nil => simp
  | cons item rest ih =>
    simp only [List.map_cons, List.sum_cons]
    rw [h item (List.mem_cons_self _ _), ih (fun i hi => h i (List.mem_cons_of_mem _ hi))]
    rfl

/-! ## C7 -/

/-- C7, counterexample: the receipt with one item "Refund" at "-1000.00"
(retailer "Target", total "35.35") is scored 6 + 5 - 200 = -189, on every
implementation. -/
theorem C7_negative_score :
    (∀ ovf, computePoints ovf refundReceipt = .ok (-189)) ∧ ¬ (0 : Int) ≤ -189 :=
  ⟨fun ovf => (computePoints_of_fits ovf amd64 _ (by decide!)).trans (by decide!), by decide⟩

/-- C7, amended: on a receipt on which `computePoints` succeeds, if no item
has a negative bonus `int(ceil(price * 0.2))` and the sum of the
contributions of the eight rules is below `2^63` (it fits an `int`), the score
is not negative. -/
theorem C7_score_nonneg (ovf : F64 → Int) (r : Receipt) (v : F64) (s : Int)
    (hv : ParseFloat r.Total = .ok v) (h : computePoints ovf r = .ok s)
    (hb : ∀ item ∈ r.Items, 0 ≤ itemBonus ovf item)
    (hfit : exactPoints ovf r v < 2 ^ 63) : 0 ≤ s := by
  rw [computePoints_eq ovf r v hv] at h
  have hs : s = wrapInt (exactPoints ovf r v) := by
    injection h with h
    exact h.symm
  have h0 : 0 ≤ exactPoints ovf r v := by
    have b1 := retailerPoints_nonneg r
    have b2 := (roundDollarPoints_bounds ovf v).1
    have b3 := (quarterPoints_bounds v).1
    have b4 := pairPoints_nonneg r
    have b5 : 0 ≤ itemsPoints ovf r := sum_itemBonus_nonneg ovf r.Items hb
    have b6 := (highTotalPoints_bounds v).1
    have b7 := (oddDayPoints_bounds r).1
    have b8 := (afternoonPoints_bounds r).1
    unfold exactPoints
    omega
  rw [hs, wrapInt_of_inRange (by omega) hfit]
  exact h0

theorem itemBonus_gatorade (ovf : F64 → Int) : itemBonus ovf ⟨"Gatorade", "2.25"⟩ = 0 := by
  rw [itemBonus_of_parse ovf _ (.fin (9 / 4)) (by decide!)]
  have hl : len (TrimSpace (ReceiptItem.mk "Gatorade" "2.25").ShortDescription.data) = 8 := by
    decide
  rw [hl, if_neg (by decide)]

theorem cornerMarket_items (ovf : F64 → Int) :
    ∀ item ∈ cornerMarketReceipt.Items, itemBonus ovf item = 0 := by
  intro item hi
  have : item = ⟨"Gatorade", "2.25"⟩ := by
    simp only [cornerMarketReceipt, List.mem_cons, List.mem_singleton, or_self,
      List.mem_nil_iff, or_false] at hi
    exact hi
  rw [this]
  exact itemBonus_gatorade ovf

/-- Witness of C7, amended: the theorem at the receipt of the retailer
"M&M Corner Market", whose score is 109. -/
theorem C7_score_nonneg_witness :
    computePoints amd64 cornerMarketReceipt = .ok 109
      ∧ (∀ item ∈ cornerMarketReceipt.Items, 0 ≤ itemBonus amd64 item)
      ∧ exactPoints amd64 cornerMarketReceipt (.fin 9) < 2 ^ 63
      ∧ (0 : Int) ≤ 109 :=
  ⟨by decide!, fun item hi => le_of_eq (cornerMarket_items amd64 item hi).symm, by decide!,
    C7_score_nonneg amd64 cornerMarketReceipt (.fin 9) 109 (by decide!) (by decide!)
      (fun item hi => le_of_eq (cornerMarket_items amd64 item hi).symm) (by decide!)⟩

/-! ## C8 -/

theorem isAlnum_eq (c : Char) : isAlnum c = (c.isAlpha || c.isDigit) := by
  unfold isAlnum Char.isAlpha Char.isUpper Char.isLower Char.isDigit
  rw [Bool.eq_iff_iff]
  simp only [Bool.or_eq_true, Bool.and_eq_true, decide_eq_true_eq, ge_iff_le, UInt32.le_def,
    Char.toNat, BitVec.le_def, UInt32.toNat]
  have e1 : (UInt32.toBitVec 65).toNat = 65 := rfl
  have e2 : (UInt32.toBitVec 90).toNat = 90 := rfl
  have e3 : (UInt32.toBitVec 97).toNat = 97 := rfl
  have e4 : (UInt32.toBitVec 122).toNat = 122 := rfl
  have e5 : (UInt32.toBitVec 48).toNat = 48 := rfl
  have e6 : (UInt32.toBitVec 57).toNat = 57 := rfl
  rw [e1, e2, e3, e4, e5, e6]
  omega

theorem retailerPoints_eq_alnumCount (r : Receipt) : retailerPoints r = alnumCount r.Retailer := by
  unfold retailerPoints alnumCount
  rw [List.countP_eq_length_filter]
  have : isAlnum = fun c => c.isAlpha || c.isDigit := funext isAlnum_eq
  rw [this]

theorem exactPoints_retailer (ovf : F64 → Int) (r : Receipt) (retailer : String) (v : F64) :
    exactPoints ovf { r with Retailer := retailer } v
      = exactPoints ovf r v + (alnumCount retailer - alnumCount r.Retailer) := by
  have e1 := retailerPoints_eq_alnumCount r
  have e2 := retailerPoints_eq_alnumCount { r with Retailer := retailer }
  simp only [exactPoints, pairPoints, itemsPoints, oddDayPoints, afternoonPoints] at *
  rw [e1, e2]
  ring

/-- C8: when the total parses, replacing the retailer name by another one
changes the score by the difference between the numbers of ASCII letters and
digits of the two names (a sum of Go `int`s, exact when both sums fit an
`int`).  "Target" has 6 such characters, "M&M Corner Market" has 14, and
accented letters and symbols are not counted. -/
theorem C8_retailer_rule (ovf : F64 → Int) (r : Receipt) (retailer : String) (v : F64)
    (h : ParseFloat r.Total = .ok v) :
    (∃ s s', computePoints ovf r = .ok s
      ∧ computePoints ovf { r with Retailer := retailer } = .ok s'
      ∧ s' = wrapInt (s + (alnumCount retailer - alnumCount r.Retailer))
      ∧ (-2 ^ 63 ≤ exactPoints ovf r v ∧ exactPoints ovf r v < 2 ^ 63
          → -2 ^ 63 ≤ exactPoints ovf { r with Retailer := retailer } v
          → exactPoints ovf { r with Retailer := retailer } v < 2 ^ 63
          → s' - s = alnumCount retailer - alnumCount r.Retailer))
      ∧ alnumCount "Target" = 6 ∧ alnumCount "M&M Corner Market" = 14
      ∧ alnumCount "Café №9!" = 4 := by
  have h' : ParseFloat ({ r with Retailer := retailer } : Receipt).Total = .ok v := h
  refine ⟨⟨wrapInt (exactPoints ovf r v), wrapInt (exactPoints ovf { r with Retailer := retailer } v),
    computePoints_eq ovf r v h, computePoints_eq ovf _ v h', ?_, ?_⟩, by decide, by decide,
    by decide⟩
  · rw [wrapInt_add_left, exactPoints_retailer]
  · intro hr hl hu
    rw [wrapInt_of_inRange hr.1 hr.2, wrapInt_of_inRange hl hu, exactPoints_retailer]
    ring

/-- Witness of C8: the receipt of the retailer "Target" and the same receipt
with the retailer "M&M Corner Market". -/
theorem C8_retailer_rule_witness :
    ∃ s s', computePoints amd64 targetReceipt = .ok s
      ∧ computePoints amd64 { targetReceipt with Retailer := "M&M Corner Market" } = .ok s'
      ∧ s' = wrapInt (s + (alnumCount "M&M Corner Market" - alnumCount targetReceipt.Retailer)) :=
  match (C8_retailer_rule amd64 targetReceipt "M&M Corner Market"
      (.fin (4975070213360845 / 140737488355328)) (by decide!)).1 with
  | ⟨s, s', h1, h2, h3, _⟩ => ⟨s, s', h1, h2, h3⟩

/-! ## C9 -/

theorem exactPoints_items (ovf : F64 → Int) (r : Receipt) (v : F64) :
    exactPoints ovf r v
      = exactPoints ovf { r with Items := [] } v
        + (5 * ((r.Items.length : Int) / 2) + (r.Items.map (itemBonus ovf)).sum) := by
  simp only [exactPoints, retailerPoints, pairPoints, itemsPoints, oddDayPoints,
    afternoonPoints, List.length_nil, List.map_nil, List.sum_nil]
  norm_num
  ring

theorem exactPoints_noItems_bounds (ovf : F64 → Int) (r : Receipt) (v : F64) :
    0 ≤ exactPoints ovf { r with Items := [] } v
      ∧ exactPoints ovf { r with Items := [] } v ≤ (r.Retailer.data.length : Int) + 96 := by
  have b1 := retailerPoints_nonneg { r with Items := [] }
  have b1' := retailerPoints_le { r with Items := [] }
  have b2 := roundDollarPoints_bounds ovf v
  have b3 := quarterPoints_bounds v
  have b6 := highTotalPoints_bounds v
  have b7 := oddDayPoints_bounds { r with Items := [] }
  have b8 := afternoonPoints_bounds { r with Items := [] }
  have b4 : pairPoints { r with Items := [] } = 0 := by simp [pairPoints]
  have b5 : itemsPoints ovf { r with Items := [] } = 0 := by simp [itemsPoints]
  unfold exactPoints
  rw [b4, b5]
  dsimp only at b1'
  omega

/-- C9: when the total parses and no item earns a description-length bonus,
the score is the score of the same receipt with an empty item list plus
`5 * floor(n / 2)`, `n` being the number of items (a sum of Go `int`s, exact
when the retailer name and the item list have fewer than `2^60` elements):
10 for 4 items, 5 for 3 items, 0 for 1 item. -/
theorem C9_pair_rule (ovf : F64 → Int) (r : Receipt) (v : F64)
    (h : ParseFloat r.Total = .ok v) (hb : ∀ item ∈ r.Items, itemBonus ovf item = 0) :
    ∃ s0, computePoints ovf { r with Items := [] } = .ok s0
      ∧ computePoints ovf r = .ok (wrapInt (s0 + 5 * ((r.Items.length : Int) / 2)))
      ∧ (r.Retailer.data.length < 2 ^ 60 → r.Items.length < 2 ^ 60
          → computePoints ovf r = .ok (s0 + 5 * ((r.Items.length : Int) / 2)))
      ∧ (r.Items.length = 4 → 5 * ((r.Items.length : Int) / 2) = 10)
      ∧ (r.Items.length = 3 → 5 * ((r.Items.length : Int) / 2) = 5)
      ∧ (r.Items.length = 1 → 5 * ((r.Items.length : Int) / 2) = 0) := by
  have h0 : ParseFloat ({ r with Items := [] } : Receipt).Total = .ok v := h
  have hsplit : exactPoints ovf r v
      = exactPoints ovf { r with Items := [] } v + 5 * ((r.Items.length : Int) / 2) := by
    rw [exactPoints_items, sum_itemBonus_zero ovf r.Items hb, add_zero]
  refine ⟨wrapInt (exactPoints ovf { r with Items := [] } v), computePoints_eq ovf _ v h0,
    ?_, ?_, ?_, ?_, ?_⟩
  · rw [computePoints_eq ovf r v h, wrapInt_add_left, hsplit]
  · intro hr hn
    have b := exactPoints_noItems_bounds ovf r v
    have hr' : (r.Retailer.data.length : Int) < 2 ^ 60 := by exact_mod_cast hr
    have hn' : (r.Items.length : Int) < 2 ^ 60 := by exact_mod_cast hn
    rw [computePoints_eq ovf r v h, hsplit, wrapInt_of_inRange (by omega) (by omega),
      wrapInt_of_inRange (by omega) (by omega)]
  · intro hn; rw [hn]; rfl
  · intro hn; rw [hn]; rfl
  · intro hn; rw [hn]; rfl

/-- Witness of C9: the theorem at the receipt of the retailer
"M&M Corner Market", whose four items earn no description-length bonus. -/
theorem C9_pair_rule_witness :
    ∃ s0, computePoints amd64 { cornerMarketReceipt with Items := [] } = .ok s0
      ∧ computePoints amd64 cornerMarketReceipt
          = .ok (wrapInt (s0 + 5 * ((cornerMarketReceipt.Items.length : Int) / 2))) :=
  match C9_pair_rule amd64 cornerMarketReceipt (.fin 9) (by decide!)
      (cornerMarket_items amd64) with
  | ⟨s0, h1, h2, _⟩ => ⟨s0, h1, h2⟩

/-! ## C10 -/

theorem lt_ten_iff (v : F64) : F64.lt (.fin 10) v = true ↔ ExceedsTen v := by
  cases v with
  | nan => simp [F64.lt, ExceedsTen]
  | inf neg => cases neg <;> simp [F64.lt, ExceedsTen]
  | fin q => simp [F64.lt, ExceedsTen]

/-- C10: when the total parses to `v`, the score is the sum of the
contributions of the seven other rules plus 5 when `v > 10`, and plus nothing
when `v > 10` does not hold (sums of Go `int`s); the two results differ.  The
total "10.00" parses to 10, which is not greater than 10. -/
theorem C10_high_total_rule (ovf : F64 → Int) (r : Receipt) (v : F64)
    (h : ParseFloat r.Total = .ok v) :
    (ExceedsTen v → computePoints ovf r
        = .ok (wrapInt (retailerPoints r + roundDollarPoints ovf v + quarterPoints v
            + pairPoints r + itemsPoints ovf r + oddDayPoints r + afternoonPoints r + 5)))
      ∧ (¬ ExceedsTen v → computePoints ovf r
        = .ok (wrapInt (retailerPoints r + roundDollarPoints ovf v + quarterPoints v
            + pairPoints r + itemsPoints ovf r + oddDayPoints r + afternoonPoints r)))
      ∧ wrapInt (retailerPoints r + roundDollarPoints ovf v + quarterPoints v
            + pairPoints r + itemsPoints ovf r + oddDayPoints r + afternoonPoints r + 5)
          ≠ wrapInt (retailerPoints r + roundDollarPoints ovf v + quarterPoints v
            + pairPoints r + itemsPoints ovf r + oddDayPoints r + afternoonPoints r)
      ∧ ParseFloat "10.00" = .ok (.fin 10) ∧ ¬ ExceedsTen (.fin 10) := by
  refine ⟨?_, ?_, ?_, by decide!, by simp [ExceedsTen]⟩
  · intro hv
    have e : highTotalPoints v = 5 := by
      unfold highTotalPoints
      rw [if_pos ((lt_ten_iff v).2 hv)]
    rw [computePoints_eq ovf r v h]
    unfold exactPoints
    rw [e]
    congr 2
    ring
  · intro hv
    have e : highTotalPoints v = 0 := by
      unfold highTotalPoints
      rw [if_neg (fun h2 => hv ((lt_ten_iff v).1 h2))]
    rw [computePoints_eq ovf r v h]
    unfold exactPoints
    rw [e]
    congr 2
    ring
  · rw [← wrapInt_add_left]
    exact wrapInt_add_ne _ 5 (by norm_num) (by norm_num)

/-- Witness of C10: the theorem at the receipt of the retailer "Target", whose
total 35.35 is greater than 10. -/
theorem C10_high_total_rule_witness :
    ExceedsTen (.fin (4975070213360845 / 140737488355328))
      ∧ computePoints amd64 targetReceipt
        = .ok (wrapInt (retailerPoints targetReceipt
            + roundDollarPoints amd64 (.fin (4975070213360845 / 140737488355328))
            + quarterPoints (.fin (4975070213360845 / 140737488355328))
            + pairPoints targetReceipt + itemsPoints amd64 targetReceipt
            + oddDayPoints targetReceipt + afternoonPoints targetReceipt + 5)) :=
  have hx : ExceedsTen (.fin (4975070213360845 / 140737488355328)) := by
    unfold ExceedsTen
    norm_num
  ⟨hx, (C10_high_total_rule amd64 targetReceipt (.fin (4975070213360845 / 140737488355328))
    (by decide!)).1 hx⟩

/-! ## C11 -/

theorem isRoundDollar_whole (ovf : F64 → Int) (v : F64) (h : isRoundDollar ovf v = true) :
    ∃ j : Int, v = .fin (j : ℚ) := by
  obtain ⟨h1, h2⟩ := floatToInt_range ovf v
  obtain ⟨r, hr, _, j, hj⟩ := intToFloat_of_range _ h1 h2
  unfold isRoundDollar at h
  rw [hr] at h
  cases v with
  | nan => simp [F64.eq] at h
  | inf neg => simp [F64.eq] at h
  | fin q =>
    refine ⟨j, ?_⟩
    have e : q = r := by simpa [F64.eq] using h
    rw [e, hj]

theorem Mod_quarter_of_whole (j : Int) : Mod (.fin (j : ℚ)) (.fin (1 / 4)) = .fin 0 := by
  have e : (j : ℚ) / (1 / 4) = ((4 * j : Int) : ℚ) := by
    push_cast
    ring
  unfold Mod
  dsimp only
  rw [if_neg (by norm_num), e, tdiv_intCast]
  congr 1
  push_cast
  ring

theorem isMultipleOfQuarter_of_whole (j : Int) : isMultipleOfQuarter (.fin (j : ℚ)) = true := by
  unfold isMultipleOfQuarter
  rw [roundToF64_quarter, roundToF64_epsilon, Mod_quarter_of_whole, Bool.or_eq_true]
  left
  unfold F64.lt
  rw [decide_eq_true_eq]
  norm_num

/-- C11: evaluation of the code at the whole-number total "1e19": the
quarter-multiple bonus is awarded and the round-dollar bonus is not (the score
of the otherwise empty receipt is 25 + 5, not 50 + 25 + 5), on every
implementation.  Apart from that defect the claim holds: whenever
`isRoundDollar` is true `isMultipleOfQuarter` is true as well, both are true
of every whole number of magnitude below `2^53`, the total "35.00" earns both
bonuses and the total "35.10" earns neither. -/
theorem C11_round_dollar_and_quarter :
    ParseFloat "1e19" = .ok (.fin 10000000000000000000)
      ∧ isMultipleOfQuarter (.fin 10000000000000000000) = true
      ∧ (∀ ovf, isRoundDollar ovf (.fin 10000000000000000000) = false)
      ∧ (∀ ovf, roundDollarPoints ovf (.fin 10000000000000000000) = 0
          ∧ quarterPoints (.fin 10000000000000000000) = 25)
      ∧ (∀ ovf v, isRoundDollar ovf v = true → isMultipleOfQuarter v = true)
      ∧ (∀ ovf (i : Int), |i| < 2 ^ 53
          → isRoundDollar ovf (.fin (i : ℚ)) = true ∧ isMultipleOfQuarter (.fin (i : ℚ)) = true)
      ∧ ParseFloat "35.00" = .ok (.fin 35)
      ∧ (∀ ovf, isRoundDollar ovf (.fin 35) = true) ∧ isMultipleOfQuarter (.fin 35) = true
      ∧ (∀ ovf, computePoints ovf ⟨"", "", "", [], "35.00"⟩ = .ok 80)
      ∧ ParseFloat "35.10" = .ok (.fin (4939885841272013 / 140737488355328))
      ∧ (∀ ovf, isRoundDollar ovf (.fin (4939885841272013 / 140737488355328)) = false)
      ∧ isMultipleOfQuarter (.fin (4939885841272013 / 140737488355328)) = false
      ∧ ∀ ovf, computePoints ovf ⟨"", "", "", [], "35.10"⟩ = .ok 5 := by
  have hr : ∀ ovf, isRoundDollar ovf (.fin 10000000000000000000) = false :=
    fun ovf => isRoundDollar_of_large ovf _ (by norm_num [abs_of_pos])
  have hq : isMultipleOfQuarter (.fin 10000000000000000000) = true := by
    have := isMultipleOfQuarter_of_whole 10000000000000000000
    simpa using this
  have h35 : ∀ ovf, isRoundDollar ovf (.fin 35) = true := by
    intro ovf
    have := isRoundDollar_of_small_int ovf 35 (by norm_num [abs_of_pos])
    simpa using this
  refine ⟨by decide!, hq, hr, fun ovf => ⟨?_, ?_⟩, ?_, ?_, by decide!, h35, by decide!, ?_,
    by decide!, ?_, by decide!, ?_⟩
  · unfold roundDollarPoints
    rw [hr ovf]
    rfl
  · unfold quarterPoints
    rw [hq]
    rfl
  · intro ovf v h
    obtain ⟨j, rfl⟩ := isRoundDollar_whole ovf v h
    exact isMultipleOfQuarter_of_whole j
  · intro ovf i hi
    exact ⟨isRoundDollar_of_small_int ovf i hi, isMultipleOfQuarter_of_whole i⟩
  · exact fun ovf => (computePoints_of_fits ovf amd64 _ (by decide!)).trans (by decide!)
  · intro ovf
    apply isRoundDollar_of_frac
    intro j hj
    have h2 : ((4939885841272013 / 140737488355328 : ℚ)).den = 1 := by
      rw [hj]
      exact Rat.den_intCast j
    exact absurd h2 (by decide!)
  · exact fun ovf => (computePoints_of_fits ovf amd64 _ (by decide!)).trans (by decide!)

/-! ## C12 -/

theorem len_of_ascii (s : List Char) (h : ∀ c ∈ s, c.toNat < 128) : len s = s.length := by
  induction s with
  | nil => rfl
  | cons c cs ih =>
    have hc : utf8Len c = 1 := by
      unfold utf8Len
      rw [if_pos (h c (List.mem_cons_self _ _))]
    have := ih (fun d hd => h d (List.mem_cons_of_mem _ hd))
    unfold len at this ⊢
    simp only [List.map_cons, List.sum_cons, List.length_cons]
    omega

theorem itemStep_of_not_multiple (ovf : F64 → Int) (item : ReceiptItem) (totalPoints : Int)
    (h : len (TrimSpace item.ShortDescription.data) % 3 ≠ 0) :
    itemStep ovf totalPoints item = totalPoints := by
  unfold itemStep
  dsimp only
  cases ParseFloat item.Price with
  | error e => rfl
  | ok p =>
    dsimp only
    rw [if_neg (fun hc => h hc.1)]

theorem itemBonus_of_not_multiple (ovf : F64 → Int) (item : ReceiptItem)
    (h : len (TrimSpace item.ShortDescription.data) % 3 ≠ 0) : itemBonus ovf item = 0 := by
  unfold itemBonus
  cases ParseFloat item.Price with
  | error e => rfl
  | ok p =>
    dsimp only
    rw [if_neg (fun hc => h hc.2)]

/-- C12, counterexample: the description "éa" has 2 characters, which is not a
multiple of 3, and 3 bytes; at the price "10" the item earns 2 points, and the
receipt made of that item alone (total "0.10") is scored 2, on every
implementation. -/
theorem C12_non_ascii_description :
    (TrimSpace "éa".data).length = 2 ∧ ¬ 2 % 3 = 0
      ∧ len (TrimSpace "éa".data) = 3
      ∧ (∀ ovf, itemBonus ovf ⟨"éa", "10"⟩ = 2)
      ∧ ∀ ovf, computePoints ovf ⟨"", "", "", [⟨"éa", "10"⟩], "0.10"⟩ = .ok 2 :=
  ⟨by decide, by decide, by decide,
    fun ovf => (itemBonus_congr ovf amd64 _ (by decide!)).trans (by decide!),
    fun ovf => (computePoints_of_fits ovf amd64 _ (by decide!)).trans (by decide!)⟩

/-- C12, amended: an item whose trimmed description has a length in bytes
(of its UTF-8 encoding) that is not a multiple of 3 contributes nothing,
whatever its price: the iteration of the loop leaves the running total
unchanged and the bonus of the item is 0.  For a description made of ASCII
characters the length in bytes is the number of characters. -/
theorem C12_length_rule (ovf : F64 → Int) (item : ReceiptItem) (totalPoints : Int)
    (h : len (TrimSpace item.ShortDescription.data) % 3 ≠ 0) :
    itemStep ovf totalPoints item = totalPoints ∧ itemBonus ovf item = 0
      ∧ ((∀ c ∈ TrimSpace item.ShortDescription.data, c.toNat < 128)
        → len (TrimSpace item.ShortDescription.data)
          = (TrimSpace item.ShortDescription.data).length) :=
  ⟨itemStep_of_not_multiple ovf item totalPoints h, itemBonus_of_not_multiple ovf item h,
    len_of_ascii _⟩

/-- Witness of C12, amended: the item "Gatorade" (8 characters, 8 bytes) at
"2.25", with a running total of 50. -/
theorem C12_length_rule_witness :
    len (TrimSpace (ReceiptItem.mk "Gatorade" "2.25").ShortDescription.data) % 3 ≠ 0
      ∧ itemStep amd64 50 ⟨"Gatorade", "2.25"⟩ = 50 ∧ itemBonus amd64 ⟨"Gatorade", "2.25"⟩ = 0 :=
  have h : len (TrimSpace (ReceiptItem.mk "Gatorade" "2.25").ShortDescription.data) % 3 ≠ 0 := by
    decide
  ⟨h, (C12_length_rule amd64 ⟨"Gatorade", "2.25"⟩ 50 h).1,
    (C12_length_rule amd64 ⟨"Gatorade", "2.25"⟩ 50 h).2.1⟩

/-! ## The syntax that `ParseFloat` accepts -/

theorem lt_of_lor_lt (x : Nat) (h : x ||| 32 < 128) : x < 128 := by
  have : x < 2 ^ 7 := by
    apply Nat.lt_pow_two_of_testBit
    intro i hi
    have h1 : (x ||| 32).testBit i = false :=
      Nat.testBit_lt_two_pow (lt_of_lt_of_le h (Nat.pow_le_pow_right (n := 2) (by norm_num) hi))
    rw [Nat.testBit_or, Bool.or_eq_false_iff] at h1
    exact h1.1
  simpa using this

theorem commonPrefixLen_le (s w : List Char) : commonPrefixLenIgnoreCase s w ≤ s.length := by
  induction s generalizing w with
  | nil => simp [commonPrefixLenIgnoreCase]
  | cons c cs ih =>
    cases w with
    | nil => simp [commonPrefixLenIgnoreCase]
    | cons p ps =>
      unfold commonPrefixLenIgnoreCase
      by_cases hc : foldCase c = p.toNat
      · rw [if_pos hc]
        have := ih ps
        simp only [List.length_cons]
        omega
      · rw [if_neg hc]
        exact Nat.zero_le _

theorem not_mantissa_of_code :
    ∀ n, n < 128 → (n ||| 32 = 101 ∨ n ||| 32 = 112 ∨ n ||| 32 = 120 ∨ n ||| 32 = 98
        ∨ n ||| 32 = 111) →
      (¬ (48 ≤ n ∧ n ≤ 57) ∧ n ≠ 95 ∧ n ≠ 46 ∧ n ≠ 43 ∧ n ≠ 45) := by
  decide

theorem char_ne_of_toNat (c d : Char) (h : c.toNat ≠ d.toNat) : c ≠ d := by
  intro e
  exact h (by rw [e])

/-- A letter of an exponent or of a base prefix is no character of a decimal
mantissa, and the letter `p` is no character of a hexadecimal one. -/
theorem not_mantissaChar_of_lower (hex : Bool) (c : Char)
    (h : hex = false ∧ (lower c = 101 ∨ lower c = 120 ∨ lower c = 98 ∨ lower c = 111)
      ∨ lower c = 112) :
    isMantissaChar hex c = false ∧ isDigit c = false ∧ c ≠ '_' ∧ c ≠ '.' ∧ c ≠ '+' ∧ c ≠ '-' := by
  have hl : lower c < 128 := by
    rcases h with ⟨_, h | h | h | h⟩ | h
    all_goals rw [h]; norm_num
  have hlt : c.toNat < 128 := lt_of_lor_lt _ hl
  have hcode := not_mantissa_of_code c.toNat hlt (by
    unfold lower at h
    rcases h with ⟨_, h | h | h | h⟩ | h
    · exact Or.inl h
    · exact Or.inr (Or.inr (Or.inl h))
    · exact Or.inr (Or.inr (Or.inr (Or.inl h)))
    · exact Or.inr (Or.inr (Or.inr (Or.inr h)))
    · exact Or.inr (Or.inl h))
  obtain ⟨h1, h2, h3, h4, h5⟩ := hcode
  have hd : isDigit c = false := by
    unfold isDigit
    exact decide_eq_false h1
  have hu : c ≠ '_' := char_ne_of_toNat _ _ h2
  have hp : c ≠ '.' := char_ne_of_toNat _ _ h3
  refine ⟨?_, hd, hu, hp, char_ne_of_toNat _ _ h4, char_ne_of_toNat _ _ h5⟩
  unfold isMantissaChar isMantissaDigit
  rw [hd]
  have hx : (hex && isHexLetter c) = false := by
    rcases h with ⟨h, _⟩ | h
    · rw [h]; rfl
    · have : isHexLetter c = false := by
        unfold isHexLetter
        apply decide_eq_false
        rw [h]
        norm_num
      rw [this, Bool.and_false]
  rw [hx]
  simp [hu, hp]

theorem readDigits_stop (hex : Bool) (c : Char) (r : List Char) (st : Digits)
    (h : isMantissaChar hex c = false) : readDigits hex (c :: r) st = (st, c :: r) := by
  unfold isMantissaChar isMantissaDigit at h
  simp only [Bool.or_eq_false_iff, decide_eq_false_iff_not] at h
  obtain ⟨⟨⟨h1, h2⟩, h3⟩, h4⟩ := h
  unfold readDigits
  rw [if_neg h3, if_neg h4, if_neg (by rw [h1]; simp), if_neg (by rw [h2]; simp)]

/-- What the digit loop reads is a run of mantissa characters with at most one
point; the loop stops at the end, at a second point or at a character that is
not one of a mantissa. -/
theorem readDigits_spec (hex : Bool) (body : List Char) (st : Digits) :
    ∃ m, body = m ++ (readDigits hex body st).2 ∧ m.all (isMantissaChar hex) = true
      ∧ (readDigits hex body st).1.sawdigits = (st.sawdigits || m.any (isMantissaDigit hex))
      ∧ ((readDigits hex body st).1.underscores = false
          → st.underscores = false ∧ ∀ c ∈ m, c ≠ '_')
      ∧ m.count '.' + (if st.sawdot = true then 1 else 0) ≤ 1
      ∧ ∀ c r, (readDigits hex body st).2 = c :: r → c = '.' ∨ isMantissaChar hex c = false := by
  induction body generalizing st with
  | nil =>
    refine ⟨[], ?_, rfl, ?_, ?_, ?_, ?_⟩
    · simp [readDigits]
    · simp [readDigits]
    · intro h
      exact ⟨by simpa [readDigits] using h, fun c hc => absurd hc (List.not_mem_nil c)⟩
    · simp only [List.count_nil, zero_add]
      split <;> norm_num
    · intro c r h
      simp [readDigits] at h
  | cons c cs ih =>
    have hstop : ∀ (_ : readDigits hex (c :: cs) st = (st, c :: cs))
        (_ : c = '.' ∨ isMantissaChar hex c = false),
        ∃ m, c :: cs = m ++ (readDigits hex (c :: cs) st).2 ∧ m.all (isMantissaChar hex) = true
          ∧ (readDigits hex (c :: cs) st).1.sawdigits
              = (st.sawdigits || m.any (isMantissaDigit hex))
          ∧ ((readDigits hex (c :: cs) st).1.underscores = false
              → st.underscores = false ∧ ∀ c ∈ m, c ≠ '_')
          ∧ m.count '.' + (if st.sawdot = true then 1 else 0) ≤ 1
          ∧ ∀ d r, (readDigits hex (c :: cs) st).2 = d :: r
              → d = '.' ∨ isMantissaChar hex d = false := by
      intro hres hc
      rw [hres]
      refine ⟨[], rfl, rfl, by simp, fun h => ⟨h, fun d hd => absurd hd (List.not_mem_nil d)⟩,
        ?_, ?_⟩
      · simp only [List.count_nil, zero_add]
        split <;> norm_num
      · intro d r h
        injection h with h1 h2
        rw [← h1]
        exact hc
    have hstep : ∀ (st' : Digits) (_ : readDigits hex (c :: cs) st = readDigits hex cs st')
        (_ : isMantissaChar hex c = true)
        (_ : st'.sawdigits = (st.sawdigits || isMantissaDigit hex c))
        (_ : st'.underscores = false → st.underscores = false ∧ c ≠ '_')
        (_ : (if st'.sawdot = true then 1 else 0)
          = (if c = '.' then 1 else 0) + (if st.sawdot = true then 1 else 0)),
        ∃ m, c :: cs = m ++ (readDigits hex (c :: cs) st).2 ∧ m.all (isMantissaChar hex) = true
          ∧ (readDigits hex (c :: cs) st).1.sawdigits
              = (st.sawdigits || m.any (isMantissaDigit hex))
          ∧ ((readDigits hex (c :: cs) st).1.underscores = false
              → st.underscores = false ∧ ∀ c ∈ m, c ≠ '_')
          ∧ m.count '.' + (if st.sawdot = true then 1 else 0) ≤ 1
          ∧ ∀ d r, (readDigits hex (c :: cs) st).2 = d :: r
              → d = '.' ∨ isMantissaChar hex d = false := by
      intro st' hres hm hd hu hdot
      obtain ⟨m, h1, h2, h3, h4, h5, h6⟩ := ih st'
      rw [hres]
      refine ⟨c :: m, ?_, ?_, ?_, ?_, ?_, h6⟩
      · rw [List.cons_append, ← h1]
      · rw [List.all_cons, hm, h2]
        rfl
      · rw [h3, hd, List.any_cons, Bool.or_assoc]
      · intro hf
        obtain ⟨hf1, hf2⟩ := h4 hf
        obtain ⟨hu1, hu2⟩ := hu hf1
        refine ⟨hu1, fun d hdm => ?_⟩
        rcases List.mem_cons.1 hdm with rfl | hdm
        · exact hu2
        · exact hf2 d hdm
      · rw [hdot] at h5
        rw [List.count_cons]
        have : (if (c == '.') = true then 1 else 0) = (if c = '.' then 1 else 0) := by
          by_cases hc : c = '.' <;> simp [hc]
        omega
    by_cases h1 : c = '_'
    · refine hstep { st with underscores := true } ?_ ?_ ?_ ?_ ?_
      · rw [readDigits, if_pos h1]
      · simp [isMantissaChar, h1]
      · have : isMantissaDigit hex c = false := by
          rw [h1]
          cases hex <;> decide
        rw [this, Bool.or_false]
      · intro h
        exact absurd h (by simp)
      · rw [if_neg (show ¬ c = '.' by rw [h1]; decide), zero_add]
    · by_cases h2 : c = '.'
      · by_cases hs : st.sawdot = true
        · refine hstop ?_ (Or.inl h2)
          rw [readDigits, if_neg h1, if_pos h2, if_pos hs]
        · refine hstep { st with sawdot := true } ?_ ?_ ?_ ?_ ?_
          · rw [readDigits, if_neg h1, if_pos h2, if_neg hs]
          · simp [isMantissaChar, h2]
          · have : isMantissaDigit hex c = false := by
              rw [h2]
              cases hex <;> decide
            rw [this, Bool.or_false]
          · intro h
            exact ⟨h, h1⟩
          · rw [if_pos h2, if_neg hs]
            rfl
      · by_cases h3 : isDigit c = true
        · refine hstep { st with
            sawdigits := true
            mantissa := st.mantissa * (if hex = true then 16 else 10) + digitVal c
            frac := if st.sawdot = true then st.frac + 1 else st.frac } ?_ ?_ ?_ ?_ ?_
          · rw [readDigits, if_neg h1, if_neg h2, if_pos h3]
          · simp [isMantissaChar, isMantissaDigit, h3]
          · simp [isMantissaDigit, h3]
          · intro h
            exact ⟨h, h1⟩
          · rw [if_neg h2, zero_add]
        · by_cases h4 : (hex && isHexLetter c) = true
          · refine hstep { st with
              sawdigits := true
              mantissa := st.mantissa * 16 + (lower c - 97 + 10)
              frac := if st.sawdot = true then st.frac + 1 else st.frac } ?_ ?_ ?_ ?_ ?_
            · rw [readDigits, if_neg h1, if_neg h2, if_neg h3, if_pos h4]
            · simp [isMantissaChar, isMantissaDigit, h4]
            · simp [isMantissaDigit, h4]
            · intro h
              exact ⟨h, h1⟩
            · rw [if_neg h2, zero_add]
          · have hm : isMantissaChar hex c = false := by
              unfold isMantissaChar isMantissaDigit
              simp only [Bool.not_eq_true] at h3 h4
              rw [h3, h4]
              simp [h1, h2]
            exact hstop (readDigits_stop hex c cs st hm) (Or.inr hm)

theorem takeWhile_dropWhile_of_split (p : Char → Bool) (m rest : List Char)
    (hm : m.all p = true) (hr : ∀ c r, rest = c :: r → p c = false) :
    (m ++ rest).takeWhile p = m ∧ (m ++ rest).dropWhile p = rest := by
  induction m with
  | nil =>
    cases rest with
    | nil => exact ⟨rfl, rfl⟩
    | cons c r =>
      have := hr c r rfl
      simp [List.takeWhile, List.dropWhile, this]
  | cons a m ih =>
    rw [List.all_cons, Bool.and_eq_true] at hm
    obtain ⟨h1, h2⟩ := ih hm.2
    simp [List.takeWhile, List.dropWhile, hm.1, h1, h2]

theorem readExpDigits_spec (y : List Char) (e : Nat) (us : Bool) :
    ∃ m, y = m ++ (readExpDigits y e us).2.2
      ∧ m.all (fun c => isDigit c || c = '_') = true
      ∧ ((readExpDigits y e us).2.1 = false → us = false ∧ ∀ c ∈ m, c ≠ '_') := by
  induction y generalizing e us with
  | nil =>
    exact ⟨[], by simp [readExpDigits], rfl,
      fun h => ⟨by simpa [readExpDigits] using h, fun c hc => absurd hc (List.not_mem_nil c)⟩⟩
  | cons c cs ih =>
    by_cases h1 : c = '_'
    · obtain ⟨m, e1, e2, e3⟩ := ih e true
      have hres : readExpDigits (c :: cs) e us = readExpDigits cs e true := by
        rw [readExpDigits, if_pos h1]
      rw [hres]
      refine ⟨c :: m, by rw [List.cons_append, ← e1], ?_, ?_⟩
      · rw [List.all_cons, e2]
        simp [h1]
      · intro hf
        exact absurd (e3 hf).1 (by simp)
    · by_cases h2 : isDigit c = true
      · obtain ⟨m, e1, e2, e3⟩ := ih (if e < 10000 then e * 10 + digitVal c else e) us
        have hres : readExpDigits (c :: cs) e us
            = readExpDigits cs (if e < 10000 then e * 10 + digitVal c else e) us := by
          rw [readExpDigits, if_neg h1, if_pos h2]
        rw [hres]
        refine ⟨c :: m, by rw [List.cons_append, ← e1], ?_, ?_⟩
        · rw [List.all_cons, e2]
          simp [h2]
        · intro hf
          obtain ⟨hf1, hf2⟩ := e3 hf
          refine ⟨hf1, fun d hd => ?_⟩
          rcases List.mem_cons.1 hd with rfl | hd
          · exact h1
          · exact hf2 d hd
      · have hres : readExpDigits (c :: cs) e us = (e, us, c :: cs) := by
          rw [readExpDigits, if_neg h1, if_neg h2]
        rw [hres]
        exact ⟨[], rfl, rfl, fun h => ⟨h, fun d hd => absurd hd (List.not_mem_nil d)⟩⟩

theorem stripSign_cons (c : Char) (cs : List Char) :
    stripSign (c :: cs) = if c = '+' ∨ c = '-' then cs else c :: cs := rfl

/-- An exponent that `readExp` reads to its end is an exponent of the syntax;
without the flag of underscores it holds no underscore. -/
theorem readExp_spec (x : List Char) (ev : Int) (us : Bool)
    (h : readExp x = some (ev, us, [])) :
    isExponentPart x = true ∧ (us = false → ∀ c ∈ x, c ≠ '_') := by
  unfold readExp at h
  match x, h with
  | c :: cs, h =>
    dsimp only at h
    rw [← stripSign_cons] at h
    unfold isExponentPart
    cases hy : stripSign (c :: cs) with
    | nil =>
      rw [hy] at h
      exact absurd h (by simp)
    | cons d ds =>
      rw [hy] at h
      dsimp only at h ⊢
      by_cases hd : isDigit d = true
      · rw [if_pos hd] at h
        simp only [Option.some.injEq, Prod.mk.injEq] at h
        obtain ⟨_, hus, hrest⟩ := h
        obtain ⟨m, e1, e2, e3⟩ := readExpDigits_spec (d :: ds) 0 false
        rw [hrest, List.append_nil] at e1
        rw [← e1] at e2 e3
        rw [List.all_cons, Bool.and_eq_true] at e2
        refine ⟨by rw [hd, e2.2]; rfl, ?_⟩
        intro hf
        rw [hus] at e3
        have hno := (e3 hf).2
        intro a ha
        rw [stripSign_cons] at hy
        by_cases hs : c = '+' ∨ c = '-'
        · rw [if_pos hs] at hy
          rcases List.mem_cons.1 ha with rfl | ha
          · rcases hs with hs | hs <;> rw [hs] <;> decide
          · rw [hy] at ha
            exact hno a ha
        · rw [if_neg hs] at hy
          rw [hy] at ha
          exact hno a ha
      · rw [if_neg hd] at h
        exact absurd h (by simp)

/-- The pairs of neighbours of a number in which an underscore stands next to
a digit, as `digitsSeparated` asks. -/
theorem underscoreScan_spec (hex : Bool) (body : List Char) (saw : Char)
    (h : underscoreScan hex body saw = true) :
    ((body.zip body.tail).all fun p =>
        (p.1 != '_' || isMantissaDigit hex p.2) && (p.2 != '_' || isMantissaDigit hex p.1)) = true
      ∧ (∀ c, body.head? = some c →
          (c = '_' → saw = '0') ∧ (saw = '_' → isMantissaDigit hex c = true))
      ∧ (body = [] → saw ≠ '_')
      ∧ body.getLast? ≠ some '_' := by
  induction body generalizing saw with
  | nil =>
    refine ⟨rfl, fun c hc => by simp at hc, fun _ => ?_, by simp⟩
    simpa [underscoreScan] using h
  | cons c cs ih =>
    rw [underscoreScan] at h
    have hmd : isMantissaDigit hex c = (isDigit c || (hex && isHexLetter c)) := rfl
    -- the class of the character `c`, and what the scan asks of it
    have key : ∃ saw', underscoreScan hex cs saw' = true
        ∧ (saw' = '0' ↔ isMantissaDigit hex c = true) ∧ (saw' = '_' ↔ c = '_')
        ∧ (c = '_' → saw = '0') ∧ (saw = '_' → isMantissaDigit hex c = true) := by
      by_cases h1 : (isDigit c || (hex && isHexLetter c)) = true
      · rw [if_pos h1] at h
        have hne : c ≠ '_' := by
          intro e
          rw [e] at h1
          revert h1
          cases hex <;> decide
        exact ⟨'0', h, ⟨fun _ => h1, fun _ => rfl⟩, ⟨fun e => absurd e (by decide), fun e => absurd e hne⟩,
          fun e => absurd e hne, fun _ => h1⟩
      · rw [if_neg h1] at h
        by_cases h2 : c = '_'
        · rw [if_pos h2] at h
          by_cases h3 : (saw != '0') = true
          · rw [if_pos h3] at h
            exact absurd h (by simp)
          · rw [if_neg h3] at h
            have hs : saw = '0' := by simpa using h3
            exact ⟨'_', h, ⟨fun e => absurd e (by decide), fun e => absurd e h1⟩,
              ⟨fun _ => h2, fun _ => rfl⟩, fun _ => hs, fun e => by rw [hs] at e; exact absurd e (by decide)⟩
        · rw [if_neg h2] at h
          by_cases h3 : saw = '_'
          · rw [if_pos h3] at h
            exact absurd h (by simp)
          · rw [if_neg h3] at h
            exact ⟨'!', h, ⟨fun e => absurd e (by decide), fun e => absurd e h1⟩,
              ⟨fun e => absurd e (by decide), fun e => absurd e h2⟩, fun e => absurd e h2,
              fun e => absurd e h3⟩
    obtain ⟨saw', hscan, hdig, hund, hc1, hc2⟩ := key
    obtain ⟨i1, i2, i3, i4⟩ := ih saw' hscan
    refine ⟨?_, ?_, fun e => by simp at e, ?_⟩
    · cases cs with
      | nil => rfl
      | cons d ds =>
        have hd := i2 d rfl
        simp only [List.tail_cons, List.zip_cons_cons, List.all_cons, Bool.and_eq_true]
        refine ⟨⟨?_, ?_⟩, ?_⟩
        · by_cases hcu : c = '_'
          · rw [hd.2 (hund.2 hcu), Bool.or_true]
          · simp [hcu]
        · by_cases hdu : d = '_'
          · rw [hdig.1 (hd.1 hdu), Bool.or_true]
          · simp [hdu]
        · simpa using i1
    · intro a ha
      simp only [List.head?_cons, Option.some.injEq] at ha
      rw [← ha]
      exact ⟨hc1, hc2⟩
    · cases cs with
      | nil =>
        simp only [List.getLast?_singleton, ne_eq, Option.some.injEq]
        intro e
        exact i3 rfl (hund.2 e)
      | cons d ds =>
        rw [List.getLast?_cons_cons]
        exact i4

theorem digitsSeparated_of_no_underscore (hex : Bool) (body : List Char)
    (h : ∀ c ∈ body, c ≠ '_') : digitsSeparated hex body = true := by
  unfold digitsSeparated
  rw [Bool.and_eq_true, Bool.and_eq_true]
  refine ⟨⟨?_, ?_⟩, ?_⟩
  · rw [List.all_eq_true]
    intro p hp
    have h1 : p.1 ≠ '_' := h _ (List.of_mem_zip hp).1
    have h2 : p.2 ≠ '_' := h _ (List.mem_of_mem_tail (List.of_mem_zip hp).2)
    simp [h1, h2]
  · cases body with
    | nil => simp
    | cons c cs =>
      have := h c (List.mem_cons_self _ _)
      simp [this]
  · rw [bne_iff_ne]
    intro e
    exact h _ (List.mem_of_getLast?_eq_some e) rfl

theorem readUnsigned_rest_spec (hex : Bool) (st : Digits) (rest : List Char) (r : ℚ × Bool)
    (h : (if st.sawdigits then
        match rest with
        | [] =>
          if hex then none
          else some ((st.mantissa : ℚ) * 10 ^ (-(st.frac : Int)), st.underscores)
        | c :: cs =>
          if lower c = (if hex then 112 else 101) then
            match readExp cs with
            | some (e, us, []) =>
              if hex then
                some ((st.mantissa : ℚ) * 2 ^ (e - 4 * (st.frac : Int)), st.underscores || us)
              else some ((st.mantissa : ℚ) * 10 ^ (e - (st.frac : Int)), st.underscores || us)
            | _ => none
          else none
      else none) = some r) :
    st.sawdigits = true
      ∧ isExponentTail hex rest = true
      ∧ (∀ c cs, rest = c :: cs → lower c = if hex then 112 else 101)
      ∧ (r.2 = false → st.underscores = false ∧ ∀ c ∈ rest, c ≠ '_') := by
  by_cases hd : st.sawdigits = true
  · rw [if_pos hd] at h
    refine ⟨hd, ?_⟩
    match rest, h with
    | [], h =>
      dsimp only at h
      cases hex with
      | true => exact absurd h (by simp)
      | false =>
        refine ⟨rfl, fun c cs e => by simp at e, fun hr => ⟨?_, fun c hc => absurd hc (List.not_mem_nil c)⟩⟩
        simp only [Bool.false_eq_true, if_false, Option.some.injEq] at h
        rw [← h] at hr
        exact hr
    | c :: cs, h =>
      dsimp only at h
      by_cases hl : lower c = (if hex then 112 else 101)
      · rw [if_pos hl] at h
        cases hr : readExp cs with
        | none => rw [hr] at h; exact absurd h (by simp)
        | some t =>
          obtain ⟨e, us, rest2⟩ := t
          rw [hr] at h
          match rest2, hr, h with
          | [], hr, h =>
            obtain ⟨he1, he2⟩ := readExp_spec cs e us hr
            have hcu : c ≠ '_' := by
              intro e
              rw [e] at hl
              revert hl
              cases hex <;> decide
            refine ⟨by unfold isExponentTail; dsimp only; rw [he1, decide_eq_true hl]; rfl,
              fun a as e => by injection e with e1 e2; rw [← e1]; exact hl, ?_⟩
            intro hf
            have hboth : (st.underscores || us) = false := by
              cases hex with
              | true =>
                simp only [if_true, Option.some.injEq] at h
                rw [← h] at hf
                exact hf
              | false =>
                simp only [Bool.false_eq_true, if_false, Option.some.injEq] at h
                rw [← h] at hf
                exact hf
            rw [Bool.or_eq_false_iff] at hboth
            refine ⟨hboth.1, fun a ha => ?_⟩
            rcases List.mem_cons.1 ha with rfl | ha
            · exact hcu
            · exact he2 hboth.2 a ha
          | _ :: _, _, h => exact absurd h (by simp)
      · rw [if_neg hl] at h
        exact absurd h (by simp)
  · rw [if_neg hd] at h
    exact absurd h (by simp)

/-- A number that `readUnsigned` accepts has the syntax of a number; without
the flag of underscores it holds no underscore. -/
theorem readUnsigned_spec (t : List Char) (r : ℚ × Bool) (h : readUnsigned t = some r) :
    (((if isHexStart t = true then t.drop 2 else t).takeWhile
          (isMantissaChar (isHexStart t))).any (isMantissaDigit (isHexStart t)) = true
      ∧ ((if isHexStart t = true then t.drop 2 else t).takeWhile
          (isMantissaChar (isHexStart t))).count '.' ≤ 1
      ∧ isExponentTail (isHexStart t) ((if isHexStart t = true then t.drop 2 else t).dropWhile
          (isMantissaChar (isHexStart t))) = true
      ∧ (r.2 = false → ∀ c ∈ (if isHexStart t = true then t.drop 2 else t), c ≠ '_'))
      ∧ ∀ c cs, (readDigits (isHexStart t) (if isHexStart t = true then t.drop 2 else t)
          ⟨0, 0, false, false, false⟩).2 = c :: cs → lower c = if isHexStart t = true then 112 else 101 := by
  unfold readUnsigned at h
  obtain ⟨hs1, hs2, hs3, hs4⟩ := readUnsigned_rest_spec (isHexStart t)
    (readDigits (isHexStart t) (if isHexStart t = true then t.drop 2 else t)
      ⟨0, 0, false, false, false⟩).1
    (readDigits (isHexStart t) (if isHexStart t = true then t.drop 2 else t)
      ⟨0, 0, false, false, false⟩).2 r h
  refine ⟨?_, hs3⟩
  obtain ⟨m, e1, e2, e3, e4, e5, e6⟩ := readDigits_spec (isHexStart t)
    (if isHexStart t = true then t.drop 2 else t) ⟨0, 0, false, false, false⟩
  have hstop : ∀ c cs, (readDigits (isHexStart t) (if isHexStart t = true then t.drop 2 else t)
      ⟨0, 0, false, false, false⟩).2 = c :: cs → isMantissaChar (isHexStart t) c = false := by
    intro c cs hc
    have hl := hs3 c cs hc
    apply (not_mantissaChar_of_lower (isHexStart t) c _).1
    cases hx : isHexStart t with
    | true =>
      rw [hx] at hl
      exact Or.inr hl
    | false =>
      rw [hx] at hl
      exact Or.inl ⟨rfl, Or.inl hl⟩
  obtain ⟨t1, t2⟩ := takeWhile_dropWhile_of_split (isMantissaChar (isHexStart t)) m _ e2 hstop
  rw [← e1] at t1 t2
  rw [t1, t2]
  refine ⟨?_, ?_, hs2, ?_⟩
  · rw [hs1] at e3
    simpa using e3.symm
  · simpa using e5
  · intro hf
    obtain ⟨hf1, hf2⟩ := hs4 hf
    obtain ⟨_, hf3⟩ := e4 hf1
    intro c hc
    rw [e1] at hc
    rcases List.mem_append.1 hc with hc | hc
    · exact hf3 c hc
    · exact hf2 c hc

theorem hasBasePrefix_of_decimal (t : List Char) (r : ℚ × Bool) (hx : isHexStart t = false)
    (h : readUnsigned t = some r) : hasBasePrefix t = false := by
  match t, hx, h with
  | [], _, _ => rfl
  | [_], _, _ => rfl
  | a :: d :: rest, hx, h =>
    cases hb : hasBasePrefix (a :: d :: rest) with
    | false => rfl
    | true =>
      exfalso
      unfold hasBasePrefix at hb
      simp only [Bool.and_eq_true, decide_eq_true_eq, Bool.or_eq_true] at hb
      obtain ⟨ha, hd⟩ := hb
      have hnm := not_mantissaChar_of_lower false d (Or.inl ⟨rfl, by
        rcases hd with (hd | hd) | hd
        · exact Or.inr (Or.inr (Or.inl hd))
        · exact Or.inr (Or.inr (Or.inr hd))
        · exact Or.inr (Or.inl hd)⟩)
      have hstop := (readUnsigned_spec _ r h).2
      rw [hx] at hstop
      simp only [Bool.false_eq_true, if_false] at hstop
      have hres : ∀ st, (readDigits false (a :: d :: rest) st).2 = d :: rest := by
        intro st
        rw [readDigits, if_neg (by rw [ha]; decide), if_neg (by rw [ha]; decide),
          if_pos (by rw [ha]; decide), readDigits_stop false d rest _ hnm.1]
      have := hstop d rest (hres _)
      rw [this] at hd
      revert hd
      decide

/-- A string that `readFloat` accepts is a floating-point literal. -/
theorem readFloat_spec (s : String) (r : Bool × ℚ) (h : readFloat s.data = some r) :
    isFloatLiteral s = true := by
  unfold readFloat at h
  match hs : s.data, h with
  | c :: cs, h =>
    dsimp only at h
    rw [← stripSign_cons] at h
    cases hu : readUnsigned (stripSign (c :: cs)) with
    | none => rw [hu] at h; exact absurd h (by simp)
    | some qu =>
      obtain ⟨q, us⟩ := qu
      rw [hu] at h
      dsimp only at h
      have hok : us = true → underscoreOK (c :: cs) = true := by
        intro hus
        cases ho : underscoreOK (c :: cs) with
        | true => rfl
        | false =>
          rw [hus, ho] at h
          exact absurd h (by simp)
      have hscan : underscoreOK (c :: cs)
          = if hasBasePrefix (stripSign (c :: cs)) = true then
              underscoreScan (decide (lower ((stripSign (c :: cs)).getD 1 'x') = 120))
                ((stripSign (c :: cs)).drop 2) '0'
            else underscoreScan false (stripSign (c :: cs)) '^' := by
        unfold underscoreOK
        dsimp only
        rw [stripSign_cons]
        by_cases hsg : c = '+' ∨ c = '-'
        · rw [if_pos hsg, if_pos (Or.symm hsg)]
        · rw [if_neg hsg, if_neg (fun e => hsg (Or.symm e))]
      obtain ⟨⟨n1, n2, n3, n4⟩, _⟩ := readUnsigned_spec _ (q, us) hu
      unfold isFloatLiteral
      rw [hs]
      generalize stripSign (c :: cs) = t at *
      cases hx : isHexStart t with
      | true =>
        rw [hx] at n1 n2 n3 n4
        simp only [if_true] at n1 n2 n3 n4
        match t, hx with
        | a :: x :: b :: bs, hx =>
          unfold isHexStart at hx
          simp only [Bool.and_eq_true, decide_eq_true_eq] at hx
          dsimp only
          rw [if_pos hx]
          simp only [List.drop_succ_cons, List.drop_zero] at n1 n2 n3 n4
          unfold isNumberBody
          rw [n1, n3, decide_eq_true n2]
          simp only [Bool.and_self, Bool.true_and]
          cases hus : us with
          | false => exact digitsSeparated_of_no_underscore _ _ (n4 hus)
          | true =>
            have ho := hok hus
            rw [hscan] at ho
            have hb : hasBasePrefix (a :: x :: b :: bs) = true := by
              unfold hasBasePrefix
              simp [hx.1, hx.2]
            rw [if_pos hb] at ho
            have hg : decide (lower ((a :: x :: b :: bs).getD 1 'x') = 120) = true := by
              simp [hx.2]
            rw [hg] at ho
            simp only [List.drop_succ_cons, List.drop_zero] at ho
            obtain ⟨u1, _, _, u4⟩ := underscoreScan_spec true (b :: bs) '0' ho
            unfold digitsSeparated
            rw [u1]
            simp only [Bool.true_or, Bool.and_true, Bool.true_and, bne_iff_ne]
            exact u4
      | false =>
        rw [hx] at n1 n2 n3 n4
        simp only [Bool.false_eq_true, if_false] at n1 n2 n3 n4
        have hb := hasBasePrefix_of_decimal t (q, us) hx hu
        have hbody : isNumberBody false t = true := by
          unfold isNumberBody
          rw [n1, n3, decide_eq_true n2]
          simp only [Bool.and_self, Bool.true_and]
          cases hus : us with
          | false => exact digitsSeparated_of_no_underscore _ _ (n4 hus)
          | true =>
            have ho := hok hus
            rw [hscan, hb] at ho
            simp only [Bool.false_eq_true, if_false] at ho
            obtain ⟨u1, u2, _, u4⟩ := underscoreScan_spec false t '^' ho
            unfold digitsSeparated
            rw [u1]
            simp only [Bool.false_or, Bool.true_and, Bool.and_eq_true, bne_iff_ne]
            refine ⟨?_, u4⟩
            intro e
            exact absurd ((u2 '_' e).1 rfl) (by decide)
        match t, hb, hbody with
        | [], _, hbody => exact hbody
        | [_], _, hbody => exact hbody
        | a :: x :: body, hb, hbody =>
          dsimp only
          rw [if_neg]
          · exact hbody
          · rintro ⟨e1, e2⟩
            unfold hasBasePrefix at hb
            simp [e1, e2] at hb

theorem toLower_of_foldCase (c p : Char) (h : foldCase c = p.toNat) : c.toLower = p := by
  unfold foldCase at h
  unfold Char.toLower
  dsimp only
  by_cases hc : 65 ≤ c.toNat ∧ c.toNat ≤ 90
  · rw [if_pos hc] at h
    rw [if_pos (by exact hc), h, Char.ofNat_toNat]
  · rw [if_neg hc] at h
    rw [if_neg (by exact hc), ← Char.ofNat_toNat c, h, Char.ofNat_toNat]

theorem commonPrefixLen_spec (s w : List Char) (h : commonPrefixLenIgnoreCase s w = s.length) :
    s.map Char.toLower = w.take s.length := by
  induction s generalizing w with
  | nil => rfl
  | cons c cs ih =>
    cases w with
    | nil => simp [commonPrefixLenIgnoreCase] at h
    | cons p ps =>
      unfold commonPrefixLenIgnoreCase at h
      by_cases hc : foldCase c = p.toNat
      · rw [if_pos hc] at h
        simp only [List.length_cons, add_left_inj] at h
        rw [List.map_cons, List.length_cons, List.take_succ_cons, ih ps h,
          toLower_of_foldCase c p hc]
      · rw [if_neg hc] at h
        simp at h

theorem infPrefix_spec (t : List Char) (h : infPrefix t = t.length) (h0 : infPrefix t ≠ 0) :
    t.map Char.toLower = "inf".data ∨ t.map Char.toLower = "infinity".data := by
  have hle := commonPrefixLen_le t "infinity".data
  unfold infPrefix at h h0
  by_cases h8 : commonPrefixLenIgnoreCase t "infinity".data = 8
  · rw [if_pos h8] at h
    right
    rw [commonPrefixLen_spec t _ (h8.trans h), ← h]
    rfl
  · rw [if_neg h8] at h h0
    by_cases h3 : 3 ≤ commonPrefixLenIgnoreCase t "infinity".data
    · rw [if_pos h3] at h
      left
      have hcl : commonPrefixLenIgnoreCase t "infinity".data = t.length := by omega
      rw [commonPrefixLen_spec t _ hcl, ← h]
      rfl
    · rw [if_neg h3] at h0
      exact absurd rfl h0

/-- A string that `special` reads to its end is one of the words `inf`,
`infinity` and `nan`. -/
theorem special_spec (s : String) (f : F64) (h : special s.data = some (f, s.data.length)) :
    isSpecialWord s = true := by
  unfold isSpecialWord
  unfold special at h
  match hs : s.data, h with
  | c :: cs, h =>
    dsimp only at h
    rw [stripSign_cons]
    by_cases hsg : c = '+' ∨ c = '-'
    · rw [if_pos hsg] at h ⊢
      by_cases h0 : infPrefix cs = 0
      · rw [if_pos h0] at h
        exact absurd h (by simp)
      · rw [if_neg h0] at h
        simp only [Option.some.injEq, Prod.mk.injEq, List.length_cons] at h
        rcases infPrefix_spec cs (by omega) h0 with e | e
        · simp [e]
        · simp [e]
    · rw [if_neg hsg] at h ⊢
      by_cases hi : c = 'i' ∨ c = 'I'
      · rw [if_pos hi] at h
        by_cases h0 : infPrefix (c :: cs) = 0
        · rw [if_pos h0] at h
          exact absurd h (by simp)
        · rw [if_neg h0] at h
          simp only [Option.some.injEq, Prod.mk.injEq] at h
          rcases infPrefix_spec (c :: cs) h.2 h0 with e | e
          · simp [e]
          · simp [e]
      · rw [if_neg hi] at h
        by_cases hn : c = 'n' ∨ c = 'N'
        · rw [if_pos hn] at h
          by_cases h3 : commonPrefixLenIgnoreCase (c :: cs) "nan".data = 3
          · rw [if_pos h3] at h
            simp only [Option.some.injEq, Prod.mk.injEq] at h
            have e := commonPrefixLen_spec (c :: cs) "nan".data (h3.trans h.2)
            rw [← h.2] at e
            simp [e]
          · rw [if_neg h3] at h
            exact absurd h (by simp)
        · rw [if_neg hn] at h
          exact absurd h (by simp)

/-- The strings that `ParseFloat` accepts are floating-point literals and the
words `inf`, `infinity` and `nan`: every other string is a syntax error. -/
theorem ParseFloat_rejects (s : String) (h : isFloatLiteral s = false)
    (hw : isSpecialWord s = false) : ParseFloat s = .error "invalid syntax" := by
  unfold ParseFloat
  cases hsp : special s.data with
  | some t =>
    obtain ⟨f, n⟩ := t
    dsimp only
    by_cases hn : n = s.data.length
    · rw [hn] at hsp
      rw [special_spec s f hsp] at hw
      exact absurd hw (by simp)
    · rw [if_neg hn]
  | none =>
    dsimp only
    cases hr : readFloat s.data with
    | none => rfl
    | some t =>
      rw [readFloat_spec s t hr] at h
      exact absurd h (by simp)

theorem isMantissaChar_of_isDigit (c : Char) (h : isDigit c = true) :
    isMantissaChar false c = true ∧ c ≠ '.' ∧ c ≠ '_' ∧ lower c ≠ 120 := by
  have h1 : c ≠ '.' := by
    intro e
    rw [e] at h
    exact absurd h (by decide)
  have h2 : c ≠ '_' := by
    intro e
    rw [e] at h
    exact absurd h (by decide)
  refine ⟨by simp [isMantissaChar, isMantissaDigit, h], h1, h2, ?_⟩
  intro hl
  have := (not_mantissaChar_of_lower false c (Or.inl ⟨rfl, Or.inr (Or.inl hl)⟩)).2.1
  rw [h] at this
  exact absurd this (by simp)

/-- A plain decimal number is a floating-point literal. -/
theorem isFloatLiteral_of_isPlainDecimal (s : String) (h : isPlainDecimal s = true) :
    isFloatLiteral s = true := by
  unfold isPlainDecimal at h
  unfold isFloatLiteral
  generalize stripSign s.data = t at *
  rw [Bool.and_eq_true] at h
  obtain ⟨hne, hrest⟩ := h
  have hsplit : t = t.takeWhile isDigit ++ t.dropWhile isDigit :=
    (List.takeWhile_append_dropWhile _ _).symm
  have hds : ∀ c ∈ t.takeWhile isDigit, isDigit c = true := fun c hc => List.mem_takeWhile_imp hc
  -- the characters of `t` are digits, with at most one point among them
  have hchars : (∀ c ∈ t, isDigit c = true ∨ c = '.') ∧ t.count '.' ≤ 1 := by
    have hc0 : (t.takeWhile isDigit).count '.' = 0 := by
      rw [List.count_eq_zero]
      intro hmem
      exact absurd (hds _ hmem) (by decide)
    rw [Bool.or_eq_true] at hrest
    rcases hrest with hr | hr
    · have he : t.dropWhile isDigit = [] := by simpa using hr
      rw [he, List.append_nil] at hsplit
      refine ⟨fun c hc => Or.inl (hds c (by rw [← hsplit]; exact hc)), ?_⟩
      rw [hsplit, hc0]
      exact Nat.zero_le 1
    · rw [Bool.and_eq_true] at hr
      obtain ⟨hh, ht⟩ := hr
      match hd : t.dropWhile isDigit, hh, ht with
      | d :: fs, hh, ht =>
        have hdd : d = '.' := by simpa using hh
        have hfs : ∀ c ∈ fs, isDigit c = true := by
          simpa [List.all_eq_true] using ht
        have hc1 : fs.count '.' = 0 := by
          rw [List.count_eq_zero]
          intro hmem
          exact absurd (hfs _ hmem) (by decide)
        rw [hd] at hsplit
        refine ⟨fun c hc => ?_, ?_⟩
        · rw [hsplit] at hc
          rcases List.mem_append.1 hc with hc | hc
          · exact Or.inl (hds c hc)
          · rcases List.mem_cons.1 hc with hc | hc
            · exact Or.inr (hc.trans hdd)
            · exact Or.inl (hfs c hc)
        · rw [hsplit, List.count_append, hc0, hdd, List.count_cons_self, hc1]
  obtain ⟨hall, hcount⟩ := hchars
  have hm : t.all (isMantissaChar false) = true := by
    rw [List.all_eq_true]
    intro c hc
    rcases hall c hc with hd | hd
    · exact (isMantissaChar_of_isDigit c hd).1
    · simp [isMantissaChar, hd]
  obtain ⟨t1, t2⟩ := takeWhile_dropWhile_of_split (isMantissaChar false) t [] hm
    (fun c r e => by simp at e)
  rw [List.append_nil] at t1 t2
  have hbody : isNumberBody false t = true := by
    unfold isNumberBody
    rw [t1, t2, decide_eq_true hcount]
    have hany : t.any (isMantissaDigit false) = true := by
      match hk : t.takeWhile isDigit, hne with
      | d :: ds, _ =>
        have hdm : d ∈ t.takeWhile isDigit := by rw [hk]; exact List.mem_cons_self _ _
        rw [List.any_eq_true]
        exact ⟨d, List.takeWhile_subset isDigit hdm, by simp [isMantissaDigit, hds d hdm]⟩
    have hsep : digitsSeparated false t = true := by
      apply digitsSeparated_of_no_underscore
      intro c hc
      rcases hall c hc with hd | hd
      · exact (isMantissaChar_of_isDigit c hd).2.2.1
      · rw [hd]
        decide
    rw [hany, hsep]
    rfl
  match t, hall, hbody with
  | [], _, hbody => exact hbody
  | [_], _, hbody => exact hbody
  | c :: x :: body, hall, hbody =>
    dsimp only
    rw [if_neg]
    · exact hbody
    · rintro ⟨_, e2⟩
      rcases hall x (List.mem_cons_of_mem _ (List.mem_cons_self _ _)) with hd | hd
      · exact (isMantissaChar_of_isDigit x hd).2.2.2 e2
      · rw [hd] at e2
        exact absurd e2 (by decide)

/-! ## The syntax that `ParseFloat` accepts: the converse -/

theorem readDigits_run (hex : Bool) (m rest : List Char) (st : Digits)
    (hm : m.all (isMantissaChar hex) = true)
    (hdot : m.count '.' + (if st.sawdot = true then 1 else 0) ≤ 1)
    (hr : ∀ c r, rest = c :: r → isMantissaChar hex c = false) :
    (readDigits hex (m ++ rest) st).2 = rest
      ∧ (readDigits hex (m ++ rest) st).1.sawdigits
          = (st.sawdigits || m.any (isMantissaDigit hex)) := by
  induction m generalizing st with
  | nil =>
    cases rest with
    | nil => exact ⟨rfl, by simp [readDigits]⟩
    | cons c r =>
      rw [List.nil_append, readDigits_stop hex c r st (hr c r rfl)]
      exact ⟨rfl, by simp⟩
  | cons c cs ih =>
    rw [List.all_cons, Bool.and_eq_true] at hm
    obtain ⟨hc, hcs⟩ := hm
    rw [List.count_cons] at hdot
    rw [List.cons_append]
    by_cases h1 : c = '_'
    · have hd : isMantissaDigit hex c = false := by
        rw [h1]
        cases hex <;> decide
      have hne : ¬ (c == '.') = true := by
        rw [h1]
        decide
      rw [if_neg hne] at hdot
      rw [readDigits, if_pos h1, List.any_cons, hd, Bool.false_or]
      exact ih { st with underscores := true } hcs (by simpa using hdot)
    · by_cases h2 : c = '.'
      · have hd : isMantissaDigit hex c = false := by
          rw [h2]
          cases hex <;> decide
        have he : (c == '.') = true := by
          rw [h2]
          decide
        rw [if_pos he] at hdot
        have hs : ¬ st.sawdot = true := by
          intro hs
          rw [if_pos hs] at hdot
          omega
        rw [readDigits, if_neg h1, if_pos h2, if_neg hs, List.any_cons, hd, Bool.false_or]
        refine ih { st with sawdot := true } hcs ?_
        rw [if_neg hs] at hdot
        simp only [if_true]
        omega
      · have hne : ¬ (c == '.') = true := by simpa using h2
        rw [if_neg hne] at hdot
        by_cases h3 : isDigit c = true
        · rw [readDigits, if_neg h1, if_neg h2, if_pos h3, List.any_cons]
          have hd : isMantissaDigit hex c = true := by simp [isMantissaDigit, h3]
          rw [hd, Bool.true_or, Bool.or_true]
          have := ih { st with
            sawdigits := true
            mantissa := st.mantissa * (if hex = true then 16 else 10) + digitVal c
            frac := if st.sawdot = true then st.frac + 1 else st.frac } hcs (by simpa using hdot)
          simpa using this
        · have h4 : (hex && isHexLetter c) = true := by
            unfold isMantissaChar isMantissaDigit at hc
            simp only [Bool.not_eq_true] at h3
            rw [h3] at hc
            simpa [h1, h2] using hc
          rw [readDigits, if_neg h1, if_neg h2, if_neg h3, if_pos h4, List.any_cons]
          have hd : isMantissaDigit hex c = true := by simp [isMantissaDigit, h4]
          rw [hd, Bool.true_or, Bool.or_true]
          have := ih { st with
            sawdigits := true
            mantissa := st.mantissa * 16 + (lower c - 97 + 10)
            frac := if st.sawdot = true then st.frac + 1 else st.frac } hcs (by simpa using hdot)
          simpa using this

theorem readExpDigits_run (y : List Char) (e : Nat) (us : Bool)
    (h : y.all (fun c => isDigit c || c = '_') = true) : (readExpDigits y e us).2.2 = [] := by
  induction y generalizing e us with
  | nil => rfl
  | cons c cs ih =>
    rw [List.all_cons, Bool.and_eq_true] at h
    by_cases h1 : c = '_'
    · rw [readExpDigits, if_pos h1]
      exact ih e true h.2
    · have h2 : isDigit c = true := by simpa [h1] using h.1
      rw [readExpDigits, if_neg h1, if_pos h2]
      exact ih _ us h.2

theorem readExp_run (x : List Char) (h : isExponentPart x = true) :
    ∃ ev us, readExp x = some (ev, us, []) := by
  unfold isExponentPart at h
  match x, h with
  | c :: cs, h =>
    unfold readExp
    dsimp only
    rw [← stripSign_cons]
    match hy : stripSign (c :: cs), h with
    | d :: ds, h =>
      dsimp only at h ⊢
      rw [Bool.and_eq_true] at h
      rw [if_pos h.1]
      have hall : (d :: ds).all (fun c => isDigit c || c = '_') = true := by
        rw [List.all_cons, h.2]
        simp [h.1]
      have hrun := readExpDigits_run (d :: ds) 0 false hall
      refine ⟨if c = '-' then -((readExpDigits (d :: ds) 0 false).1 : Int)
          else ((readExpDigits (d :: ds) 0 false).1 : Int),
        (readExpDigits (d :: ds) 0 false).2.1, ?_⟩
      rw [← hrun]

/-- A number of the syntax is read by `readUnsigned`. -/
theorem readUnsigned_run (t body : List Char) (hex : Bool) (hx : isHexStart t = hex)
    (hb : (if hex = true then t.drop 2 else t) = body) (h : isNumberBody hex body = true) :
    ∃ r, readUnsigned t = some r := by
  unfold isNumberBody at h
  simp only [Bool.and_eq_true, decide_eq_true_eq] at h
  obtain ⟨⟨⟨h1, h2⟩, h3⟩, _⟩ := h
  have hm : (body.takeWhile (isMantissaChar hex)).all (isMantissaChar hex) = true := by
    rw [List.all_eq_true]
    intro c hc
    exact List.mem_takeWhile_imp hc
  have hr : ∀ c r, body.dropWhile (isMantissaChar hex) = c :: r
      → isMantissaChar hex c = false := by
    intro c r e
    have := List.dropWhile_get_zero_not (isMantissaChar hex) body (by rw [e]; simp)
    simpa [e] using this
  obtain ⟨r1, r2⟩ := readDigits_run hex _ _ ⟨0, 0, false, false, false⟩ hm (by simpa using h2) hr
  rw [List.takeWhile_append_dropWhile] at r1 r2
  unfold readUnsigned
  rw [hx, hb]
  have hsaw : (readDigits hex body ⟨0, 0, false, false, false⟩).1.sawdigits = true := by
    rw [r2, h1]
    rfl
  generalize readDigits hex body ⟨0, 0, false, false, false⟩ = res at *
  obtain ⟨st, rest⟩ := res
  dsimp only at r1 hsaw ⊢
  rw [if_pos hsaw]
  rw [← r1] at h3
  match rest, h3 with
  | [], h3 =>
    dsimp only
    have : hex = false := by simpa [isExponentTail] using h3
    rw [this]
    exact ⟨_, rfl⟩
  | e :: x, h3 =>
    dsimp only
    unfold isExponentTail at h3
    simp only [Bool.and_eq_true, decide_eq_true_eq] at h3
    rw [if_pos h3.1]
    obtain ⟨ev, us, hexp⟩ := readExp_run x h3.2
    rw [hexp]
    dsimp only
    cases hex with
    | true => exact ⟨_, rfl⟩
    | false => exact ⟨_, rfl⟩

theorem underscoreScan_run (hex : Bool) (body : List Char) (saw : Char)
    (h1 : ((body.zip body.tail).all fun p =>
        (p.1 != '_' || isMantissaDigit hex p.2) && (p.2 != '_' || isMantissaDigit hex p.1)) = true)
    (h2 : ∀ c, body.head? = some c → c = '_' → saw = '0')
    (h3 : saw = '_' → ∃ c, body.head? = some c ∧ isMantissaDigit hex c = true)
    (h4 : body.getLast? ≠ some '_') : underscoreScan hex body saw = true := by
  induction body generalizing saw with
  | nil =>
    rw [underscoreScan, bne_iff_ne]
    intro e
    obtain ⟨c, hc, _⟩ := h3 e
    simp at hc
  | cons c cs ih =>
    have hmd : isMantissaDigit hex c = (isDigit c || (hex && isHexLetter c)) := rfl
    -- the neighbours of `c` and of the head of `cs`
    have hpair : ∀ d, cs.head? = some d →
        (c = '_' → isMantissaDigit hex d = true) ∧ (d = '_' → isMantissaDigit hex c = true) := by
      intro d hd
      match cs, hd, h1 with
      | d' :: ds, hd, h1 =>
        simp only [List.head?_cons, Option.some.injEq] at hd
        simp only [List.tail_cons, List.zip_cons_cons, List.all_cons, Bool.and_eq_true,
          Bool.or_eq_true, bne_iff_ne] at h1
        rw [← hd]
        refine ⟨fun e => ?_, fun e => ?_⟩
        · rcases h1.1.1 with h | h
          · exact absurd e h
          · exact h
        · rcases h1.1.2 with h | h
          · exact absurd e h
          · exact h
    have htail : ((cs.zip cs.tail).all fun p =>
        (p.1 != '_' || isMantissaDigit hex p.2) && (p.2 != '_' || isMantissaDigit hex p.1))
          = true := by
      match cs, h1 with
      | [], _ => rfl
      | d :: ds, h1 =>
        simp only [List.tail_cons, List.zip_cons_cons, List.all_cons, Bool.and_eq_true] at h1
        exact h1.2
    have hlast : cs ≠ [] → cs.getLast? ≠ some '_' := by
      intro hne
      match cs, hne, h4 with
      | d :: ds, _, h4 =>
        rw [List.getLast?_cons_cons] at h4
        exact h4
    have hnotdigit : isMantissaDigit hex '_' = false := by cases hex <;> decide
    rw [underscoreScan]
    by_cases hd : (isDigit c || (hex && isHexLetter c)) = true
    · rw [if_pos hd]
      apply ih '0' htail (fun _ _ _ => rfl) (fun e => absurd e (by decide))
      cases cs with
      | nil => simp
      | cons d ds => exact hlast (by simp)
    · rw [if_neg hd]
      by_cases hu : c = '_'
      · have hs : saw = '0' := h2 c rfl hu
        rw [if_pos hu, if_neg (by rw [hs]; decide)]
        have hne : cs ≠ [] := by
          intro e
          rw [e, hu] at h4
          exact h4 rfl
        match cs, hne, hpair, htail, hlast, ih with
        | d :: ds, _, hpair, htail, hlast, ih =>
          have hdd := (hpair d rfl).1 hu
          apply ih '_' htail
          · intro a ha e
            simp only [List.head?_cons, Option.some.injEq] at ha
            exfalso
            rw [ha, e, hnotdigit] at hdd
            exact absurd hdd (by simp)
          · exact fun _ => ⟨d, rfl, hdd⟩
          · exact hlast (by simp)
      · rw [if_neg hu]
        have hs : saw ≠ '_' := by
          intro e
          obtain ⟨a, ha, hda⟩ := h3 e
          simp only [List.head?_cons, Option.some.injEq] at ha
          rw [← ha, hmd] at hda
          exact hd hda
        rw [if_neg hs]
        apply ih '!' htail
        · intro a ha e
          have := (hpair a ha).2 e
          rw [hmd] at this
          exact absurd this hd
        · exact fun e => absurd e (by decide)
        · cases cs with
          | nil => simp
          | cons d ds => exact hlast (by simp)

theorem underscoreScan_of_digitsSeparated (hex : Bool) (body : List Char)
    (h : digitsSeparated hex body = true) :
    underscoreScan hex body (if hex = true then '0' else '^') = true := by
  unfold digitsSeparated at h
  simp only [Bool.and_eq_true, Bool.or_eq_true, bne_iff_ne] at h
  obtain ⟨⟨h1, h2⟩, h3⟩ := h
  apply underscoreScan_run hex body _ h1 _ _ h3
  · intro c hc e
    rcases h2 with h2 | h2
    · rw [h2]
      rfl
    · rw [hc, e] at h2
      exact absurd rfl h2
  · intro e
    cases hex with
    | true => exact absurd e (by decide)
    | false => exact absurd e (by decide)

theorem head_of_isNumberBody (hex : Bool) (body : List Char) (h : isNumberBody hex body = true) :
    ∃ c cs, body = c :: cs ∧ isMantissaChar hex c = true := by
  unfold isNumberBody at h
  simp only [Bool.and_eq_true] at h
  obtain ⟨⟨⟨h1, _⟩, _⟩, _⟩ := h
  match body, h1 with
  | c :: cs, h1 =>
    refine ⟨c, cs, rfl, ?_⟩
    cases hc : isMantissaChar hex c with
    | true => rfl
    | false =>
      rw [List.takeWhile_cons, hc] at h1
      simp at h1

theorem decimal_head_facts (c : Char) (h : isMantissaChar false c = true ∨ c = '0') :
    c ≠ '+' ∧ c ≠ '-' ∧ c ≠ 'i' ∧ c ≠ 'I' ∧ c ≠ 'n' ∧ c ≠ 'N' ∧ foldCase c ≠ 105 := by
  have hcases : isDigit c = true ∨ c = '_' ∨ c = '.' := by
    rcases h with h | h
    · simpa [isMantissaChar, isMantissaDigit, or_assoc] using h
    · left
      rw [h]
      decide
  rcases hcases with hd | hd | hd
  · have hne : ∀ d : Char, isDigit d = false → c ≠ d := by
      intro d hdd e
      rw [e, hdd] at hd
      exact absurd hd (by simp)
    refine ⟨hne _ (by decide), hne _ (by decide), hne _ (by decide), hne _ (by decide),
      hne _ (by decide), hne _ (by decide), ?_⟩
    unfold isDigit at hd
    rw [decide_eq_true_eq] at hd
    unfold foldCase
    split <;> omega
  · rw [hd]
    decide
  · rw [hd]
    decide

theorem special_of_head (c : Char) (cs : List Char)
    (h : ∀ t0 ts, stripSign (c :: cs) = t0 :: ts →
      t0 ≠ '+' ∧ t0 ≠ '-' ∧ t0 ≠ 'i' ∧ t0 ≠ 'I' ∧ t0 ≠ 'n' ∧ t0 ≠ 'N' ∧ foldCase t0 ≠ 105) :
    special (c :: cs) = none := by
  rw [stripSign_cons] at h
  unfold special
  dsimp only
  by_cases hs : c = '+' ∨ c = '-'
  · rw [if_pos hs] at h
    rw [if_pos hs, if_pos]
    unfold infPrefix
    have h0 : commonPrefixLenIgnoreCase cs "infinity".data = 0 := by
      match cs, h with
      | [], _ => rfl
      | t0 :: ts, h =>
        have := (h t0 ts rfl).2.2.2.2.2.2
        show commonPrefixLenIgnoreCase (t0 :: ts) ('i' :: "nfinity".data) = 0
        rw [commonPrefixLenIgnoreCase, if_neg (show ¬ foldCase t0 = 'i'.toNat from this)]
    rw [h0]
    rfl
  · rw [if_neg hs] at h
    obtain ⟨_, _, h3, h4, h5, h6, _⟩ := h c cs rfl
    rw [if_neg hs, if_neg (by rintro (e | e) <;> contradiction),
      if_neg (by rintro (e | e) <;> contradiction)]

/-- A floating-point literal is read by `readFloat`, and is not read by
`special`. -/
theorem readFloat_run (s : String) (h : isFloatLiteral s = true) :
    special s.data = none ∧ ∃ r, readFloat s.data = some r := by
  unfold isFloatLiteral at h
  -- the number without its sign: hexadecimal or decimal, its body, and its first character
  have key : ∃ hex body, isHexStart (stripSign s.data) = hex
      ∧ (if hex = true then (stripSign s.data).drop 2 else stripSign s.data) = body
      ∧ isNumberBody hex body = true
      ∧ underscoreOK s.data = true
      ∧ ∃ t0 ts, stripSign s.data = t0 :: ts ∧ (isMantissaChar false t0 = true ∨ t0 = '0') := by
    have hok : underscoreOK s.data
          = if hasBasePrefix (stripSign s.data) = true then
              underscoreScan (decide (lower ((stripSign s.data).getD 1 'x') = 120))
                ((stripSign s.data).drop 2) '0'
            else underscoreScan false (stripSign s.data) '^' := by
      unfold underscoreOK
      cases s.data with
      | nil => rfl
      | cons c cs =>
        dsimp only
        rw [stripSign_cons]
        by_cases hsg : c = '+' ∨ c = '-'
        · rw [if_pos hsg, if_pos (Or.symm hsg)]
        · rw [if_neg hsg, if_neg (fun e => hsg (Or.symm e))]
    rw [hok]
    clear hok
    generalize stripSign s.data = t at *
    have hdec : isNumberBody false t = true → hasBasePrefix t = false →
        isHexStart t = false →
        ∃ hex body, isHexStart t = hex ∧ (if hex = true then t.drop 2 else t) = body
          ∧ isNumberBody hex body = true
          ∧ (if hasBasePrefix t = true then
              underscoreScan (decide (lower (t.getD 1 'x') = 120)) (t.drop 2) '0'
            else underscoreScan false t '^') = true
          ∧ ∃ t0 ts, t = t0 :: ts ∧ (isMantissaChar false t0 = true ∨ t0 = '0') := by
      intro hb hp hx
      refine ⟨false, t, hx, rfl, hb, ?_, ?_⟩
      · rw [hp]
        have hsep : digitsSeparated false t = true := by
          unfold isNumberBody at hb
          simp only [Bool.and_eq_true] at hb
          exact hb.2
        exact underscoreScan_of_digitsSeparated false t hsep
      · obtain ⟨c, cs, e, hc⟩ := head_of_isNumberBody false t hb
        exact ⟨c, cs, e, Or.inl hc⟩
    match t, h, hdec with
    | [], h, hdec => exact hdec h rfl rfl
    | [_], h, hdec => exact hdec h rfl rfl
    | c :: x :: body, h, hdec =>
      dsimp only at h
      by_cases hc : c = '0' ∧ lower x = 120
      · rw [if_pos hc] at h
        obtain ⟨b, bs, e, _⟩ := head_of_isNumberBody true body h
        have hx : isHexStart (c :: x :: body) = true := by
          rw [e]
          unfold isHexStart
          simp [hc.1, hc.2]
        have hp : hasBasePrefix (c :: x :: body) = true := by
          unfold hasBasePrefix
          simp [hc.1, hc.2]
        refine ⟨true, body, hx, rfl, h, ?_, c, x :: body, rfl, Or.inr hc.1⟩
        rw [hp]
        have hg : decide (lower ((c :: x :: body).getD 1 'x') = 120) = true := by
          simp [hc.2]
        rw [hg]
        have hsep : digitsSeparated true body = true := by
          unfold isNumberBody at h
          simp only [Bool.and_eq_true] at h
          exact h.2
        exact underscoreScan_of_digitsSeparated true body hsep
      · rw [if_neg hc] at h
        apply hdec h
        · -- a prefix `0b` or `0o` is followed by no exponent
          cases hp : hasBasePrefix (c :: x :: body) with
          | false => rfl
          | true =>
            exfalso
            unfold hasBasePrefix at hp
            simp only [Bool.and_eq_true, decide_eq_true_eq, Bool.or_eq_true] at hp
            obtain ⟨hc0, hx⟩ := hp
            have hx' : lower x = 98 ∨ lower x = 111 := by
              rcases hx with (hx | hx) | hx
              · exact Or.inl hx
              · exact Or.inr hx
              · exact absurd ⟨hc0, hx⟩ hc
            have hnm := (not_mantissaChar_of_lower false x (Or.inl ⟨rfl, by
              rcases hx' with hx' | hx'
              · exact Or.inr (Or.inr (Or.inl hx'))
              · exact Or.inr (Or.inr (Or.inr hx'))⟩)).1
            have hcm : isMantissaChar false c = true := by
              rw [hc0]
              decide
            unfold isNumberBody at h
            simp only [Bool.and_eq_true] at h
            have htail := h.1.2
            rw [List.dropWhile_cons, hcm, if_pos rfl, List.dropWhile_cons, hnm] at htail
            simp only [Bool.false_eq_true, if_false] at htail
            unfold isExponentTail at htail
            simp only [Bool.false_eq_true, if_false, Bool.and_eq_true, decide_eq_true_eq] at htail
            rcases hx' with hx' | hx'
            · rw [hx'] at htail
              exact absurd htail.1 (by decide)
            · rw [hx'] at htail
              exact absurd htail.1 (by decide)
        · cases hxs : isHexStart (c :: x :: body) with
          | false => rfl
          | true =>
            exfalso
            match body, hxs with
            | b :: bs, hxs =>
              unfold isHexStart at hxs
              simp only [Bool.and_eq_true, decide_eq_true_eq] at hxs
              exact hc hxs
  obtain ⟨hex, body, hx, hb, hbody, hok, t0, ts, ht, ht0⟩ := key
  obtain ⟨r, hr⟩ := readUnsigned_run (stripSign s.data) body hex hx hb hbody
  match hs : s.data, ht, hr, hok with
  | [], ht, _, _ => simp [stripSign] at ht
  | c :: cs, ht, hr, hok =>
    constructor
    · apply special_of_head
      intro a as e
      rw [ht] at e
      injection e with e1 e2
      rw [← e1]
      exact decimal_head_facts t0 ht0
    · unfold readFloat
      dsimp only
      rw [← stripSign_cons, hr, hok]
      obtain ⟨q, us⟩ := r
      exact ⟨(decide (c = '-'), q), by simp⟩

theorem toNat_ofNat_small : ∀ n, n < 128 → (Char.ofNat n).toNat = n := by decide

theorem foldCase_eq_toLower (c : Char) : foldCase c = c.toLower.toNat := by
  unfold foldCase Char.toLower
  dsimp only
  by_cases hc : 65 ≤ c.toNat ∧ c.toNat ≤ 90
  · rw [if_pos hc, if_pos (by exact hc), toNat_ofNat_small _ (by omega)]
  · rw [if_neg hc, if_neg (by exact hc)]

theorem commonPrefixLen_of_map (s w : List Char) (h : s.map Char.toLower = w.take s.length)
    (hl : s.length ≤ w.length) : commonPrefixLenIgnoreCase s w = s.length := by
  induction s generalizing w with
  | nil => simp [commonPrefixLenIgnoreCase]
  | cons c cs ih =>
    match w, h, hl with
    | p :: ps, h, hl =>
      rw [List.map_cons, List.length_cons, List.take_succ_cons] at h
      injection h with h1 h2
      rw [List.length_cons, List.length_cons] at hl
      rw [commonPrefixLenIgnoreCase, if_pos (by rw [foldCase_eq_toLower, h1]),
        ih ps h2 (by omega), List.length_cons]

theorem toLower_letter (c p q : Char) (hq : q.toNat + 32 = p.toNat) (h : c.toLower = p) :
    c = p ∨ c = q := by
  unfold Char.toLower at h
  dsimp only at h
  by_cases hc : 65 ≤ c.toNat ∧ c.toNat ≤ 90
  · rw [if_pos (by exact hc)] at h
    right
    have h1 : (Char.ofNat (c.toNat + 32)).toNat = p.toNat := by rw [h]
    rw [toNat_ofNat_small _ (by omega)] at h1
    have h2 : c.toNat = q.toNat := by omega
    rw [← Char.ofNat_toNat c, h2, Char.ofNat_toNat]
  · rw [if_neg (by exact hc)] at h
    exact Or.inl h

theorem infPrefix_run (t : List Char)
    (h : t.map Char.toLower = "inf".data ∨ t.map Char.toLower = "infinity".data) :
    infPrefix t = t.length ∧ infPrefix t ≠ 0
      ∧ ∃ t0 ts, t = t0 :: ts ∧ (t0 = 'i' ∨ t0 = 'I') := by
  have hhead : ∃ t0 ts, t = t0 :: ts ∧ (t0 = 'i' ∨ t0 = 'I') := by
    match t, h with
    | [], h => rcases h with h | h <;> simp at h
    | t0 :: ts, h =>
      refine ⟨t0, ts, rfl, ?_⟩
      have ht : t0.toLower = 'i' := by
        rcases h with h | h
        · rw [List.map_cons] at h
          exact (List.cons.inj h).1
        · rw [List.map_cons] at h
          exact (List.cons.inj h).1
      exact toLower_letter t0 'i' 'I' (by decide) ht
  rcases h with h | h
  · have hlen : t.length = 3 := by
      have := congrArg List.length h
      simpa using this
    have hc : commonPrefixLenIgnoreCase t "infinity".data = 3 := by
      rw [commonPrefixLen_of_map t "infinity".data (by rw [h, hlen]; rfl) (by rw [hlen]; decide),
        hlen]
    unfold infPrefix
    rw [hc, hlen]
    exact ⟨rfl, by decide, hhead⟩
  · have hlen : t.length = 8 := by
      have := congrArg List.length h
      simpa using this
    have hc : commonPrefixLenIgnoreCase t "infinity".data = 8 := by
      rw [commonPrefixLen_of_map t "infinity".data (by rw [h, hlen]; rfl) (by rw [hlen]; decide),
        hlen]
    unfold infPrefix
    rw [hc, hlen]
    exact ⟨rfl, by decide, hhead⟩

/-- One of the words `inf`, `infinity` and `nan` is read by `special` to its end. -/
theorem special_run (s : String) (h : isSpecialWord s = true) :
    ∃ f, special s.data = some (f, s.data.length) := by
  unfold isSpecialWord at h
  simp only [Bool.or_eq_true, decide_eq_true_eq] at h
  match hs : s.data, h with
  | [], h =>
    rcases h with (h | h) | h <;> simp [stripSign] at h
  | c :: cs, h =>
    rw [stripSign_cons] at h
    unfold special
    dsimp only
    by_cases hsg : c = '+' ∨ c = '-'
    · rw [if_pos hsg] at h
      have hinf : cs.map Char.toLower = "inf".data ∨ cs.map Char.toLower = "infinity".data := by
        rcases h with h | h
        · exact h
        · exfalso
          rw [List.map_cons] at h
          have := (List.cons.inj h).1
          rcases hsg with e | e <;> rw [e] at this <;> exact absurd this (by decide)
      obtain ⟨h1, h2, _⟩ := infPrefix_run cs hinf
      rw [if_pos hsg, if_neg h2, h1]
      exact ⟨_, by rw [List.length_cons, Nat.add_comm]⟩
    · rw [if_neg hsg] at h
      rw [if_neg hsg]
      rcases h with h | h
      · obtain ⟨h1, h2, t0, ts, e, ht0⟩ := infPrefix_run (c :: cs) h
        have hc : c = 'i' ∨ c = 'I' := by
          rw [(List.cons.inj e).1]
          exact ht0
        rw [if_pos hc, if_neg h2, h1]
        exact ⟨_, rfl⟩
      · have ht : c.toLower = 'n' := by
          rw [List.map_cons] at h
          exact (List.cons.inj h).1
        have hn : c = 'n' ∨ c = 'N' := toLower_letter c 'n' 'N' (by decide) ht
        have hi : ¬ (c = 'i' ∨ c = 'I') := by
          rintro (e | e) <;> rw [e] at ht <;> exact absurd ht (by decide)
        have hlen : (c :: cs).length = 3 := by
          have := congrArg List.length h
          simpa using this
        have hc : commonPrefixLenIgnoreCase (c :: cs) "nan".data = 3 := by
          rw [commonPrefixLen_of_map (c :: cs) "nan".data (by rw [h, hlen]; rfl)
            (by rw [hlen]; decide), hlen]
        rw [if_neg hi, if_pos hn, if_pos hc, hlen]
        exact ⟨_, rfl⟩

/-- The syntax of `ParseFloat`: a string is a syntax error exactly when it is
neither a floating-point literal nor one of the words `inf`, `infinity` and
`nan`; a string of that syntax is accepted, unless it is a literal whose value
is out of the range of `float64`. -/
theorem ParseFloat_accepts_iff (s : String) :
    (ParseFloat s = .error "invalid syntax"
        ↔ isFloatLiteral s = false ∧ isSpecialWord s = false)
      ∧ (isFloatLiteral s = true ∨ isSpecialWord s = true
        → (∃ v, ParseFloat s = .ok v)
          ∨ (isFloatLiteral s = true ∧ ParseFloat s = .error "value out of range")) := by
  have conv : isFloatLiteral s = true ∨ isSpecialWord s = true
      → (∃ v, ParseFloat s = .ok v)
        ∨ (isFloatLiteral s = true ∧ ParseFloat s = .error "value out of range") := by
    intro h
    by_cases hw : isSpecialWord s = true
    · obtain ⟨f, hf⟩ := special_run s hw
      left
      refine ⟨f, ?_⟩
      unfold ParseFloat
      rw [hf]
      dsimp only
      rw [if_pos rfl]
    · have hl : isFloatLiteral s = true := by
        rcases h with h | h
        · exact h
        · exact absurd h hw
      obtain ⟨h1, r, h2⟩ := readFloat_run s hl
      unfold ParseFloat
      rw [h1, h2]
      dsimp only
      cases roundToF64 (if r.1 = true then -r.2 else r.2) with
      | nan => exact Or.inr ⟨hl, rfl⟩
      | inf neg => exact Or.inr ⟨hl, rfl⟩
      | fin q => exact Or.inl ⟨_, rfl⟩
  refine ⟨⟨fun h => ?_, fun h => ParseFloat_rejects s h.1 h.2⟩, conv⟩
  by_contra hne
  have hor : isFloatLiteral s = true ∨ isSpecialWord s = true := by
    cases hl : isFloatLiteral s with
    | true => exact Or.inl rfl
    | false =>
      cases hw : isSpecialWord s with
      | true => exact Or.inr rfl
      | false => exact absurd ⟨hl, hw⟩ hne
  rcases conv hor with ⟨v, hv⟩ | ⟨_, hv⟩
  · rw [hv] at h
    exact absurd h (by simp)
  · rw [hv] at h
    injection h with h
    exact absurd h (by decide)

/-- None of the words `inf`, `infinity` and `nan` is a floating-point literal. -/
theorem not_isFloatLiteral_of_isSpecialWord (s : String) (h : isSpecialWord s = true) :
    isFloatLiteral s = false := by
  cases hl : isFloatLiteral s with
  | false => rfl
  | true =>
    obtain ⟨f, hf⟩ := special_run s h
    rw [(readFloat_run s hl).1] at hf
    exact absurd hf (by simp)

/-! ## Totals that are not finite numbers -/

theorem isRoundDollar_of_not_fin (ovf : F64 → Int) (v : F64) (h : ∀ q, v ≠ .fin q) :
    isRoundDollar ovf v = false := by
  cases hr : isRoundDollar ovf v with
  | false => rfl
  | true =>
    obtain ⟨j, hj⟩ := isRoundDollar_whole ovf v hr
    exact absurd hj (h _)

theorem computePoints_noItems_of_not_fin (ovf ovf' : F64 → Int) (r : Receipt) (v : F64)
    (hi : r.Items = []) (hv : ParseFloat r.Total = .ok v) (h : ∀ q, v ≠ .fin q) :
    computePoints ovf r = computePoints ovf' r := by
  apply computePoints_congr
  · intro w hw
    have e : w = v := by
      rw [hv] at hw
      injection hw with hw
      exact hw.symm
    rw [e, isRoundDollar_of_not_fin ovf v h, isRoundDollar_of_not_fin ovf' v h]
  · intro item hitem
    rw [hi] at hitem
    exact absurd hitem (List.not_mem_nil item)

/-! ## The handlers -/

theorem processReceiptHandler_ok (ovf : F64 → Int) (uuid : Nat → String) (srv : Server)
    (r : Receipt) (p : Int) (h : computePoints ovf r = .ok p) :
    processReceiptHandler ovf uuid srv (some r)
      = ({ receiptPoints := fun k => if k = uuid srv.minted then some p else srv.receiptPoints k
           minted := srv.minted + 1 },
         .id 200 (uuid srv.minted)) := by
  unfold processReceiptHandler
  dsimp only
  rw [h]

theorem processReceiptHandler_error (ovf : F64 → Int) (uuid : Nat → String) (srv : Server)
    (r : Receipt) (e : String) (h : computePoints ovf r = .error e) :
    processReceiptHandler ovf uuid srv (some r)
      = (srv, .error 400 ("Cannot compute points: " ++ e)) := by
  unfold processReceiptHandler
  dsimp only
  rw [h]

theorem processReceiptHandler_none (ovf : F64 → Int) (uuid : Nat → String) (srv : Server) :
    processReceiptHandler ovf uuid srv none = (srv, .error 400 "Invalid receipt payload") := rfl

theorem getPointsHandler_some (srv : Server) (id : String) (p : Int)
    (h : srv.receiptPoints id = some p) : getPointsHandler srv id = (srv, .points 200 p) := by
  unfold getPointsHandler
  rw [h]

theorem getPointsHandler_none (srv : Server) (id : String) (h : srv.receiptPoints id = none) :
    getPointsHandler srv id = (srv, .error 404 "Receipt not found") := by
  unfold getPointsHandler
  rw [h]

theorem getPointsHandler_fst (srv : Server) (id : String) : (getPointsHandler srv id).1 = srv := by
  unfold getPointsHandler
  cases srv.receiptPoints id <;> rfl

/-! ## C13 -/

/-- C13: when `computePoints` succeeds with score `p` on a receipt, submitting
it answers with the generated identifier `id`, whatever that identifier is,
and fetching `id` from the resulting server answers 200 with `p`; fetching,
from any server, an identifier that is not a key of its map answers 404
"Receipt not found". -/
theorem C13_submit_then_fetch (ovf : F64 → Int) (uuid : Nat → String) (srv : Server)
    (r : Receipt) (p : Int) (id : String) (h : computePoints ovf r = .ok p)
    (hid : uuid srv.minted = id) :
    (processReceiptHandler ovf uuid srv (some r)).2 = .id 200 id
      ∧ getPointsHandler (processReceiptHandler ovf uuid srv (some r)).1 id
          = ((processReceiptHandler ovf uuid srv (some r)).1, .points 200 p)
      ∧ ∀ (srv' : Server) (id' : String), srv'.receiptPoints id' = none
          → getPointsHandler srv' id' = (srv', .error 404 "Receipt not found") := by
  rw [processReceiptHandler_ok ovf uuid srv r p h, hid]
  refine ⟨rfl, ?_, getPointsHandler_none⟩
  apply getPointsHandler_some
  dsimp only
  rw [if_pos rfl]

/-- Witness of C13: the receipt of the retailer "M&M Corner Market", scored
109, submitted to the server that holds one entry; the identifier generated
is `receipt-1`. -/
theorem C13_submit_then_fetch_witness :
    computePoints amd64 cornerMarketReceipt = .ok 109
      ∧ (processReceiptHandler amd64 sampleUuid oneEntryServer (some cornerMarketReceipt)).2
          = .id 200 "receipt-1"
      ∧ getPointsHandler
          (processReceiptHandler amd64 sampleUuid oneEntryServer (some cornerMarketReceipt)).1
          "receipt-1"
        = ((processReceiptHandler amd64 sampleUuid oneEntryServer (some cornerMarketReceipt)).1,
            .points 200 109) :=
  have h : computePoints amd64 cornerMarketReceipt = .ok 109 := by decide!
  have w := C13_submit_then_fetch amd64 sampleUuid oneEntryServer cornerMarketReceipt 109
    "receipt-1" h (by decide)
  ⟨h, w.1, w.2.1⟩

/-! ## C14 -/

theorem cornerMarket_special_total (ovf : F64 → Int) (total : String) (v : F64)
    (hv : ParseFloat total = .ok v) (h : ∀ q, v ≠ .fin q) :
    computePoints ovf { cornerMarketReceipt with Total := total }
      = computePoints amd64 { cornerMarketReceipt with Total := total } := by
  apply computePoints_congr
  · intro w hw
    have e : w = v := by
      have hw' : ParseFloat total = .ok w := hw
      rw [hv] at hw'
      injection hw' with hw'
      exact hw'.symm
    rw [e, isRoundDollar_of_not_fin ovf v h, isRoundDollar_of_not_fin amd64 v h]
  · intro item hitem
    have hi : item ∈ cornerMarketReceipt.Items := hitem
    rw [cornerMarket_items ovf item hi, cornerMarket_items amd64 item hi]

/-- C14 (counterexample): the totals `"NaN"`, `"Inf"` and `"Infinity"` are not
numeric, yet `strconv.ParseFloat` accepts them: the receipt of the retailer
"M&M Corner Market" with such a total is scored (34 with `"NaN"`, 39 with an
infinity), and its submission to the server that holds one entry answers 200
with the new identifier `receipt-1`, under which the score is stored.  The
same holds of every receipt whose total is one of the words `inf`, `infinity`
and `nan`, none of which is a number: its submission answers 200 and stores a
score under a new identifier. -/
theorem C14_not_a_number_stored :
    (isFloatLiteral "NaN" = false ∧ ParseFloat "NaN" = .ok .nan
        ∧ ∀ ovf, computePoints ovf { cornerMarketReceipt with Total := "NaN" } = .ok 34)
      ∧ (isFloatLiteral "Inf" = false ∧ ParseFloat "Inf" = .ok (.inf false)
        ∧ ∀ ovf, computePoints ovf { cornerMarketReceipt with Total := "Inf" } = .ok 39)
      ∧ (isFloatLiteral "Infinity" = false ∧ ParseFloat "Infinity" = .ok (.inf false)
        ∧ ∀ ovf, computePoints ovf { cornerMarketReceipt with Total := "Infinity" } = .ok 39)
      ∧ oneEntryServer.receiptPoints "receipt-1" = none
      ∧ (∀ ovf,
        (processReceiptHandler ovf sampleUuid oneEntryServer
            (some { cornerMarketReceipt with Total := "NaN" })).2 = .id 200 "receipt-1"
          ∧ (processReceiptHandler ovf sampleUuid oneEntryServer
              (some { cornerMarketReceipt with Total := "NaN" })).1.receiptPoints "receipt-1"
            = some 34
          ∧ (processReceiptHandler ovf sampleUuid oneEntryServer
              (some { cornerMarketReceipt with Total := "NaN" })).1.minted = 2)
      ∧ ∀ (ovf : F64 → Int) (uuid : Nat → String) (srv : Server) (r : Receipt),
        isSpecialWord r.Total = true →
          isFloatLiteral r.Total = false
            ∧ ∃ p, computePoints ovf r = .ok p
              ∧ (processReceiptHandler ovf uuid srv (some r)).2 = .id 200 (uuid srv.minted)
              ∧ (processReceiptHandler ovf uuid srv (some r)).1.receiptPoints (uuid srv.minted)
                = some p
              ∧ (processReceiptHandler ovf uuid srv (some r)).1.minted = srv.minted + 1 := by
  have hnan : ∀ ovf, computePoints ovf { cornerMarketReceipt with Total := "NaN" } = .ok 34 :=
    fun ovf => (cornerMarket_special_total ovf "NaN" .nan (by decide!)
      (fun q hq => by cases hq)).trans (by decide!)
  refine ⟨⟨by decide, by decide!, hnan⟩,
    ⟨by decide, by decide!, fun ovf => (cornerMarket_special_total ovf "Inf" (.inf false)
      (by decide!) (fun q hq => by cases hq)).trans (by decide!)⟩,
    ⟨by decide, by decide!, fun ovf => (cornerMarket_special_total ovf "Infinity" (.inf false)
      (by decide!) (fun q hq => by cases hq)).trans (by decide!)⟩,
    by decide, fun ovf => ?_, fun ovf uuid srv r hw => ?_⟩
  · rw [processReceiptHandler_ok ovf sampleUuid oneEntryServer _ 34 (hnan ovf)]
    exact ⟨by decide, by decide, rfl⟩
  · obtain ⟨f, hf⟩ := special_run r.Total hw
    have hv : ParseFloat r.Total = .ok f := by
      unfold ParseFloat
      rw [hf]
      dsimp only
      rw [if_pos rfl]
    have hc := computePoints_eq ovf r f hv
    refine ⟨not_isFloatLiteral_of_isSpecialWord r.Total hw, _, hc, ?_⟩
    rw [processReceiptHandler_ok ovf uuid srv r _ hc]
    exact ⟨rfl, if_pos rfl, rfl⟩

/-- C14 (amended): when the total of the receipt is neither a number in the
syntax of floating-point literals nor one of the words `inf`, `infinity` and
`nan`, the submit handler answers 400 and returns the server it was given: the
map is unchanged and no identifier has been generated. -/
theorem C14_submit_invalid_total (ovf : F64 → Int) (uuid : Nat → String) (srv : Server)
    (r : Receipt) (h : isFloatLiteral r.Total = false) (hw : isSpecialWord r.Total = false) :
    processReceiptHandler ovf uuid srv (some r)
        = (srv, .error 400 "Cannot compute points: invalid total value")
      ∧ (processReceiptHandler ovf uuid srv (some r)).1.receiptPoints = srv.receiptPoints
      ∧ (processReceiptHandler ovf uuid srv (some r)).1.minted = srv.minted := by
  have he := ParseFloat_rejects r.Total h hw
  have hc : computePoints ovf r = .error "invalid total value" := by
    unfold computePoints
    dsimp only
    rw [he]
  have hs : ("Cannot compute points: " ++ "invalid total value" : String)
      = "Cannot compute points: invalid total value" := by decide
  rw [processReceiptHandler_error ovf uuid srv r _ hc, hs]
  exact ⟨rfl, rfl, rfl⟩

/-- Witness of C14, amended: a receipt with the total "abc" submitted to the
server that holds one entry. -/
theorem C14_submit_invalid_total_witness :
    isFloatLiteral "abc" = false ∧ isSpecialWord "abc" = false
      ∧ processReceiptHandler amd64 sampleUuid oneEntryServer
          (some { cornerMarketReceipt with Total := "abc" })
        = (oneEntryServer, .error 400 "Cannot compute points: invalid total value") :=
  ⟨by decide, by decide,
    (C14_submit_invalid_total amd64 sampleUuid oneEntryServer
      { cornerMarketReceipt with Total := "abc" } (by decide) (by decide)).1⟩

/-! ## C15 -/

/-- C15: when the identifier that a submission would generate is not yet a key
of the map, the submission keeps every entry of the map (same key, same
score), whether it succeeds or fails; a fetch returns the server unchanged; a
successful submission adds the entry of the new identifier and changes no
other key, and a failed submission (total that does not parse, or body that
does not decode) changes nothing. -/
theorem C15_entries_never_overwritten (ovf : F64 → Int) (uuid : Nat → String) (srv : Server)
    (body : Option Receipt) (id : String) (hfresh : srv.receiptPoints (uuid srv.minted) = none) :
    (∀ k p, srv.receiptPoints k = some p
        → (processReceiptHandler ovf uuid srv body).1.receiptPoints k = some p)
      ∧ (getPointsHandler srv id).1 = srv
      ∧ (∀ r p, body = some r → computePoints ovf r = .ok p
          → (processReceiptHandler ovf uuid srv body).1.receiptPoints (uuid srv.minted) = some p
            ∧ ∀ k, k ≠ uuid srv.minted
              → (processReceiptHandler ovf uuid srv body).1.receiptPoints k = srv.receiptPoints k)
      ∧ (∀ r e, body = some r → computePoints ovf r = .error e
          → (processReceiptHandler ovf uuid srv body).1 = srv)
      ∧ (body = none → (processReceiptHandler ovf uuid srv body).1 = srv) := by
  refine ⟨?_, getPointsHandler_fst srv id, ?_, ?_, ?_⟩
  · intro k p hk
    cases body with
    | none => exact hk
    | some r =>
      cases hc : computePoints ovf r with
      | error e =>
        rw [processReceiptHandler_error ovf uuid srv r e hc]
        exact hk
      | ok q =>
        rw [processReceiptHandler_ok ovf uuid srv r q hc]
        dsimp only
        have hne : k ≠ uuid srv.minted := by
          intro e
          rw [e, hfresh] at hk
          exact absurd hk (by simp)
        rw [if_neg hne]
        exact hk
  · rintro r p rfl hc
    rw [processReceiptHandler_ok ovf uuid srv r p hc]
    dsimp only
    refine ⟨by rw [if_pos rfl], fun k hk => by rw [if_neg hk]⟩
  · rintro r e rfl hc
    rw [processReceiptHandler_error ovf uuid srv r e hc]
  · rintro rfl
    rfl

/-- Witness of C15: the receipt of the retailer "M&M Corner Market" submitted
to the server that holds the entry `receipt-0`; the entry is kept. -/
theorem C15_entries_never_overwritten_witness :
    oneEntryServer.receiptPoints "receipt-0" = some 109
      ∧ (processReceiptHandler amd64 sampleUuid oneEntryServer
          (some cornerMarketReceipt)).1.receiptPoints "receipt-0" = some 109 :=
  have h : oneEntryServer.receiptPoints "receipt-0" = some 109 := by decide
  ⟨h, (C15_entries_never_overwritten amd64 sampleUuid oneEntryServer (some cornerMarketReceipt)
    "receipt-0" (by decide)).1 "receipt-0" 109 h⟩

/-! ## C16 -/

/-- C16 (counterexample): six totals that are not plain decimal numbers are
accepted by `computePoints`.  `"1e3"`, `"0x1p4"` and `"1_000"` are
floating-point literals, read as 1000, 16 and 1000, and score 80 on the
otherwise empty receipt; `"NaN"` is read as NaN and scores 0; `"Inf"` and
`"Infinity"` are read as the positive infinity and score 5. -/
theorem C16_non_decimal_totals_accepted :
    (isPlainDecimal "1e3" = false ∧ isFloatLiteral "1e3" = true
        ∧ ParseFloat "1e3" = .ok (.fin 1000)
        ∧ ∀ ovf, computePoints ovf ⟨"", "", "", [], "1e3"⟩ = .ok 80)
      ∧ (isPlainDecimal "0x1p4" = false ∧ isFloatLiteral "0x1p4" = true
        ∧ ParseFloat "0x1p4" = .ok (.fin 16)
        ∧ ∀ ovf, computePoints ovf ⟨"", "", "", [], "0x1p4"⟩ = .ok 80)
      ∧ (isPlainDecimal "1_000" = false ∧ isFloatLiteral "1_000" = true
        ∧ ParseFloat "1_000" = .ok (.fin 1000)
        ∧ ∀ ovf, computePoints ovf ⟨"", "", "", [], "1_000"⟩ = .ok 80)
      ∧ (isPlainDecimal "NaN" = false ∧ isSpecialWord "NaN" = true
        ∧ ParseFloat "NaN" = .ok .nan
        ∧ ∀ ovf, computePoints ovf ⟨"", "", "", [], "NaN"⟩ = .ok 0)
      ∧ (isPlainDecimal "Inf" = false ∧ isSpecialWord "Inf" = true
        ∧ ParseFloat "Inf" = .ok (.inf false)
        ∧ ∀ ovf, computePoints ovf ⟨"", "", "", [], "Inf"⟩ = .ok 5)
      ∧ (isPlainDecimal "Infinity" = false ∧ isSpecialWord "Infinity" = true
        ∧ ParseFloat "Infinity" = .ok (.inf false)
        ∧ ∀ ovf, computePoints ovf ⟨"", "", "", [], "Infinity"⟩ = .ok 5) :=
  ⟨⟨by decide, by decide, by decide!,
      fun ovf => (computePoints_of_fits ovf amd64 _ (by decide!)).trans (by decide!)⟩,
    ⟨by decide, by decide, by decide!,
      fun ovf => (computePoints_of_fits ovf amd64 _ (by decide!)).trans (by decide!)⟩,
    ⟨by decide, by decide, by decide!,
      fun ovf => (computePoints_of_fits ovf amd64 _ (by decide!)).trans (by decide!)⟩,
    ⟨by decide, by decide, by decide!,
      fun ovf => (computePoints_noItems_of_not_fin ovf amd64 _ .nan rfl (by decide!)
        (fun q hq => by cases hq)).trans (by decide!)⟩,
    ⟨by decide, by decide, by decide!,
      fun ovf => (computePoints_noItems_of_not_fin ovf amd64 _ (.inf false) rfl (by decide!)
        (fun q hq => by cases hq)).trans (by decide!)⟩,
    ⟨by decide, by decide, by decide!,
      fun ovf => (computePoints_noItems_of_not_fin ovf amd64 _ (.inf false) rfl (by decide!)
        (fun q hq => by cases hq)).trans (by decide!)⟩⟩

/-- C16 (amended): a total that is neither a number in the syntax of the
floating-point literals (the plain decimal numbers, and the numbers with
underscores between digits, with an exponent or in hexadecimal) nor one of the
words `inf`, `infinity` and `nan` is not a plain decimal number and makes
`computePoints` fail with the invalid-total error, whatever the rest of the
receipt: `"$35.00"`, `"1,000.00"`, `"abc"`, the empty string, `"1.2.3"`,
`"--1"`, `"."`, `"1e"` and `"0x"` are rejected.  Nothing else is rejected but
the literals whose value is out of the range of `float64`, as `"1e309"`:
every other total of that syntax is scored. -/
theorem C16_total_rejected (ovf : F64 → Int) (r : Receipt)
    (hl : isFloatLiteral r.Total = false) (hw : isSpecialWord r.Total = false) :
    isPlainDecimal r.Total = false
      ∧ computePoints ovf r = .error "invalid total value"
      ∧ ParseFloat r.Total = .error "invalid syntax"
      ∧ (∀ t ∈ ["$35.00", "1,000.00", "abc", "", "1.2.3", "--1", ".", "1e", "0x"],
          isPlainDecimal t = false ∧ isFloatLiteral t = false ∧ isSpecialWord t = false
            ∧ computePoints ovf { r with Total := t } = .error "invalid total value")
      ∧ (∀ t, isFloatLiteral t = true ∨ isSpecialWord t = true →
          (∃ p, computePoints ovf { r with Total := t } = .ok p)
            ∨ (isFloatLiteral t = true ∧ ParseFloat t = .error "value out of range"
              ∧ computePoints ovf { r with Total := t } = .error "invalid total value"))
      ∧ isPlainDecimal "1e309" = false ∧ isFloatLiteral "1e309" = true
      ∧ ParseFloat "1e309" = .error "value out of range" := by
  have key : ∀ r : Receipt, isFloatLiteral r.Total = false → isSpecialWord r.Total = false →
      computePoints ovf r = .error "invalid total value" := by
    intro r hl hw
    unfold computePoints
    rw [ParseFloat_rejects r.Total hl hw]
  have hplain : isPlainDecimal r.Total = false := by
    cases hp : isPlainDecimal r.Total with
    | false => rfl
    | true =>
      rw [isFloatLiteral_of_isPlainDecimal r.Total hp] at hl
      exact absurd hl (by simp)
  have hlist : (["$35.00", "1,000.00", "abc", "", "1.2.3", "--1", ".", "1e", "0x"].all fun t =>
      !isPlainDecimal t && !isFloatLiteral t && !isSpecialWord t) = true := by decide
  refine ⟨hplain, key r hl hw, ParseFloat_rejects r.Total hl hw, ?_, ?_, by decide, by decide,
    by decide!⟩
  · intro t ht
    have := List.all_eq_true.1 hlist t ht
    simp only [Bool.and_eq_true, Bool.not_eq_true'] at this
    exact ⟨this.1.1, this.1.2, this.2, key { r with Total := t } this.1.2 this.2⟩
  · intro t ht
    rcases (ParseFloat_accepts_iff t).2 ht with ⟨v, hv⟩ | ⟨h1, h2⟩
    · left
      exact ⟨_, computePoints_eq ovf { r with Total := t } v hv⟩
    · right
      refine ⟨h1, h2, ?_⟩
      unfold computePoints
      dsimp only
      rw [h2]

/-- Witness of C16, amended: a receipt of the retailer "Target" without items
whose total is "$35.00". -/
theorem C16_total_rejected_witness :
    isFloatLiteral "$35.00" = false ∧ isSpecialWord "$35.00" = false
      ∧ isPlainDecimal "$35.00" = false
      ∧ computePoints amd64 ⟨"Target", "2022-01-01", "13:01", [], "$35.00"⟩
        = .error "invalid total value" :=
  ⟨by decide, by decide, by decide,
    (C16_total_rejected amd64 ⟨"Target", "2022-01-01", "13:01", [], "$35.00"⟩
      (by decide) (by decide)).2.1⟩

/-! ## C17 -/

theorem highTotalPoints_of_neg (q : ℚ) (h : q < 0) : highTotalPoints (.fin q) = 0 := by
  unfold highTotalPoints F64.lt
  rw [if_neg]
  rw [decide_eq_true_eq]
  intro h10
  linarith

theorem quarterPoints_of_neg (q : ℚ) (h : q < 0) : quarterPoints (.fin q) = 25 := by
  unfold quarterPoints
  rw [if_pos (isMultipleOfQuarter_of_neg q h)]

/-- C17 (counterexample): the total `"-Inf"` parses to the negative infinity, a
negative value of which `isMultipleOfQuarter` is false: `math.Mod` of an
infinity is NaN and both comparisons with a NaN fail.  The receipt, otherwise
empty, gets no quarter bonus and scores 0; `"-Infinity"` behaves the same. -/
theorem C17_negative_infinity_no_bonus :
    ParseFloat "-Inf" = .ok (.inf true)
      ∧ ParseFloat "-Infinity" = .ok (.inf true)
      ∧ F64.lt (.inf true) (.fin 0) = true
      ∧ Mod (.inf true) (roundToF64 (25 / 100)) = .nan
      ∧ isMultipleOfQuarter (.inf true) = false
      ∧ quarterPoints (.inf true) = 0
      ∧ (∀ ovf, computePoints ovf ⟨"", "", "", [], "-Inf"⟩ = .ok 0)
      ∧ ∀ ovf, computePoints ovf ⟨"", "", "", [], "-Infinity"⟩ = .ok 0 :=
  ⟨by decide!, by decide!, by decide!, by decide!, by decide!, by decide!,
    fun ovf => (computePoints_noItems_of_not_fin ovf amd64 _ (.inf true) rfl (by decide!)
      (fun q hq => by cases hq)).trans (by decide!),
    fun ovf => (computePoints_noItems_of_not_fin ovf amd64 _ (.inf true) rfl (by decide!)
      (fun q hq => by cases hq)).trans (by decide!)⟩

/-- C17 (amended): for every negative finite parsed total `q`,
`isMultipleOfQuarter` is true: the remainder of `math.Mod` is not positive, so
the first comparison `remainder < epsilon`, made without an absolute value,
holds.  `computePoints` then awards the 25 points of the quarter rule whatever
the cents are, and no points of the rule of the totals above 10: the score is
the sum of the other contributions and 25. -/
theorem C17_negative_finite_total (ovf : F64 → Int) (r : Receipt) (q : ℚ)
    (h : ParseFloat r.Total = .ok (.fin q)) (hq : q < 0) :
    isMultipleOfQuarter (.fin q) = true
      ∧ (∃ rem : ℚ, Mod (.fin q) (roundToF64 (25 / 100)) = .fin rem ∧ rem ≤ 0
          ∧ F64.lt (.fin rem) (roundToF64 (1 / 1000000)) = true)
      ∧ quarterPoints (.fin q) = 25
      ∧ computePoints ovf r
        = .ok (wrapInt (retailerPoints r + roundDollarPoints ovf (.fin q) + 25 + pairPoints r
            + itemsPoints ovf r + oddDayPoints r + afternoonPoints r)) := by
  refine ⟨isMultipleOfQuarter_of_neg q hq, ?_, quarterPoints_of_neg q hq, ?_⟩
  · obtain ⟨rem, hr, hr0⟩ := Mod_quarter_of_neg q hq
    refine ⟨rem, ?_, hr0, ?_⟩
    · rw [roundToF64_quarter]
      exact hr
    · rw [roundToF64_epsilon]
      unfold F64.lt
      rw [decide_eq_true_eq]
      calc rem ≤ 0 := hr0
        _ < 4722366482869645 / 4722366482869645213696 := by norm_num
  · rw [computePoints_eq ovf r (.fin q) h]
    unfold exactPoints
    rw [quarterPoints_of_neg q hq, highTotalPoints_of_neg q hq, add_zero]

/-- Witness of C17, amended: the total "-0.10", which parses to the float
nearest to -0.1. -/
theorem C17_negative_finite_total_witness :
    ParseFloat "-0.10" = .ok (.fin (-3602879701896397 / 36028797018963968))
      ∧ (-3602879701896397 / 36028797018963968 : ℚ) < 0
      ∧ isMultipleOfQuarter (.fin (-3602879701896397 / 36028797018963968)) = true
      ∧ quarterPoints (.fin (-3602879701896397 / 36028797018963968)) = 25 :=
  ⟨by decide!, by norm_num,
    (C17_negative_finite_total amd64 ⟨"", "", "", [], "-0.10"⟩
      (-3602879701896397 / 36028797018963968) (by decide!) (by norm_num)).1,
    (C17_negative_finite_total amd64 ⟨"", "", "", [], "-0.10"⟩
      (-3602879701896397 / 36028797018963968) (by decide!) (by norm_num)).2.2.1⟩

/-! ## C18 -/

theorem exactPoints_perm (ovf : F64 → Int) (r : Receipt) (items : List ReceiptItem) (v : F64)
    (h : r.Items.Perm items) :
    exactPoints ovf { r with Items := items } v = exactPoints ovf r v := by
  have e1 : items.length = r.Items.length := h.length_eq.symm
  have e2 : (items.map (itemBonus ovf)).sum = (r.Items.map (itemBonus ovf)).sum :=
    ((h.map (itemBonus ovf)).sum_eq).symm
  simp only [exactPoints, retailerPoints, pairPoints, itemsPoints, oddDayPoints, afternoonPoints]
  rw [e1, e2]

/-- C18: the score does not depend on the order of the items.  For every
receipt and every permutation of its list of items, `computePoints` returns on
the permuted receipt what it returns on the receipt: the same score, or the
same error. -/
theorem C18_item_order_irrelevant (ovf : F64 → Int) (r : Receipt) (items : List ReceiptItem)
    (h : r.Items.Perm items) :
    computePoints ovf { r with Items := items } = computePoints ovf r := by
  cases hp : ParseFloat r.Total with
  | error e =>
    have e1 : computePoints ovf r = .error "invalid total value" := by
      unfold computePoints
      rw [hp]
    have e2 : computePoints ovf { r with Items := items } = .error "invalid total value" := by
      unfold computePoints
      dsimp only
      rw [hp]
    rw [e1, e2]
  | ok v =>
    rw [computePoints_eq ovf r v hp, computePoints_eq ovf { r with Items := items } v hp,
      exactPoints_perm ovf r items v h]

/-- Witness of C18: the receipt of the retailer "Target", scored 33, and the
same receipt with its five items in the reverse order. -/
theorem C18_item_order_irrelevant_witness :
    targetReceipt.Items.Perm targetReceipt.Items.reverse
      ∧ computePoints amd64 targetReceipt = .ok 33
      ∧ computePoints amd64 { targetReceipt with Items := targetReceipt.Items.reverse }
        = computePoints amd64 targetReceipt :=
  ⟨(List.reverse_perm _).symm, by decide!,
    C18_item_order_irrelevant amd64 targetReceipt targetReceipt.Items.reverse
      (List.reverse_perm _).symm⟩

/-! ## C19 -/

end ReceiptProcessor
